import Mathlib

/-!
# Adalanche query engine: filter parser, predicate evaluator, indexed executor

Shallow embedding of `queryparser.go` (parser and evaluator) and of
`modules/query/execute.go` (index-optimised executor).

Go strings are byte sequences, so a string is a list of byte values.
Run-time panics (index or slice out of range) are a result of their own,
distinct from a returned `error`.
-/

namespace Adalanche

/-- A Go string: its sequence of bytes (each below 256). -/
abbrev Str := List Nat

/-- The bytes of an ASCII literal. -/
def ascii (s : String) : Str := s.toList.map Char.toNat

/-- Go conversion `string(b)` of a byte `b`: the UTF-8 encoding of the code
point `b` (one byte below 128, two bytes from 128 on). -/
def byteToString (b : Nat) : Str :=
  if b < 128 then [b] else [192 + b / 64, 128 + b % 64]

/-- Error sites of the parser, one per `errors.New` / `fmt.Errorf` / library error. -/
inductive ParseError
  | tooShort
  | noParens
  | incompleteAttributeName
  | oneColon
  | unexpectedClose
  | tildeNotEquals
  | incompleteValue
  | limitNotInteger
  | randomNotInteger
  | pwnMethod
  | unknownSynthetic
  | modifierNotInteger
  | andNeedsEquality
  | orNeedsEquality
  | unknownModifier
  | regexpCompile
  | globCompile
  | numericNotInteger
  | expectingClose
  | extraData
  deriving DecidableEq, Repr

/-- Outcome of a Go call: a value, a returned error, a run-time panic, or
(for the fuelled recursion only) exhausted fuel. -/
inductive Res (α : Type)
  | ok : α → Res α
  | error : ParseError → Res α
  | panic : Res α
  | fuel : Res α
  deriving DecidableEq, Repr

/-- Go indexing `s[i]`: panics when `i` is out of range. -/
def byteAt (s : Str) (i : Nat) : Res Nat :=
  match s.get? i with
  | some b => .ok b
  | none => .panic

/-- Go slicing `s[i:]`: panics when `i > len(s)`. -/
def sliceFrom (s : Str) (i : Nat) : Res Str :=
  if i ≤ s.length then .ok (s.drop i) else .panic

/-- Go slicing `s[i:j]`: panics unless `i ≤ j ≤ len(s)`. -/
def slice (s : Str) (i j : Nat) : Res Str :=
  if i ≤ j ∧ j ≤ s.length then .ok ((s.take j).drop i) else .panic

/-- The Go `strings.HasPrefix(s, p)`. -/
def hasPrefix (s p : Str) : Bool := p.isPrefixOf s

/-- The Go `strings.HasSuffix(s, p)`. -/
def hasSuffix (s p : Str) : Bool := p.isSuffixOf s

/-- The Go `strings.Index(s, string(b))` for a single byte `b`: position of
its first occurrence, `none` for `-1`. -/
def indexByte (s : Str) (b : Nat) : Option Nat :=
  match s with
  | [] => none
  | c :: rest => if c = b then some 0 else (indexByte rest b).map (· + 1)

inductive comparatortype
  | CompareEquals
  | CompareLessThan
  | CompareLessThanEqual
  | CompareGreaterThan
  | CompareGreaterThanEqual
  deriving DecidableEq, Repr

def comparatortype.Compare (c : comparatortype) (a b : Int) : Bool :=
  match c with
  | .CompareEquals => decide (a = b)
  | .CompareLessThan => decide (a < b)
  | .CompareLessThanEqual => decide (a ≤ b)
  | .CompareGreaterThan => decide (a > b)
  | .CompareGreaterThanEqual => decide (a ≥ b)

/-- Modelled from the spec: the attribute registry is not among the sources;
an attribute is an opaque identifier with a canonical string name. -/
structure Attribute where
  name : Str
  deriving DecidableEq, Repr

/-- Modelled from the spec: the registry lookup `A(name)`. -/
def A (name : Str) : Attribute := ⟨name⟩

/-- The AST. A compiled regular expression or glob is kept as its source
pattern; `limit` carries its mutable counter. -/
inductive Query
  | andquery (subitems : List Query)
  | orquery (subitems : List Query)
  | notquery (subitem : Query)
  | countModifier (a : Attribute) (c : comparatortype) (value : Int)
  | lengthModifier (a : Attribute) (c : comparatortype) (value : Int)
  | andModifier (a : Attribute) (value : Int)
  | orModifier (a : Attribute) (value : Int)
  | numericComparator (a : Attribute) (c : comparatortype) (value : Int)
  | limit (counter : Int)
  | random100 (c : comparatortype) (v : Int)
  | hasAttr (a : Attribute)
  | hasStringMatch (a : Attribute) (m : Str)
  | hasInsensitiveStringMatch (a : Attribute) (m : Str)
  | hasGlobMatch (a : Attribute) (m : Str) (casesensitive : Bool)
  | hasRegexpMatch (a : Attribute) (m : Str)
  | recursiveDNmatcher (a : Attribute) (dn : Str)
  | pwnquery (canpwn : Bool) (method : Nat) (target : Option Query)
  | pwnable (method : Nat)


/-- Result of `strconv.ParseUint`/`ParseInt`: no error, syntax error, range error. -/
inductive NumError
  | none
  | invalid
  | range
  deriving DecidableEq, Repr

/-- The digit loop of `strconv.ParseUint(s, 10, 64)`. -/
def parseUintLoop : Str → Nat → Nat × NumError
  | [], n => (n, .none)
  | c :: rest, n =>
    if 48 ≤ c ∧ c ≤ 57 then
      if n ≥ (2 ^ 64 - 1) / 10 + 1 then (2 ^ 64 - 1, .range)
      else
        let n1 := n * 10 + (c - 48)
        if n1 > 2 ^ 64 - 1 then (2 ^ 64 - 1, .range) else parseUintLoop rest n1
    else (0, .invalid)

/-- The Go `strconv.ParseUint(s, 10, 64)`. -/
def parseUint (s : Str) : Nat × NumError :=
  if s = [] then (0, .invalid) else parseUintLoop s 0

/-- The Go `strconv.ParseInt(s, 10, 64)`: value and whether `err == nil`.
A syntax error returns 0, a range error the nearest bound. -/
def ParseInt (s : Str) : Int × Bool :=
  match s with
  | [] => (0, false)
  | c :: rest =>
    let neg := decide (c = 45)
    let digits := if c = 43 ∨ c = 45 then rest else s
    match parseUint digits with
    | (_, .invalid) => (0, false)
    | (un, _) =>
      if !neg ∧ un ≥ 2 ^ 63 then (2 ^ 63 - 1, false)
      else if neg ∧ un > 2 ^ 63 then (-(2 ^ 63 : Int), false)
      else (if neg then -(un : Int) else (un : Int), true)

/-- External libraries and registries the parser and the evaluator call:
`strings.ToLower`, `regexp` (a compiled expression is kept as its pattern),
`gobwas/glob`, the attack-method registry `PwnMethodString`, and the
process-wide random source (`rand i` is the `i`-th draw of `rand.Int63n(100)`). -/
structure Lib where
  toLower : Str → Str
  regexpCompile : Str → Bool
  regexpMatch : Str → Str → Bool
  globCompile : Str → Bool
  globMatch : Str → Str → Bool
  PwnMethodString : Str → Option Nat
  rand : Nat → Int

/-- The `attributeloop` of `ParseQuery`: returns the attribute name, the
modifier and the rest of the input. -/
def attributeloop : Str → Str → Res (Str × Str × Str)
  | [], _ => .error .incompleteAttributeName
  | c :: rest, attributename =>
    if c = 92 then
      match rest with
      | [] => .panic
      | d :: rest2 => attributeloop rest2 (attributename ++ byteToString d)
    else if c = 58 then
      match indexByte rest 58 with
      | none => .error .oneColon
      | some nextcolon => .ok (attributename, rest.take nextcolon, rest.drop (nextcolon + 1))
    else if c = 41 then .error .unexpectedClose
    else if c = 126 ∨ c = 61 ∨ c = 60 ∨ c = 62 then .ok (attributename, [], c :: rest)
    else attributeloop rest (attributename ++ byteToString c)

/-- The comparator step of `ParseQuery`: the comparator string and the rest. -/
def parseComparator (s : Str) : Res (Str × Str) :=
  match s with
  | [] => .panic
  | c :: rest =>
    if c = 126 then
      match rest with
      | [] => .panic
      | d :: rest2 => if d ≠ 61 then .error .tildeNotEquals else .ok ([61], rest2)
    else if c = 60 ∨ c = 62 then
      match rest with
      | [] => .panic
      | d :: rest2 => if d = 61 then .ok (byteToString c ++ [61], rest2) else .ok (byteToString c, rest)
    else .ok (byteToString c, rest)

/-- The `switch comparatorstring` of `ParseQuery`. -/
def comparatorOf (comparatorstring : Str) : comparatortype :=
  if comparatorstring = [60] then .CompareLessThan
  else if comparatorstring = [60, 61] then .CompareLessThanEqual
  else if comparatorstring = [62] then .CompareGreaterThan
  else if comparatorstring = [62, 61] then .CompareGreaterThanEqual
  else .CompareEquals

/-- The `valueloop` of `ParseQuery`: the value and the rest, which starts
with the closing parenthesis. -/
def valueloop : Str → Str → Res (Str × Str)
  | [], _ => .error .incompleteValue
  | c :: rest, value =>
    if c = 92 then
      match rest with
      | [] => .panic
      | d :: rest2 => valueloop rest2 (value ++ byteToString d)
    else if c = 41 then .ok (value, c :: rest)
    else valueloop rest (value ++ byteToString c)

/-- The Go `strings.Split(s, ",")`. -/
def splitComma : Str → List Str
  | [] => [[]]
  | c :: rest =>
    match splitComma rest with
    | [] => [[]]
    | x :: xs => if c = 44 then [] :: x :: xs else (c :: x) :: xs

/-- Sequencing of Go calls: an error, a panic or exhausted fuel ends the call. -/
def Res.bind {α β : Type} (r : Res α) (f : α → Res β) : Res β :=
  match r with
  | .ok a => f a
  | .error e => .error e
  | .panic => .panic
  | .fuel => .fuel

/-- The body of `ParseQueryStrict` after its call of `ParseQuery`. -/
def strictResult (r : Res (Str × Query)) : Res Query :=
  r.bind fun p => if p.1 ≠ [] then .error .extraData else .ok p.2

/-- The Go `target, _ = ParseQueryStrict(values[1])`: a returned error is
dropped and leaves the target nil. -/
def pwnTarget (r : Res Query) : Res (Option Query) :=
  match r with
  | .ok q => .ok (some q)
  | .error _ => .ok none
  | .panic => .panic
  | .fuel => .fuel

/-- The `switch attributename` of `ParseQuery` for the synthetic attributes
(names starting with `_`); `strict` is the recursive `ParseQueryStrict`. -/
def buildSynthetic (L : Lib) (strict : Str → Res Query) (attributename : Str)
    (comparator : comparatortype) (value : Str) : Res Query :=
  let valuenum := (ParseInt value).1
  let numok := (ParseInt value).2
  if attributename = ascii "_limit" then
    if !numok then .error .limitNotInteger else .ok (.limit valuenum)
  else if attributename = ascii "_random100" then
    if !numok then .error .randomNotInteger else .ok (.random100 comparator valuenum)
  else if attributename = ascii "_pwnable" ∨ attributename = ascii "_canpwn" then
    let comma := value.contains 44
    let values := splitComma value
    let pwnmethod := if comma then values.headD [] else value
    (if comma then pwnTarget (strict (values.getD 1 [])) else .ok none).bind fun target =>
    if pwnmethod ≠ [] ∧ pwnmethod ≠ [42] then
      match L.PwnMethodString pwnmethod with
      | none => .error .pwnMethod
      | some method => .ok (.pwnquery (decide (attributename = ascii "_canpwn")) method target)
    else .ok (.pwnquery (decide (attributename = ascii "_canpwn")) 0 target)
  else .error .unknownSynthetic

/-- The end of `ParseQuery` (from the comment `string comparison` on), reached
without modifier or with `caseExactMatch`. -/
def stringComparison (L : Lib) (attr : Attribute) (casesensitive : Bool)
    (comparator : comparatortype) (value : Str) : Res Query :=
  if comparator = .CompareEquals then
    if value = [42] then .ok (.hasAttr attr)
    else if hasPrefix value [47] && hasSuffix value [47] then
      (slice value 1 (value.length - 1)).bind fun pattern =>
      let pattern := if !casesensitive then L.toLower pattern else pattern
      if !L.regexpCompile pattern then .error .regexpCompile
      else .ok (.hasRegexpMatch attr pattern)
    else if value.any (fun c => c = 63 ∨ c = 42) then
      let pattern := if !casesensitive then L.toLower value else value
      if !L.globCompile pattern then .error .globCompile
      else .ok (.hasGlobMatch attr pattern casesensitive)
    else if casesensitive then .ok (.hasStringMatch attr value)
    else .ok (.hasInsensitiveStringMatch attr (L.toLower value))
  else if !(ParseInt value).2 then .error .numericNotInteger
  else .ok (.numericComparator attr comparator (ParseInt value).1)

/-- The `switch modifier` of `ParseQuery` for an ordinary attribute, followed
by the string comparison. -/
def buildOrdinary (L : Lib) (attributename modifier : Str)
    (comparator : comparatortype) (value : Str) : Res Query :=
  let valuenum := (ParseInt value).1
  let numok := (ParseInt value).2
  let attr := A attributename
  if modifier = [] then stringComparison L attr false comparator value
  else if modifier = ascii "caseExactMatch" then stringComparison L attr true comparator value
  else if modifier = ascii "count" then
    if !numok then .error .modifierNotInteger
    else .ok (.countModifier attr comparator valuenum)
  else if modifier = ascii "len" ∨ modifier = ascii "length" then
    if !numok then .error .modifierNotInteger
    else .ok (.lengthModifier attr comparator valuenum)
  else if modifier = ascii "1.2.840.113556.1.4.803" ∨ modifier = ascii "and" then
    if comparator ≠ .CompareEquals then .error .andNeedsEquality
    else .ok (.andModifier attr valuenum)
  else if modifier = ascii "1.2.840.113556.1.4.804" ∨ modifier = ascii "or" then
    if comparator ≠ .CompareEquals then .error .orNeedsEquality
    else .ok (.orModifier attr valuenum)
  else if modifier = ascii "1.2.840.113556.1.4.1941" ∨ modifier = ascii "dnchain" then
    .ok (.recursiveDNmatcher attr value)
  else .error .unknownModifier

/-- The part of `ParseQuery` after the value loop (from `strconv.ParseInt` to
the end): builds the node from attribute name, modifier, comparator and
value. Every `return s, node, nil` there returns the remaining input `s`
unchanged, so only the node is computed here. -/
def buildNode (L : Lib) (strict : Str → Res Query) (attributename modifier : Str)
    (comparator : comparatortype) (value : Str) : Res Query :=
  (byteAt attributename 0).bind fun c0 =>
  if c0 = 95 then buildSynthetic L strict attributename comparator value
  else buildOrdinary L attributename modifier comparator value

/-- The lexical part of an attribute expression in `ParseQuery`: attribute
loop, comparator, value loop and the closing parenthesis. -/
structure AttributeExpression where
  attributename : Str
  modifier : Str
  comparator : comparatortype
  value : Str
  rest : Str
  deriving DecidableEq, Repr

/-- The part of `ParseQuery` from the attribute loop to `Eat the )`; `s` is
the input after its opening parenthesis. -/
def lexAttributeExpression (s : Str) : Res AttributeExpression :=
  (attributeloop s []).bind fun r1 =>
  (parseComparator r1.2.2).bind fun r2 =>
  (valueloop r2.2 []).bind fun r3 =>
  (sliceFrom r3.2 1).bind fun rest =>
  .ok ⟨r1.1, r1.2.1, comparatorOf r2.1, r3.1, rest⟩

/-- The attribute-expression part of `ParseQuery` (from the comment
`parse one Attribute = Value pair` on). -/
def parseAttributeExpression (L : Lib) (strict : Str → Res Query) (s : Str) :
    Res (Str × Query) :=
  (lexAttributeExpression s).bind fun e =>
  (buildNode L strict e.attributename e.modifier e.comparator e.value).bind fun query =>
  .ok (e.rest, query)

mutual
/-- The function `ParseQuery`, with fuel for its recursion. -/
def ParseQueryF (L : Lib) : Nat → Str → Res (Str × Query)
  | 0, _ => .fuel
  | n + 1, s =>
    if s.length < 5 then .error .tooShort
    else if !hasPrefix s [40] || !hasSuffix s [41] then .error .noParens
    else
      (sliceFrom s 1).bind fun s1 =>
      (byteAt s1 0).bind fun c =>
      if c = 40 then
        (ParseQueryF L n s1).bind fun r =>
        (sliceFrom r.1 1).bind fun s2 => .ok (s2, r.2)
      else if c = 38 then
        (sliceFrom s1 1).bind fun s2 =>
        (parsemultiplequeriesF L n s2 []).bind fun r =>
        (sliceFrom r.1 1).bind fun s3 => .ok (s3, .andquery r.2)
      else if c = 124 then
        (sliceFrom s1 1).bind fun s2 =>
        (parsemultiplequeriesF L n s2 []).bind fun r =>
        (sliceFrom r.1 1).bind fun s3 => .ok (s3, .orquery r.2)
      else if c = 33 then
        (sliceFrom s1 1).bind fun s2 =>
        (ParseQueryF L n s2).bind fun r =>
        (sliceFrom r.1 1).bind fun s3 => .ok (s3, .notquery r.2)
      else
        parseAttributeExpression L (fun v => strictResult (ParseQueryF L n v)) s1
/-- The function `parsemultiplequeries`, with fuel; `result` is the slice
built so far. -/
def parsemultiplequeriesF (L : Lib) : Nat → Str → List Query → Res (Str × List Query)
  | 0, _, _ => .fuel
  | n + 1, s, result =>
    if s.length > 0 ∧ s.head? = some 40 then
      (ParseQueryF L n s).bind fun r =>
      parsemultiplequeriesF L n r.1 (result ++ [r.2])
    else if s.length = 0 ∨ s.head? ≠ some 41 then .error .expectingClose
    else .ok (s, result)
end

/-- The function `ParseQuery`: remainder and AST, an error, or a panic. Every
recursive call consumes an opening parenthesis, so this fuel is never used
up (theorem `ParseQuery_ne_fuel`). -/
def ParseQuery (L : Lib) (s : Str) : Res (Str × Query) :=
  ParseQueryF L (2 * s.length + 2) s

def ParseQueryStrict (L : Lib) (s : Str) : Res Query :=
  strictResult (ParseQuery L s)

/-- ASCII lower-casing, the behaviour of `strings.ToLower` on ASCII text. -/
def asciiLower (s : Str) : Str := s.map fun c => if 65 ≤ c ∧ c ≤ 90 then c + 32 else c

/-- Shell-style wildcard matching with `*` and `?`, the fragment of
`gobwas/glob` the examples use. -/
def simpleGlob : Str → Str → Bool
  | [], t => t.isEmpty
  | c :: p, t =>
    if c = 42 then t.tails.any (simpleGlob p)
    else match t with
      | [] => false
      | x :: t2 => (c = 63 ∨ c = x) && simpleGlob p t2

/-- Anchored matching of a pattern of literals, `.`, postfix `*` and a final `$`. -/
def regexHere : Str → Str → Bool
  | [], _ => true
  | [c], t =>
    if c = 36 then t.isEmpty
    else match t with
      | [] => false
      | x :: _ => decide (c = 46 ∨ c = x)
  | c :: d :: p, t =>
    if d = 42 then
      (t.tails.filter fun u => (t.take (t.length - u.length)).all fun x => c = 46 ∨ c = x).any
        (regexHere p)
    else match t with
      | [] => false
      | x :: t2 => (c = 46 ∨ c = x) && regexHere (d :: p) t2

/-- Unanchored search, the fragment of `regexp.MatchString` the examples
use: literals, `.`, postfix `*`, a leading `^` and a final `$`. -/
def simpleRegex (p t : Str) : Bool :=
  match p with
  | c :: p2 => if c = 94 then regexHere p2 t else t.tails.any (regexHere p)
  | [] => true

/-- A concrete library instance for running examples: ASCII lower-casing,
the wildcard and regular-expression fragments above, an empty method
registry and a constant random source. -/
def exampleLib : Lib where
  toLower := asciiLower
  regexpCompile := fun _ => true
  regexpMatch := simpleRegex
  globCompile := fun _ => true
  globMatch := simpleGlob
  PwnMethodString := fun _ => none
  rand := fun _ => 0

/-- An attack-path edge; only its method is read by the evaluator. -/
structure PwnInfo where
  Method : Nat
  deriving DecidableEq, Repr

/-- Modelled from the spec: the object type is not among the sources. An
object has an identity, per attribute its rendered string values and its
integer projection `(value, ok)`, and the two edge lists. -/
structure Object where
  ID : Nat
  rendered : List (Attribute × List Str)
  ints : List (Attribute × Int × Bool)
  CanPwn : List PwnInfo
  PwnableBy : List PwnInfo
  deriving DecidableEq, Repr

/-- Modelled from the spec: `rendered_strings(object)`, empty for a missing attribute. -/
def Object.AttrRendered (o : Object) (a : Attribute) : List Str :=
  match o.rendered.lookup a with
  | some vs => vs
  | none => []

/-- Modelled from the spec: `as_integer(object) -> (int64, ok)`; a missing
attribute gives the Go zero value and `ok = false`. -/
def Object.AttrInt (o : Object) (a : Attribute) : Int × Bool :=
  match o.ints.lookup a with
  | some p => p
  | none => (0, false)

/-- Modelled from the spec: the store read contract (the storage engine is
not among the sources): the objects in scan order, the exact-match index of
each attribute (`none` when the value is not found) and lookup of an object
by distinguished name. -/
structure Objects where
  objs : List Object
  index : Attribute → Str → Option (List Object)
  Find : Str → Option Object

/-- Two's-complement wrap-around of an `int64` result. -/
def wrapInt64 (x : Int) : Int := (x + 2 ^ 63) % 2 ^ 64 - 2 ^ 63

/-- The `for ... range o.AttrRendered(a)` loop of `recursiveDNmatchFunc`;
`recurse` is the recursive call with `maxdepth-1`. -/
def dnValuesLoop (L : Lib) (AllObjects : Objects) (dn : Str) (recurse : Object → Bool) :
    List Str → Bool
  | [] => false
  | value :: rest =>
    if L.toLower value = L.toLower dn then true
    else match AllObjects.Find value with
      | some parent => recurse parent
      | none => dnValuesLoop L AllObjects dn recurse rest

def recursiveDNmatchFunc (L : Lib) (AllObjects : Objects) (o : Object) (a : Attribute)
    (dn : Str) : Nat → Bool
  | 0 => false
  | maxdepth + 1 =>
    dnValuesLoop L AllObjects dn
      (fun parent => recursiveDNmatchFunc L AllObjects parent a dn maxdepth) (o.AttrRendered a)

/-- The edge scan of `pwnquery.Evaluate`. -/
def pwnScan (method : Nat) : List PwnInfo → Bool
  | [] => false
  | pwninfo :: rest => if method = 0 ∨ method = pwninfo.Method then true else pwnScan method rest

mutual
/-- The method `Evaluate` of every node kind. The mutable state is explicit:
the call returns the result, the node with its `limit` counters updated, and
the number of draws taken from the random source so far. -/
def Query.Evaluate (L : Lib) (AllObjects : Objects) : Query → Object → Nat → Bool × Query × Nat
  | .andquery subitems, o, r =>
    let res := evaluateAnd L AllObjects subitems o r
    (res.1, .andquery res.2.1, res.2.2)
  | .orquery subitems, o, r =>
    let res := evaluateOr L AllObjects subitems o r
    (res.1, .orquery res.2.1, res.2.2)
  | .notquery subitem, o, r =>
    let res := Query.Evaluate L AllObjects subitem o r
    (!res.1, .notquery res.2.1, res.2.2)
  | .countModifier a c value, o, r =>
    (c.Compare (o.AttrRendered a).length value, .countModifier a c value, r)
  | .lengthModifier a c value, o, r =>
    ((o.AttrRendered a).any (fun v => c.Compare v.length value), .lengthModifier a c value, r)
  | .andModifier a value, o, r =>
    (if !(o.AttrInt a).2 then false else decide (Int.land (o.AttrInt a).1 value = value),
      .andModifier a value, r)
  | .orModifier a value, o, r =>
    (if !(o.AttrInt a).2 then false else decide (Int.land (o.AttrInt a).1 value ≠ 0),
      .orModifier a value, r)
  | .numericComparator a c value, o, r =>
    (c.Compare (o.AttrInt a).1 value, .numericComparator a c value, r)
  | .limit counter, _, r =>
    (decide (wrapInt64 (counter - 1) ≥ 0), .limit (wrapInt64 (counter - 1)), r)
  | .random100 c v, _, r => (c.Compare (L.rand r) v, .random100 c v, r + 1)
  | .hasAttr a, o, r => (decide ((o.AttrRendered a).length > 0), .hasAttr a, r)
  | .hasStringMatch a m, o, r =>
    ((o.AttrRendered a).any (fun value => decide (m = value)), .hasStringMatch a m, r)
  | .hasInsensitiveStringMatch a m, o, r =>
    ((o.AttrRendered a).any (fun value => decide (m = L.toLower value)),
      .hasInsensitiveStringMatch a m, r)
  | .hasGlobMatch a m casesensitive, o, r =>
    ((o.AttrRendered a).any
      (fun value => L.globMatch m (if !casesensitive then L.toLower value else value)),
      .hasGlobMatch a m casesensitive, r)
  | .hasRegexpMatch a m, o, r =>
    ((o.AttrRendered a).any (fun value => L.regexpMatch m value), .hasRegexpMatch a m, r)
  | .recursiveDNmatcher a dn, o, r =>
    (recursiveDNmatchFunc L AllObjects o a dn 10, .recursiveDNmatcher a dn, r)
  | .pwnquery canpwn method target, o, r =>
    (pwnScan method (if !canpwn then o.PwnableBy else o.CanPwn), .pwnquery canpwn method target, r)
  | .pwnable method, o, r =>
    (o.PwnableBy.any (fun pwninfo => decide (pwninfo.Method = method)), .pwnable method, r)
/-- The loop of `andquery.Evaluate`: stops at the first false child. -/
def evaluateAnd (L : Lib) (AllObjects : Objects) : List Query → Object → Nat →
    Bool × List Query × Nat
  | [], _, r => (true, [], r)
  | query :: rest, o, r =>
    let res := Query.Evaluate L AllObjects query o r
    if !res.1 then (false, res.2.1 :: rest, res.2.2)
    else
      let more := evaluateAnd L AllObjects rest o res.2.2
      (more.1, res.2.1 :: more.2.1, more.2.2)
/-- The loop of `orquery.Evaluate`: stops at the first true child. -/
def evaluateOr (L : Lib) (AllObjects : Objects) : List Query → Object → Nat →
    Bool × List Query × Nat
  | [], _, r => (false, [], r)
  | query :: rest, o, r =>
    let res := Query.Evaluate L AllObjects query o r
    if res.1 then (true, res.2.1 :: rest, res.2.2)
    else
      let more := evaluateOr L AllObjects rest o res.2.2
      (more.1, res.2.1 :: more.2.1, more.2.2)
end

/-- Modelled from the spec: `scan(predicate)`, the linear filter
`ao.Filter(q.Evaluate)` of the store: evaluates the query on every object in
scan order and keeps those it accepts. Returns the kept objects and the
final state of the query and of the random source. -/
def filterLoop (L : Lib) (AllObjects : Objects) : List Object → Query → Nat →
    List Object × Query × Nat
  | [], q, r => ([], q, r)
  | o :: rest, q, r =>
    let res := q.Evaluate L AllObjects o r
    let more := filterLoop L AllObjects rest res.2.1 res.2.2
    (if res.1 then o :: more.1 else more.1, more.2.1, more.2.2)

/-- The objects kept by `ao.Filter(q.Evaluate)`. -/
def Objects.Filter (ao : Objects) (L : Lib) (AllObjects : Objects) (q : Query) : List Object :=
  (filterLoop L AllObjects ao.objs q 0).1

/-- A candidate index of `Execute`. -/
structure IndexSelectorInfo where
  a : Attribute
  matchValue : Str
  results : List Object
  queryIndex : Int
  deriving DecidableEq, Repr

/-- Modelled from the spec: the type assertions `st.(FilterOneAttribute)` and
`qo.q.(hasStringMatch)` of `Execute`, which give the attribute and the
literal `sm.m` of an exact-match node. The node declarations of package
`modules/query` are not among the sources. After the spec (data model:
`exact string match (case-sensitive/insensitive)`; executor step 1:
`every direct child that is an exact-match equality predicate`; the example
`(&(A=x)(B=y))`) the exact-match nodes are the case-sensitive node and the
case-insensitive node of the parser, each with its stored literal; no node of
glob, regular-expression or existence shape is one. -/
def exactMatchOperand : Query → Option (Attribute × Str)
  | .hasStringMatch a m => some (a, m)
  | .hasInsensitiveStringMatch a m => some (a, m)
  | _ => none

/-- The type switch at the head of `Execute`: a candidate for every
exact-match child of a conjunction (`queryIndex` left at its zero value), one
candidate with `queryIndex` -1 for a bare exact-match node, none otherwise. -/
def potentialindexes (q : Query) : List IndexSelectorInfo :=
  match q with
  | .andquery subitems =>
    subitems.filterMap fun st =>
      match exactMatchOperand st with
      | some (a, m) => some { a := a, matchValue := m, results := [], queryIndex := 0 }
      | none => none
  | t =>
    match exactMatchOperand t with
    | some (a, m) => [{ a := a, matchValue := m, results := [], queryIndex := -1 }]
    | none => []

/-- The index lookup loop of `Execute`. -/
def lookupIndexes (ao : Objects) (l : List IndexSelectorInfo) : List IndexSelectorInfo :=
  l.map fun potentialIndex =>
    match ao.index potentialIndex.a potentialIndex.matchValue with
    | some foundObjects => { potentialIndex with results := foundObjects }
    | none => potentialIndex

/-- One insertion step of the sort: `x` moves left while its result set is
strictly smaller than its predecessor's. -/
def insertByLen (x : IndexSelectorInfo) : List IndexSelectorInfo → List IndexSelectorInfo
  | [] => [x]
  | y :: rest =>
    if x.results.length < y.results.length then x :: y :: rest else y :: insertByLen x rest

/-- The insertion sort that the Go library runs inside `sort.Slice` on a
slice of at most 12 elements (`insertionSort_func`), with `less` comparing the
sizes of the result sets. -/
def insertionSort_func (l : List IndexSelectorInfo) : List IndexSelectorInfo :=
  l.foldl (fun acc x => insertByLen x acc) []

/-- The call `sort.Slice(potentialindexes, less)`. Up to 12 elements the
library runs its insertion sort; on a longer slice it runs its
pattern-defeating quicksort, which is not stable and is the parameter
`pdqsort` here (see `SortContract`). -/
def sortSlice (pdqsort : List IndexSelectorInfo → List IndexSelectorInfo)
    (l : List IndexSelectorInfo) : List IndexSelectorInfo :=
  if l.length ≤ 12 then insertionSort_func l else pdqsort l

/-- What the library promises of its sort on a long slice: the elements are
rearranged, and afterwards no element has a smaller result set than an
element before it. -/
def SortContract (pdqsort : List IndexSelectorInfo → List IndexSelectorInfo) : Prop :=
  ∀ l, (pdqsort l).Perm l ∧
    (pdqsort l).Pairwise (fun p q => ¬ q.results.length < p.results.length)

/-- The final loop of `Execute` over the sorted candidates; `none` when
every candidate has an empty result set. -/
def driveLoop (L : Lib) (AllObjects : Objects) (q : Query) :
    List IndexSelectorInfo → Option (List Object)
  | [] => none
  | foundindex :: rest =>
    if foundindex.results.length ≠ 0 then
      if foundindex.queryIndex = -1 then some foundindex.results
      else some (filterLoop L AllObjects foundindex.results q 0).1
    else driveLoop L AllObjects q rest

/-- The function `Execute`; the result is the list of objects added to the
returned collection. `pdqsort` is the library sort for long slices. -/
def Execute (L : Lib) (pdqsort : List IndexSelectorInfo → List IndexSelectorInfo)
    (AllObjects : Objects) (q : Query) (ao : Objects) : List Object :=
  if (potentialindexes q).length = 0 then ao.Filter L AllObjects q
  else
    match driveLoop L AllObjects q
        (sortSlice pdqsort (lookupIndexes ao (potentialindexes q))) with
    | some filteredobjects => filteredobjects
    | none => ao.Filter L AllObjects q

/-- Modelled from the spec: a store over the given objects whose index of
each attribute maps a value to exactly the objects holding it, in scan order,
and whose lookup by distinguished name finds nothing. -/
def exactStore (objs : List Object) : Objects where
  objs := objs
  index := fun a v =>
    let found := objs.filter fun o => (o.AttrRendered a).contains v
    if found.isEmpty then none else some found
  Find := fun _ => none


mutual
/-- No `_limit` and no `_random100` node occurs in the query (the target of an
attack-path node, which is never evaluated, is not inspected). -/
def Query.sideEffectFree : Query → Bool
  | .andquery subitems => allSideEffectFree subitems
  | .orquery subitems => allSideEffectFree subitems
  | .notquery subitem => subitem.sideEffectFree
  | .limit _ => false
  | .random100 _ _ => false
  | _ => true
/-- Every query of the list is side-effect free. -/
def allSideEffectFree : List Query → Bool
  | [] => true
  | q :: rest => q.sideEffectFree && allSideEffectFree rest
end

/-- The index of every attribute maps a value exactly to the objects of the
store that hold this value. -/
def IndexExact (ao : Objects) : Prop :=
  ∀ a v o, o ∈ (ao.index a v).getD [] ↔ (o ∈ ao.objs ∧ v ∈ o.AttrRendered a)

/-- First object of the executor example: `cn` is `y`. -/
def exObjectY : Object := ⟨1, [(A (ascii "cn"), [ascii "y"])], [], [], []⟩

/-- Second object of the executor example: `cn` is `x`. -/
def exObjectX : Object := ⟨2, [(A (ascii "cn"), [ascii "x"])], [], [], []⟩

/-- The AST of `(&(_limit=1)(cn:caseExactMatch:=x))`. -/
def exLimitQuery : Query :=
  .andquery [.limit 1, .hasStringMatch (A (ascii "cn")) (ascii "x")]

/-- The AST of `(&(cn:caseExactMatch:=x)(cn=*))`. -/
def exPureQuery : Query :=
  .andquery [.hasStringMatch (A (ascii "cn")) (ascii "x"), .hasAttr (A (ascii "cn"))]

/-- What the attribute and value loops store for the raw bytes `s`: each
byte `b` is appended as `string(b)`. ASCII text is stored unchanged. -/
def encodeBytes : Str → Str
  | [] => []
  | b :: rest => byteToString b ++ encodeBytes rest

/-- An attribute name written without escapes: no backslash, colon,
parenthesis-close or comparator byte. -/
def plainName (a : Str) : Bool :=
  a.all fun c => !(c = 92 ∨ c = 58 ∨ c = 41 ∨ c = 126 ∨ c = 61 ∨ c = 60 ∨ c = 62)

/-- An ordinary attribute name: written without escapes, not empty, and its
first byte neither opens a group (`(`, `&`, `|`, `!`) nor is `_`. -/
def ordinaryName (a : Str) : Bool :=
  plainName a &&
    match a with
    | [] => false
    | c :: _ => !(c = 40 ∨ c = 38 ∨ c = 124 ∨ c = 33 ∨ c = 95)

/-- A value written without escapes: no backslash and no closing parenthesis. -/
def plainValue (v : Str) : Bool :=
  v.all fun c => !(c = 92 ∨ c = 41)

/-- The filter text of a comparator. -/
def comparatorText : comparatortype → Str
  | .CompareEquals => [61]
  | .CompareLessThan => [60]
  | .CompareLessThanEqual => [60, 61]
  | .CompareGreaterThan => [62]
  | .CompareGreaterThanEqual => [62, 61]

/-- The filter text of an attribute expression, after the grammar
`'(' attrname [':' modifier ':'] comparator value ')'`. -/
def attributeFilter (a : Str) (modifier : Option Str) (c : comparatortype) (v : Str) : Str :=
  match modifier with
  | none => 40 :: (a ++ (comparatorText c ++ (v ++ [41])))
  | some m => 40 :: (a ++ 58 :: (m ++ 58 :: (comparatorText c ++ (v ++ [41]))))

/-- An object whose `cn` is the two-byte UTF-8 text of U+00E9. -/
def exObjectAccent : Object := ⟨3, [(A (ascii "cn"), [[195, 169]])], [], [], []⟩

/-- An object whose `cn` is `bob`. -/
def exObjectBob : Object := ⟨4, [(A (ascii "cn"), [ascii "bob"])], [], [], []⟩

/-- An object whose `cn` is `BOB`. -/
def exObjectBOB : Object := ⟨5, [(A (ascii "cn"), [ascii "BOB"])], [], [], []⟩

/-- A group object without `memberOf` values. -/
def exGroup : Object := ⟨6, [], [], [], []⟩

/-- A user whose `memberOf` values are an unrelated, resolvable group and then
the wanted group. -/
def exUser : Object :=
  ⟨7, [(A (ascii "memberOf"), [ascii "cn=other", ascii "cn=admins"])], [], [], []⟩

/-- The same user with the two `memberOf` values in the other order. -/
def exUserSwapped : Object :=
  ⟨7, [(A (ascii "memberOf"), [ascii "cn=admins", ascii "cn=other"])], [], [], []⟩

/-- A store in which the distinguished name `cn=other` resolves to `exGroup`. -/
def exDnStore : Objects where
  objs := [exGroup, exUser]
  index := fun _ _ => none
  Find := fun dn => if dn = ascii "cn=other" then some exGroup else none

/-- An object without any attribute. -/
def exObjectEmpty : Object := ⟨8, [], [], [], []⟩

/-- Fuel approximation: once the first result is not "out of fuel", the
second result (computed with more fuel) equals it. -/
def Res.approx {α : Type} (r r2 : Res α) : Prop := r ≠ .fuel → r2 = r

/-- Decimal digits of `n`, most significant first, put in front of `acc`;
`fuel` bounds the number of digits. -/
def natTextAux : Nat → Nat → Str → Str
  | 0, _, acc => acc
  | fuel + 1, n, acc =>
    if n < 10 then (48 + n) :: acc else natTextAux fuel (n / 10) ((48 + n % 10) :: acc)

/-- The decimal text of a natural number. -/
def natText (n : Nat) : Str := natTextAux (n + 1) n []

/-- The decimal text of an integer, with `-` for a negative one. -/
def intText (m : Int) : Str :=
  if m < 0 then 45 :: natText (-m).toNat else natText m.toNat

/-- Successive calls `q.Evaluate(o)` of one query instance on the objects of
a list in turn: the list of the results, the state being carried from one
call to the next. -/
def evaluateEach (L : Lib) (AllObjects : Objects) : List Object → Query → Nat → List Bool
  | [], _, _ => []
  | o :: rest, q, r =>
    (q.Evaluate L AllObjects o r).1 ::
      evaluateEach L AllObjects rest (q.Evaluate L AllObjects o r).2.1
        (q.Evaluate L AllObjects o r).2.2

/-- The text `s` with a backslash written before each of its bytes. -/
def escapeAll : Str → Str
  | [] => []
  | b :: rest => 92 :: b :: escapeAll rest

/-- An object whose integer attribute `uac` is 514 (bits 2 and 512). -/
def exObjectUac514 : Object := ⟨9, [], [(A (ascii "uac"), 514, true)], [], []⟩

/-- An object whose integer attribute `uac` is 512. -/
def exObjectUac512 : Object := ⟨10, [], [(A (ascii "uac"), 512, true)], [], []⟩

/-- An object with one outgoing attack edge of method 3 and no incoming edge. -/
def exObjectEdges : Object := ⟨11, [], [], [⟨3⟩], []⟩

/-- An object whose `cn` is `xzy`. -/
def exObjectXzy : Object := ⟨12, [(A (ascii "cn"), [ascii "xzy"])], [], [], []⟩

/-- The filter text `(esc(n):caseExactMatch:=esc(v))`, every byte of the
name `n` and of the value `v` being written after a backslash. -/
def escapedExactFilter (n v : Str) : Str :=
  40 :: (escapeAll n ++ (ascii ":caseExactMatch:=" ++ (escapeAll v ++ [41])))

/-- An attribute name as it is written in a filter text: bytes other than
colon, closing parenthesis and the comparator bytes, and backslash escapes
(a backslash with the byte it protects). -/
def nameText : Str → Bool
  | [] => true
  | c :: rest =>
    if c = 92 then
      match rest with
      | [] => false
      | _ :: rest2 => nameText rest2
    else !(c = 58 ∨ c = 41 ∨ c = 126 ∨ c = 61 ∨ c = 60 ∨ c = 62) && nameText rest

/-- The filter text of an optional modifier: nothing, or `:m:`. -/
def modifierText : Option Str → Str
  | none => []
  | some m => 58 :: (m ++ [58])

/-- The loop of `recursiveDNmatchFunc` with the visited objects collected;
`recurse` is the recursive call with `maxdepth-1`. -/
def dnTraceLoop (L : Lib) (AllObjects : Objects) (dn : Str)
    (recurse : Object → Bool × List Object) : List Str → Bool × List Object
  | [] => (false, [])
  | value :: rest =>
    if L.toLower value = L.toLower dn then (true, [])
    else match AllObjects.Find value with
      | some parent => recurse parent
      | none => dnTraceLoop L AllObjects dn recurse rest

/-- The function `recursiveDNmatchFunc` with the visited objects collected:
the same recursion, returning the result together with the objects whose
attribute values the loop ranged over, in the order of the calls. -/
def recursiveDNmatchTrace (L : Lib) (AllObjects : Objects) (o : Object) (a : Attribute)
    (dn : Str) : Nat → Bool × List Object
  | 0 => (false, [])
  | maxdepth + 1 =>
    let res := dnTraceLoop L AllObjects dn
      (fun parent => recursiveDNmatchTrace L AllObjects parent a dn maxdepth) (o.AttrRendered a)
    (res.1, o :: res.2)

/-- An object whose `memberOf` names `exCycleB`. -/
def exCycleA : Object := ⟨13, [(A (ascii "memberOf"), [ascii "cn=b"])], [], [], []⟩

/-- An object whose `memberOf` names `exCycleA`. -/
def exCycleB : Object := ⟨14, [(A (ascii "memberOf"), [ascii "cn=a"])], [], [], []⟩

/-- An object whose `memberOf` names the object itself. -/
def exSelfRef : Object := ⟨15, [(A (ascii "memberOf"), [ascii "cn=self"])], [], [], []⟩

/-- A store with cyclic references: `cn=a` and `cn=b` resolve to two objects
that name each other, and `cn=self` to an object that names itself. -/
def exCyclicStore : Objects where
  objs := [exCycleA, exCycleB, exSelfRef]
  index := fun _ _ => none
  Find := fun dn =>
    if dn = ascii "cn=a" then some exCycleA
    else if dn = ascii "cn=b" then some exCycleB
    else if dn = ascii "cn=self" then some exSelfRef
    else none

/-- A store whose index is imperfect: its only object has the `cn` value `y`,
and every index lookup returns this object. -/
def exImperfectStore : Objects where
  objs := [exObjectY]
  index := fun _ _ => some [exObjectY]
  Find := fun _ => none

/-- An object whose `cn` is `x` and whose `ou` is `s`. -/
def exObjectXs : Object :=
  ⟨16, [(A (ascii "cn"), [ascii "x"]), (A (ascii "ou"), [ascii "s"])], [], [], []⟩

/-- An object whose `cn` is `x` and whose `ou` is `t`. -/
def exObjectXt : Object :=
  ⟨17, [(A (ascii "cn"), [ascii "x"]), (A (ascii "ou"), [ascii "t"])], [], [], []⟩

/-- The exact-match nodes from which `Execute` takes its candidates: the
exact-match children of a conjunction, or the bare exact-match node. -/
def candidateNodes (q : Query) : List Query :=
  match q with
  | .andquery subitems => subitems.filter fun st => (exactMatchOperand st).isSome
  | t => if (exactMatchOperand t).isSome then [t] else []

/-- The index agrees with the candidates of `q`: for the attribute and the
literal of each candidate it returns exactly the objects of the store on
which that candidate node is true. -/
def IndexAgrees (L : Lib) (AllObjects : Objects) (ao : Objects) (q : Query) : Prop :=
  ∀ n ∈ candidateNodes q, ∀ a m, exactMatchOperand n = some (a, m) →
    ∀ o, o ∈ (ao.index a m).getD [] ↔ (o ∈ ao.objs ∧ (n.Evaluate L AllObjects o 0).1 = true)

/-- The node is the case-insensitive exact match. -/
def Query.isInsensitiveMatch : Query → Bool
  | .hasInsensitiveStringMatch _ _ => true
  | _ => false

/-- No candidate of `Execute` comes from a case-insensitive exact match: the
query is not such a node and, as a conjunction, has no such child. -/
def Query.noInsensitiveCandidate : Query → Bool
  | .andquery subitems => subitems.all fun st => !st.isInsensitiveMatch
  | t => !t.isInsensitiveMatch

/-- Modelled from the spec: a store over the given objects whose index of
each attribute maps a lower-cased value to the objects holding a value that
lower-cases to it, in scan order, and whose lookup by distinguished name
finds nothing. -/
def foldedStore (L : Lib) (objs : List Object) : Objects where
  objs := objs
  index := fun a v =>
    let found := objs.filter fun o =>
      (o.AttrRendered a).any fun value => decide (v = L.toLower value)
    if found.isEmpty then none else some found
  Find := fun _ => none

/-- An object whose integer attribute `é` (bytes 195, 169) is 2. -/
def exObjectAccentInt : Object := ⟨18, [], [(A [195, 169], 2, true)], [], []⟩

/-! ## Lemmas and theorems -/

mutual
theorem Evaluate_sideEffectFree (L : Lib) (W : Objects) :
    ∀ (q : Query) (o : Object) (r : Nat), q.sideEffectFree = true →
      q.Evaluate L W o r = ((q.Evaluate L W o 0).1, q, r)
  | .andquery subitems, o, r, h => by
    have ih := evaluateAnd_sideEffectFree L W subitems o r (by simpa [Query.sideEffectFree] using h)
    simp only [Query.Evaluate]
    rw [ih]
  | .orquery subitems, o, r, h => by
    have ih := evaluateOr_sideEffectFree L W subitems o r (by simpa [Query.sideEffectFree] using h)
    simp only [Query.Evaluate]
    rw [ih]
  | .notquery subitem, o, r, h => by
    have ih := Evaluate_sideEffectFree L W subitem o r (by simpa [Query.sideEffectFree] using h)
    simp only [Query.Evaluate]
    rw [ih]
  | .countModifier _ _ _, _, _, _ => by simp [Query.Evaluate]
  | .lengthModifier _ _ _, _, _, _ => by simp [Query.Evaluate]
  | .andModifier _ _, _, _, _ => by simp [Query.Evaluate]
  | .orModifier _ _, _, _, _ => by simp [Query.Evaluate]
  | .numericComparator _ _ _, _, _, _ => by simp [Query.Evaluate]
  | .limit _, _, _, h => by simp [Query.sideEffectFree] at h
  | .random100 _ _, _, _, h => by simp [Query.sideEffectFree] at h
  | .hasAttr _, _, _, _ => by simp [Query.Evaluate]
  | .hasStringMatch _ _, _, _, _ => by simp [Query.Evaluate]
  | .hasInsensitiveStringMatch _ _, _, _, _ => by simp [Query.Evaluate]
  | .hasGlobMatch _ _ _, _, _, _ => by simp [Query.Evaluate]
  | .hasRegexpMatch _ _, _, _, _ => by simp [Query.Evaluate]
  | .recursiveDNmatcher _ _, _, _, _ => by simp [Query.Evaluate]
  | .pwnquery _ _ _, _, _, _ => by simp [Query.Evaluate]
  | .pwnable _, _, _, _ => by simp [Query.Evaluate]
theorem evaluateAnd_sideEffectFree (L : Lib) (W : Objects) :
    ∀ (l : List Query) (o : Object) (r : Nat), allSideEffectFree l = true →
      evaluateAnd L W l o r = ((evaluateAnd L W l o 0).1, l, r)
  | [], _, _, _ => by simp [evaluateAnd]
  | q :: rest, o, r, h => by
    have hq : q.sideEffectFree = true ∧ allSideEffectFree rest = true := by
      simpa [allSideEffectFree] using h
    have ih1 := Evaluate_sideEffectFree L W q o r hq.1
    have ih2 := evaluateAnd_sideEffectFree L W rest o r hq.2
    have h0 : (q.Evaluate L W o 0).2.2 = 0 := by
      rw [Evaluate_sideEffectFree L W q o 0 hq.1]
    simp only [evaluateAnd]
    rw [ih1]
    by_cases hb : (q.Evaluate L W o 0).1 = true
    · simp [hb, ih2, h0]
    · simp [hb]
theorem evaluateOr_sideEffectFree (L : Lib) (W : Objects) :
    ∀ (l : List Query) (o : Object) (r : Nat), allSideEffectFree l = true →
      evaluateOr L W l o r = ((evaluateOr L W l o 0).1, l, r)
  | [], _, _, _ => by simp [evaluateOr]
  | q :: rest, o, r, h => by
    have hq : q.sideEffectFree = true ∧ allSideEffectFree rest = true := by
      simpa [allSideEffectFree] using h
    have ih1 := Evaluate_sideEffectFree L W q o r hq.1
    have ih2 := evaluateOr_sideEffectFree L W rest o r hq.2
    have h0 : (q.Evaluate L W o 0).2.2 = 0 := by
      rw [Evaluate_sideEffectFree L W q o 0 hq.1]
    simp only [evaluateOr]
    rw [ih1]
    by_cases hb : (q.Evaluate L W o 0).1 = true
    · simp [hb]
    · simp [hb, ih2, h0]
end


theorem filterLoop_sideEffectFree (L : Lib) (W : Objects) (q : Query)
    (h : q.sideEffectFree = true) :
    ∀ (objs : List Object) (r : Nat),
      filterLoop L W objs q r = (objs.filter (fun o => (q.Evaluate L W o 0).1), q, r)
  | [], r => by simp [filterLoop]
  | o :: rest, r => by
    have h1 := Evaluate_sideEffectFree L W q o r h
    simp only [filterLoop]
    rw [h1]
    simp only []
    rw [filterLoop_sideEffectFree L W q h rest r]
    by_cases hb : (q.Evaluate L W o 0).1 = true
    · simp [hb]
    · simp [hb]

theorem evaluateAnd_true_mem (L : Lib) (W : Objects) (o : Object) :
    ∀ (l : List Query), allSideEffectFree l = true → (evaluateAnd L W l o 0).1 = true →
      ∀ c ∈ l, (c.Evaluate L W o 0).1 = true
  | [], _, _, c, hc => by simp at hc
  | q :: rest, h, ht, c, hc => by
    have hq : q.sideEffectFree = true ∧ allSideEffectFree rest = true := by
      simpa [allSideEffectFree] using h
    have h0 : (q.Evaluate L W o 0).2.2 = 0 := by
      rw [Evaluate_sideEffectFree L W q o 0 hq.1]
    simp only [evaluateAnd] at ht
    by_cases hb : (q.Evaluate L W o 0).1 = true
    · simp [hb, h0] at ht
      rcases List.mem_cons.mp hc with rfl | hc
      · exact hb
      · exact evaluateAnd_true_mem L W o rest hq.2 ht c hc
    · simp [hb] at ht

/-- C2 (code at the failing inputs): `ParseQuery` does not return an error on
`((a=b)`, `(!(a=b)`, `(=abc)` and `(cn=/)`; it panics (slice or index out of
range), whatever the libraries do. -/
theorem C2_ParseQuery_panics (L : Lib) :
    ParseQuery L (ascii "((a=b)") = .panic ∧
    ParseQuery L (ascii "(!(a=b)") = .panic ∧
    ParseQuery L (ascii "(=abc)") = .panic ∧
    ParseQuery L (ascii "(cn=/)") = .panic :=
  ⟨by rfl, by rfl, by rfl, by rfl⟩

@[simp] theorem Res.bind_ok {α β : Type} (a : α) (f : α → Res β) : (Res.ok a).bind f = f a := rfl
@[simp] theorem Res.bind_error {α β : Type} (e : ParseError) (f : α → Res β) :
    (Res.error e : Res α).bind f = .error e := rfl
@[simp] theorem Res.bind_panic {α β : Type} (f : α → Res β) :
    (Res.panic : Res α).bind f = .panic := rfl
@[simp] theorem Res.bind_fuel {α β : Type} (f : α → Res β) :
    (Res.fuel : Res α).bind f = .fuel := rfl

theorem Res.bind_eq_ok {α β : Type} (r : Res α) (f : α → Res β) (b : β) :
    r.bind f = .ok b ↔ ∃ a, r = .ok a ∧ f a = .ok b := by
  cases r <;> simp


theorem Res.approx_refl {α : Type} (r : Res α) : r.approx r := fun _ => rfl

theorem Res.approx_bind {α β : Type} {r r2 : Res α} {f f2 : α → Res β}
    (h : r.approx r2) (hf : ∀ a, (f a).approx (f2 a)) : (r.bind f).approx (r2.bind f2) := by
  intro hne
  cases r with
  | ok a =>
    rw [h (by simp)]
    exact hf a hne
  | error e => rw [h (by simp)]; rfl
  | panic => rw [h (by simp)]; rfl
  | fuel => simp at hne

theorem Res.approx_ite {α : Type} {c : Prop} [Decidable c] {a a2 b b2 : Res α}
    (ha : a.approx a2) (hb : b.approx b2) : (if c then a else b).approx (if c then a2 else b2) := by
  split
  · exact ha
  · exact hb

theorem approx_strictResult {r r2 : Res (Str × Query)} (h : r.approx r2) :
    (strictResult r).approx (strictResult r2) :=
  Res.approx_bind h (fun _ => Res.approx_refl _)

theorem approx_pwnTarget {r r2 : Res Query} (h : r.approx r2) :
    (pwnTarget r).approx (pwnTarget r2) := by
  intro hne
  cases r with
  | ok a => rw [h (by simp)]
  | error e => rw [h (by simp)]
  | panic => rw [h (by simp)]
  | fuel => simp [pwnTarget] at hne

theorem approx_buildNode (L : Lib) {strict strict2 : Str → Res Query}
    (h : ∀ v, (strict v).approx (strict2 v)) (a m : Str) (c : comparatortype) (v : Str) :
    (buildNode L strict a m c v).approx (buildNode L strict2 a m c v) := by
  unfold buildNode
  refine Res.approx_bind (Res.approx_refl _) (fun c0 => ?_)
  refine Res.approx_ite ?_ (Res.approx_refl _)
  unfold buildSynthetic
  dsimp only
  refine Res.approx_ite (Res.approx_refl _) (Res.approx_ite (Res.approx_refl _)
    (Res.approx_ite ?_ (Res.approx_refl _)))
  refine Res.approx_bind ?_ (fun _ => Res.approx_refl _)
  exact Res.approx_ite (approx_pwnTarget (h _)) (Res.approx_refl _)

theorem approx_parseAttributeExpression (L : Lib) {strict strict2 : Str → Res Query}
    (h : ∀ v, (strict v).approx (strict2 v)) (s : Str) :
    (parseAttributeExpression L strict s).approx (parseAttributeExpression L strict2 s) :=
  Res.approx_bind (Res.approx_refl _) fun _ =>
    Res.approx_bind (approx_buildNode L h _ _ _ _) (fun _ => Res.approx_refl _)

theorem ParseQueryF_mono_step (L : Lib) (n : Nat) :
    (∀ s, (ParseQueryF L n s).approx (ParseQueryF L (n + 1) s)) ∧
    (∀ s acc, (parsemultiplequeriesF L n s acc).approx (parsemultiplequeriesF L (n + 1) s acc)) := by
  induction n with
  | zero =>
    constructor
    · intro s h; simp [ParseQueryF] at h
    · intro s acc h; simp [parsemultiplequeriesF] at h
  | succ n ih =>
    obtain ⟨ih1, ih2⟩ := ih
    constructor
    · intro s
      rw [ParseQueryF, ParseQueryF]
      refine Res.approx_ite (Res.approx_refl _) (Res.approx_ite (Res.approx_refl _) ?_)
      refine Res.approx_bind (Res.approx_refl _) fun s1 => ?_
      refine Res.approx_bind (Res.approx_refl _) fun c => ?_
      refine Res.approx_ite ?_ (Res.approx_ite ?_ (Res.approx_ite ?_ (Res.approx_ite ?_ ?_)))
      · exact Res.approx_bind (ih1 _) (fun _ => Res.approx_refl _)
      · exact Res.approx_bind (Res.approx_refl _) fun _ =>
          Res.approx_bind (ih2 _ _) (fun _ => Res.approx_refl _)
      · exact Res.approx_bind (Res.approx_refl _) fun _ =>
          Res.approx_bind (ih2 _ _) (fun _ => Res.approx_refl _)
      · exact Res.approx_bind (Res.approx_refl _) fun _ =>
          Res.approx_bind (ih1 _) (fun _ => Res.approx_refl _)
      · exact approx_parseAttributeExpression L (fun v => approx_strictResult (ih1 v)) _
    · intro s acc
      rw [parsemultiplequeriesF, parsemultiplequeriesF]
      refine Res.approx_ite ?_ (Res.approx_refl _)
      exact Res.approx_bind (ih1 _) (fun _ => ih2 _ _)

theorem ParseQueryF_mono (L : Lib) (n k : Nat) (s : Str) (r : Res (Str × Query))
    (h : ParseQueryF L n s = r) (hne : r ≠ .fuel) : ParseQueryF L (n + k) s = r := by
  induction k with
  | zero => exact h
  | succ k ih =>
    have := (ParseQueryF_mono_step L (n + k)).1 s (by rw [ih]; exact hne)
    rw [← Nat.add_assoc, this, ih]


theorem indexByte_append (b : Nat) (t : Str) :
    ∀ (s : Str) (k : Nat), indexByte s b = some k →
      indexByte (s ++ t) b = some k ∧ k < s.length
  | [], k, h => by simp [indexByte] at h
  | c :: rest, k, h => by
    simp only [indexByte, List.cons_append] at h ⊢
    by_cases hc : c = b
    · simp only [hc, if_true] at h ⊢
      simp at h
      subst h
      simp
    · simp only [hc, if_false] at h ⊢
      cases hi : indexByte rest b with
      | none => simp [hi] at h
      | some j =>
        simp [hi] at h
        obtain ⟨h1, h2⟩ := indexByte_append b t rest j hi
        subst h
        simp [h1, h2]

theorem attributeloop_append (t : Str) :
    ∀ (n : Nat) (s acc : Str) (r : Str × Str × Str), s.length ≤ n →
      attributeloop s acc = .ok r →
      attributeloop (s ++ t) acc = .ok (r.1, r.2.1, r.2.2 ++ t) := by
  intro n
  induction n with
  | zero =>
    intro s acc r hn h
    have : s = [] := List.length_eq_zero.mp (Nat.le_zero.mp hn)
    subst this
    simp [attributeloop] at h
  | succ n ih =>
    intro s acc r hn h
    cases s with
    | nil => simp [attributeloop] at h
    | cons c rest =>
      simp only [List.length_cons] at hn
      rw [List.cons_append]
      unfold attributeloop at h ⊢
      by_cases h92 : c = 92
      · simp only [h92, if_true] at h ⊢
        cases rest with
        | nil => simp at h
        | cons d rest2 =>
          simp only [List.cons_append] at h ⊢
          simp only [List.length_cons] at hn
          exact ih rest2 _ r (by omega) h
      · simp only [h92, if_false] at h ⊢
        by_cases h58 : c = 58
        · simp only [h58, if_true] at h ⊢
          cases hi : indexByte rest 58 with
          | none => simp [hi] at h
          | some k =>
            obtain ⟨h1, h2⟩ := indexByte_append 58 t rest k hi
            simp only [hi] at h
            simp only [h1]
            simp only [Res.ok.injEq] at h
            subst h
            simp only [Res.ok.injEq, Prod.mk.injEq, true_and]
            constructor
            · rw [List.take_append_of_le_length (by omega)]
            · rw [List.drop_append_of_le_length (by omega)]
        · simp only [h58, if_false] at h ⊢
          by_cases h41 : c = 41
          · simp [h41] at h
          · simp only [h41, if_false] at h ⊢
            by_cases hcmp : c = 126 ∨ c = 61 ∨ c = 60 ∨ c = 62
            · simp only [hcmp, if_true] at h ⊢
              simp only [Res.ok.injEq] at h
              subst h
              simp
            · simp only [hcmp, if_false] at h ⊢
              exact ih rest _ r (by omega) h

theorem parseComparator_append (t : Str) (s : Str) (r : Str × Str)
    (h : parseComparator s = .ok r) : parseComparator (s ++ t) = .ok (r.1, r.2 ++ t) := by
  unfold parseComparator at h ⊢
  cases s with
  | nil => simp at h
  | cons c rest =>
    simp only [List.cons_append] at h ⊢
    by_cases h126 : c = 126
    · simp only [h126, if_true] at h ⊢
      cases rest with
      | nil => simp at h
      | cons d rest2 =>
        simp only [List.cons_append] at h ⊢
        by_cases hd : d = 61
        · simp [hd] at h ⊢; subst h; simp
        · simp [hd] at h
    · simp only [h126, if_false] at h ⊢
      by_cases hlt : c = 60 ∨ c = 62
      · simp only [hlt, if_true] at h ⊢
        cases rest with
        | nil => simp at h
        | cons d rest2 =>
          simp only [List.cons_append] at h ⊢
          by_cases hd : d = 61
          · simp [hd] at h ⊢; subst h; simp
          · simp [hd] at h ⊢; subst h; simp
      · simp only [hlt, if_false] at h ⊢
        simp at h; subst h; simp

theorem valueloop_append (t : Str) :
    ∀ (n : Nat) (s acc : Str) (r : Str × Str), s.length ≤ n →
      valueloop s acc = .ok r →
      valueloop (s ++ t) acc = .ok (r.1, r.2 ++ t) := by
  intro n
  induction n with
  | zero =>
    intro s acc r hn h
    have : s = [] := List.length_eq_zero.mp (Nat.le_zero.mp hn)
    subst this
    simp [valueloop] at h
  | succ n ih =>
    intro s acc r hn h
    cases s with
    | nil => simp [valueloop] at h
    | cons c rest =>
      simp only [List.length_cons] at hn
      rw [List.cons_append]
      unfold valueloop at h ⊢
      by_cases h92 : c = 92
      · simp only [h92, if_true] at h ⊢
        cases rest with
        | nil => simp at h
        | cons d rest2 =>
          simp only [List.cons_append] at h ⊢
          simp only [List.length_cons] at hn
          exact ih rest2 _ r (by omega) h
      · simp only [h92, if_false] at h ⊢
        by_cases h41 : c = 41
        · simp only [h41, if_true] at h ⊢
          simp at h; subst h; simp
        · simp only [h41, if_false] at h ⊢
          exact ih rest _ r (by omega) h

theorem sliceFrom_one_append (t : Str) (s r : Str) (h : sliceFrom s 1 = .ok r) :
    sliceFrom (s ++ t) 1 = .ok (r ++ t) := by
  cases s with
  | nil => simp [sliceFrom] at h
  | cons c rest =>
    simp [sliceFrom] at h ⊢
    subst h; rfl

theorem lexAttributeExpression_append (t : Str) (s : Str) (e : AttributeExpression)
    (h : lexAttributeExpression s = .ok e) :
    lexAttributeExpression (s ++ t) = .ok { e with rest := e.rest ++ t } := by
  unfold lexAttributeExpression at h ⊢
  rw [Res.bind_eq_ok] at h
  obtain ⟨r1, h1, h⟩ := h
  rw [Res.bind_eq_ok] at h
  obtain ⟨r2, h2, h⟩ := h
  rw [Res.bind_eq_ok] at h
  obtain ⟨r3, h3, h⟩ := h
  rw [Res.bind_eq_ok] at h
  obtain ⟨r4, h4, h⟩ := h
  rw [attributeloop_append t _ s [] r1 (Nat.le_refl _) h1]
  simp only [Res.bind_ok]
  rw [parseComparator_append t _ r2 h2]
  simp only [Res.bind_ok]
  rw [valueloop_append t _ _ [] r3 (Nat.le_refl _) h3]
  simp only [Res.bind_ok]
  rw [sliceFrom_one_append t _ r4 h4]
  simp only [Res.bind_ok]
  simp only [Res.ok.injEq] at h
  subst h
  rfl

theorem parseAttributeExpression_append (L : Lib) (strict : Str → Res Query) (t s : Str)
    (r : Str × Query) (h : parseAttributeExpression L strict s = .ok r) :
    parseAttributeExpression L strict (s ++ t) = .ok (r.1 ++ t, r.2) := by
  unfold parseAttributeExpression at h ⊢
  rw [Res.bind_eq_ok] at h
  obtain ⟨e, h1, h⟩ := h
  rw [Res.bind_eq_ok] at h
  obtain ⟨q, h2, h⟩ := h
  rw [lexAttributeExpression_append t s e h1]
  simp only [Res.bind_ok, h2]
  simp only [Res.ok.injEq] at h
  subst h
  rfl


theorem hasSuffix_append (s t p : Str) (h : hasSuffix t p = true) :
    hasSuffix (s ++ t) p = true := by
  simp only [hasSuffix, List.isSuffixOf_iff_suffix] at h ⊢
  exact h.trans (List.suffix_append s t)

theorem hasPrefix_append (s t p : Str) (h : hasPrefix s p = true) :
    hasPrefix (s ++ t) p = true := by
  simp only [hasPrefix, List.isPrefixOf_iff_prefix] at h ⊢
  exact h.trans (List.prefix_append s t)

theorem byteAt_zero_append (s t : Str) (c : Nat) (h : byteAt s 0 = .ok c) :
    byteAt (s ++ t) 0 = .ok c := by
  cases s with
  | nil => simp [byteAt] at h
  | cons d rest => simpa [byteAt] using h

theorem ParseQueryF_append (L : Lib) (t : Str) (ht : hasSuffix t [41] = true) (n : Nat) :
    (∀ s r, ParseQueryF L n s = .ok r → ParseQueryF L n (s ++ t) = .ok (r.1 ++ t, r.2)) ∧
    (∀ s acc r, parsemultiplequeriesF L n s acc = .ok r →
      parsemultiplequeriesF L n (s ++ t) acc = .ok (r.1 ++ t, r.2)) := by
  induction n with
  | zero =>
    constructor
    · intro s r h; simp [ParseQueryF] at h
    · intro s acc r h; simp [parsemultiplequeriesF] at h
  | succ n ih =>
    obtain ⟨ih1, ih2⟩ := ih
    constructor
    · intro s r h
      rw [ParseQueryF] at h ⊢
      by_cases hlen : s.length < 5
      · simp [hlen] at h
      have hlen2 : ¬ (s ++ t).length < 5 := by simp only [List.length_append]; omega
      rw [if_neg hlen] at h
      rw [if_neg hlen2]
      by_cases hpar : (!hasPrefix s [40] || !hasSuffix s [41]) = true
      · simp [hpar] at h
      have hpar2 : ¬ (!hasPrefix (s ++ t) [40] || !hasSuffix (s ++ t) [41]) = true := by
        simp only [Bool.or_eq_true, Bool.not_eq_true', not_or, Bool.not_eq_false] at hpar ⊢
        exact ⟨hasPrefix_append s t _ hpar.1, hasSuffix_append s t _ ht⟩
      rw [if_neg hpar] at h
      rw [if_neg hpar2]
      rw [Res.bind_eq_ok] at h
      obtain ⟨s1, hs1, h⟩ := h
      rw [sliceFrom_one_append t s s1 hs1, Res.bind_ok]
      rw [Res.bind_eq_ok] at h
      obtain ⟨c, hc, h⟩ := h
      rw [byteAt_zero_append s1 t c hc, Res.bind_ok]
      by_cases h40 : c = 40
      · rw [if_pos h40] at h ⊢
        rw [Res.bind_eq_ok] at h
        obtain ⟨r1, hr1, h⟩ := h
        rw [ih1 s1 r1 hr1, Res.bind_ok]
        rw [Res.bind_eq_ok] at h
        obtain ⟨s2, hs2, h⟩ := h
        rw [sliceFrom_one_append t _ s2 hs2, Res.bind_ok]
        simp only [Res.ok.injEq] at h
        subst h; rfl
      rw [if_neg h40] at h ⊢
      by_cases h38 : c = 38
      · rw [if_pos h38] at h ⊢
        rw [Res.bind_eq_ok] at h
        obtain ⟨s2, hs2, h⟩ := h
        rw [sliceFrom_one_append t _ s2 hs2, Res.bind_ok]
        rw [Res.bind_eq_ok] at h
        obtain ⟨r1, hr1, h⟩ := h
        rw [ih2 s2 [] r1 hr1, Res.bind_ok]
        rw [Res.bind_eq_ok] at h
        obtain ⟨s3, hs3, h⟩ := h
        rw [sliceFrom_one_append t _ s3 hs3, Res.bind_ok]
        simp only [Res.ok.injEq] at h
        subst h; rfl
      rw [if_neg h38] at h ⊢
      by_cases h124 : c = 124
      · rw [if_pos h124] at h ⊢
        rw [Res.bind_eq_ok] at h
        obtain ⟨s2, hs2, h⟩ := h
        rw [sliceFrom_one_append t _ s2 hs2, Res.bind_ok]
        rw [Res.bind_eq_ok] at h
        obtain ⟨r1, hr1, h⟩ := h
        rw [ih2 s2 [] r1 hr1, Res.bind_ok]
        rw [Res.bind_eq_ok] at h
        obtain ⟨s3, hs3, h⟩ := h
        rw [sliceFrom_one_append t _ s3 hs3, Res.bind_ok]
        simp only [Res.ok.injEq] at h
        subst h; rfl
      rw [if_neg h124] at h ⊢
      by_cases h33 : c = 33
      · rw [if_pos h33] at h ⊢
        rw [Res.bind_eq_ok] at h
        obtain ⟨s2, hs2, h⟩ := h
        rw [sliceFrom_one_append t _ s2 hs2, Res.bind_ok]
        rw [Res.bind_eq_ok] at h
        obtain ⟨r1, hr1, h⟩ := h
        rw [ih1 s2 r1 hr1, Res.bind_ok]
        rw [Res.bind_eq_ok] at h
        obtain ⟨s3, hs3, h⟩ := h
        rw [sliceFrom_one_append t _ s3 hs3, Res.bind_ok]
        simp only [Res.ok.injEq] at h
        subst h; rfl
      rw [if_neg h33] at h ⊢
      exact parseAttributeExpression_append L _ t s1 r h
    · intro s acc r h
      rw [parsemultiplequeriesF] at h ⊢
      cases s with
      | nil => simp at h
      | cons c rest =>
        simp only [List.cons_append, List.length_cons, List.head?_cons] at h ⊢
        by_cases h40 : c = 40
        · have hc : (rest.length + 1 > 0 ∧ some c = some 40) := ⟨by omega, by rw [h40]⟩
          have hc2 : ((rest ++ t).length + 1 > 0 ∧ some c = some 40) := ⟨by omega, by rw [h40]⟩
          rw [if_pos hc] at h
          rw [if_pos hc2]
          rw [Res.bind_eq_ok] at h
          obtain ⟨r1, hr1, h⟩ := h
          have := ih1 (c :: rest) r1 hr1
          rw [List.cons_append] at this
          rw [this, Res.bind_ok]
          exact ih2 _ _ r h
        · have hc : ¬ (rest.length + 1 > 0 ∧ some c = some 40) := by
            rintro ⟨-, h2⟩; exact h40 (Option.some.inj h2)
          have hc2 : ¬ ((rest ++ t).length + 1 > 0 ∧ some c = some 40) := by
            rintro ⟨-, h2⟩; exact h40 (Option.some.inj h2)
          rw [if_neg hc] at h
          rw [if_neg hc2]
          by_cases h41 : c = 41
          · subst h41
            simp at h ⊢
            subst h; simp
          · simp [h41] at h

theorem ParseQueryF_ok_shape (L : Lib) (n : Nat) (s : Str) (r : Str × Query)
    (h : ParseQueryF L n s = .ok r) : 5 ≤ s.length ∧ s.head? = some 40 := by
  cases n with
  | zero => simp [ParseQueryF] at h
  | succ n =>
    rw [ParseQueryF] at h
    by_cases hlen : s.length < 5
    · simp [hlen] at h
    rw [if_neg hlen] at h
    by_cases hpar : (!hasPrefix s [40] || !hasSuffix s [41]) = true
    · simp [hpar] at h
    simp only [Bool.or_eq_true, Bool.not_eq_true', not_or, Bool.not_eq_false] at hpar
    refine ⟨by omega, ?_⟩
    have := hpar.1
    cases s with
    | nil => simp [hasPrefix] at this
    | cons c rest =>
      simp [hasPrefix] at this
      simp [← this]


/-- Enough fuel: the top-level result does not depend on the fuel once it exceeds what `ParseQuery` provides. -/
theorem ParseQueryF_of_ParseQuery (L : Lib) (s : Str) (r : Str × Query) (n : Nat)
    (h : ParseQuery L s = .ok r) (hn : 2 * s.length + 2 ≤ n) : ParseQueryF L n s = .ok r := by
  obtain ⟨k, rfl⟩ := Nat.exists_eq_add_of_le hn
  exact ParseQueryF_mono L _ k s _ h (by simp)

theorem ParseQueryStrict_eq_ok (L : Lib) (s : Str) (q : Query) :
    ParseQueryStrict L s = .ok q ↔ ParseQuery L s = .ok ([], q) := by
  unfold ParseQueryStrict strictResult
  rw [Res.bind_eq_ok]
  constructor
  · rintro ⟨⟨rem, q2⟩, h1, h2⟩
    by_cases hr : rem = []
    · simp [hr] at h2
      subst hr; subst h2; exact h1
    · simp [hr] at h2
  · intro h
    exact ⟨([], q), h, by simp⟩

/-- The loop of `parsemultiplequeries` over a concatenation of stand-alone queries. -/
theorem parsemultiplequeriesF_join (L : Lib) :
    ∀ (ss : List Str) (qs : List Query) (acc : List Query) (n : Nat),
      List.Forall₂ (fun s q => ParseQueryStrict L s = .ok q) ss qs →
      2 * (ss.flatten).length + 3 ≤ n →
      parsemultiplequeriesF L n (ss.flatten ++ [41]) acc = .ok ([41], acc ++ qs)
  | [], qs, acc, n, hf, hn => by
    cases hf
    obtain ⟨m, rfl⟩ : ∃ m, n = m + 1 := ⟨n - 1, by simp at hn; omega⟩
    simp [parsemultiplequeriesF]
  | s :: ss, qs, acc, n, hf, hn => by
    cases hf with
    | cons hq hrest =>
      rename_i q qs2
      obtain ⟨m, rfl⟩ : ∃ m, n = m + 1 := ⟨n - 1, by omega⟩
      rw [ParseQueryStrict_eq_ok] at hq
      simp only [List.flatten_cons, List.length_append] at hn
      have hm : ParseQueryF L m s = .ok ([], q) := ParseQueryF_of_ParseQuery L s _ m hq (by omega)
      obtain ⟨hlen, hhead⟩ := ParseQueryF_ok_shape L m s _ hm
      have ht : hasSuffix (ss.flatten ++ [41]) [41] = true := by
        simp only [hasSuffix, List.isSuffixOf_iff_suffix]
        exact List.suffix_append _ _
      have happ := (ParseQueryF_append L (ss.flatten ++ [41]) ht m).1 s _ hm
      simp only [List.nil_append] at happ
      rw [parsemultiplequeriesF]
      have hcond : (List.length ((s :: ss).flatten ++ [41]) > 0 ∧
          ((s :: ss).flatten ++ [41]).head? = some 40) := by
        constructor
        · simp
        · cases s with
          | nil => simp at hlen
          | cons c rest => simpa using hhead
      rw [if_pos hcond]
      simp only [List.flatten_cons, List.append_assoc]
      rw [happ, Res.bind_ok]
      have := parsemultiplequeriesF_join L ss qs2 (acc ++ [q]) m hrest (by omega)
      rw [this]
      simp


theorem hasSuffix_snoc (s : Str) (b : Nat) : hasSuffix (s ++ [b]) [b] = true := by
  simp only [hasSuffix, List.isSuffixOf_iff_suffix]
  exact List.suffix_append _ _

/-- One step of `ParseQuery` on a group `(&...)`, `(|...)` or `(!...)`: the
guards pass and the dispatch byte is read. -/
theorem ParseQueryF_group (L : Lib) (n c : Nat) (body : Str) (hlen : 2 ≤ body.length) :
    ParseQueryF L (n + 1) ([40, c] ++ body ++ [41]) =
      if c = 40 then
        (ParseQueryF L n (c :: (body ++ [41]))).bind fun r =>
        (sliceFrom r.1 1).bind fun s2 => .ok (s2, r.2)
      else if c = 38 then
        (parsemultiplequeriesF L n (body ++ [41]) []).bind fun r =>
        (sliceFrom r.1 1).bind fun s3 => .ok (s3, .andquery r.2)
      else if c = 124 then
        (parsemultiplequeriesF L n (body ++ [41]) []).bind fun r =>
        (sliceFrom r.1 1).bind fun s3 => .ok (s3, .orquery r.2)
      else if c = 33 then
        (ParseQueryF L n (body ++ [41])).bind fun r =>
        (sliceFrom r.1 1).bind fun s3 => .ok (s3, .notquery r.2)
      else
        parseAttributeExpression L (fun v => strictResult (ParseQueryF L n v))
          (c :: (body ++ [41])) := by
  rw [ParseQueryF]
  have hl : ¬ ([40, c] ++ body ++ [41]).length < 5 := by
    simp only [List.length_append, List.length_cons, List.length_nil]; omega
  rw [if_neg hl]
  have hpar : ¬ (!hasPrefix ([40, c] ++ body ++ [41]) [40] ||
      !hasSuffix ([40, c] ++ body ++ [41]) [41]) = true := by
    rw [hasSuffix_snoc]
    simp [hasPrefix]
  rw [if_neg hpar]
  simp [sliceFrom, byteAt]

/-- C3: parsing is compositional. If every `s_i` parses strictly to `q_i`
(at least one of them), then `(&s_1...s_n)` parses strictly to the
conjunction of the `q_i` in order, `(|s_1...s_n)` to their disjunction, and
`(!s_1)` to the negation of `q_1`. -/
theorem C3_parse_compositional (L : Lib) (ss : List Str) (qs : List Query) (s1 : Str)
    (q1 : Query) (hne : ss ≠ [])
    (hf : List.Forall₂ (fun s q => ParseQueryStrict L s = .ok q) ss qs)
    (hs1 : ss.head? = some s1) (hq1 : qs.head? = some q1) :
    ParseQueryStrict L (ascii "(&" ++ ss.flatten ++ ascii ")") = .ok (.andquery qs) ∧
    ParseQueryStrict L (ascii "(|" ++ ss.flatten ++ ascii ")") = .ok (.orquery qs) ∧
    ParseQueryStrict L (ascii "(!" ++ s1 ++ ascii ")") = .ok (.notquery q1) := by
  have hascii1 : ascii "(&" = [40, 38] := by rfl
  have hascii2 : ascii "(|" = [40, 124] := by rfl
  have hascii3 : ascii "(!" = [40, 33] := by rfl
  have hascii4 : ascii ")" = [41] := by rfl
  rw [hascii1, hascii2, hascii3, hascii4]
  obtain ⟨hp1, hlen1⟩ : ParseQuery L s1 = .ok ([], q1) ∧ s1.length ≤ ss.flatten.length := by
    cases hf with
    | nil => exact absurd rfl hne
    | cons hq hrest =>
      simp only [List.head?_cons, Option.some.injEq] at hs1 hq1
      subst hs1; subst hq1
      exact ⟨(ParseQueryStrict_eq_ok L _ _).mp hq, by
        simp only [List.flatten_cons, List.length_append]; omega⟩
  have hshape := ParseQueryF_ok_shape L _ s1 _ hp1
  have hlen : 5 ≤ ss.flatten.length := le_trans hshape.1 hlen1
  generalize hbody : ss.flatten = body at hlen
  refine ⟨?_, ?_, ?_⟩
  · rw [ParseQueryStrict_eq_ok]
    unfold ParseQuery
    rw [ParseQueryF_group L _ 38 body (by omega)]
    have hm := parsemultiplequeriesF_join L ss qs []
      (2 * ([40, 38] ++ body ++ [41]).length + 1) hf (by
        rw [hbody]; simp only [List.length_append, List.length_cons, List.length_nil]; omega)
    rw [hbody] at hm
    rw [if_neg (by decide), if_pos rfl, hm]
    simp [sliceFrom]
  · rw [ParseQueryStrict_eq_ok]
    unfold ParseQuery
    rw [ParseQueryF_group L _ 124 body (by omega)]
    have hm := parsemultiplequeriesF_join L ss qs []
      (2 * ([40, 124] ++ body ++ [41]).length + 1) hf (by
        rw [hbody]; simp only [List.length_append, List.length_cons, List.length_nil]; omega)
    rw [hbody] at hm
    rw [if_neg (by decide), if_neg (by decide), if_pos rfl, hm]
    simp [sliceFrom]
  · rw [ParseQueryStrict_eq_ok]
    unfold ParseQuery
    rw [ParseQueryF_group L _ 33 s1 (by omega)]
    have hm1 := ParseQueryF_of_ParseQuery L s1 _
      (2 * ([40, 33] ++ s1 ++ [41]).length + 1) hp1 (by
        simp only [List.length_append, List.length_cons, List.length_nil]; omega)
    have hm := (ParseQueryF_append L [41] (by rfl) _).1 s1 _ hm1
    simp only [List.nil_append] at hm
    rw [if_neg (by decide), if_neg (by decide), if_neg (by decide), if_pos rfl, hm]
    simp [sliceFrom]

/-- C3 (witness): `(a=b)` and `(c=d)` composed. -/
theorem C3_parse_compositional_witness :
    [ascii "(a=b)", ascii "(c=d)"] ≠ [] ∧
    ParseQueryStrict exampleLib (ascii "(&" ++ [ascii "(a=b)", ascii "(c=d)"].flatten ++ ascii ")")
      = .ok (.andquery [.hasInsensitiveStringMatch (A (ascii "a")) (ascii "b"),
          .hasInsensitiveStringMatch (A (ascii "c")) (ascii "d")]) ∧
    ParseQueryStrict exampleLib (ascii "(|" ++ [ascii "(a=b)", ascii "(c=d)"].flatten ++ ascii ")")
      = .ok (.orquery [.hasInsensitiveStringMatch (A (ascii "a")) (ascii "b"),
          .hasInsensitiveStringMatch (A (ascii "c")) (ascii "d")]) ∧
    ParseQueryStrict exampleLib (ascii "(!" ++ ascii "(a=b)" ++ ascii ")")
      = .ok (.notquery (.hasInsensitiveStringMatch (A (ascii "a")) (ascii "b"))) :=
  ⟨by simp,
    C3_parse_compositional exampleLib [ascii "(a=b)", ascii "(c=d)"]
      [.hasInsensitiveStringMatch (A (ascii "a")) (ascii "b"),
        .hasInsensitiveStringMatch (A (ascii "c")) (ascii "d")]
      (ascii "(a=b)") (.hasInsensitiveStringMatch (A (ascii "a")) (ascii "b")) (by simp)
      (List.Forall₂.cons (by rfl) (List.Forall₂.cons (by rfl) List.Forall₂.nil))
      (by rfl) (by rfl)⟩


theorem attributeloop_plain (cmp : Nat) (rest : Str)
    (hcmp : cmp = 126 ∨ cmp = 61 ∨ cmp = 60 ∨ cmp = 62) :
    ∀ (a acc : Str), plainName a = true →
      attributeloop (a ++ cmp :: rest) acc = .ok (acc ++ encodeBytes a, [], cmp :: rest)
  | [], acc, _ => by
    have h1 : cmp ≠ 92 := by omega
    have h2 : cmp ≠ 58 := by omega
    have h3 : cmp ≠ 41 := by omega
    unfold attributeloop
    simp [encodeBytes, h1, h2, h3, hcmp]
  | c :: a, acc, h => by
    simp only [plainName, List.all_cons, Bool.and_eq_true, Bool.not_eq_true',
      decide_eq_false_iff_not, not_or] at h
    obtain ⟨⟨h92, h58, h41, h126, h61, h60, h62⟩, hrest⟩ := h
    have ih := attributeloop_plain cmp rest hcmp a (acc ++ byteToString c) (by simpa [plainName] using hrest)
    rw [List.cons_append]
    unfold attributeloop
    simp [h92, h58, h41, h126, h61, h60, h62, ih, encodeBytes]

theorem indexByte_append_of_not_mem (b : Nat) (rest : Str) :
    ∀ (m : Str), b ∉ m → indexByte (m ++ b :: rest) b = some m.length
  | [], _ => by simp [indexByte]
  | c :: m, h => by
    simp only [List.mem_cons, not_or] at h
    have hc : c ≠ b := fun e => h.1 e.symm
    simp [indexByte, hc, indexByte_append_of_not_mem b rest m h.2]

theorem attributeloop_modifier (m rest : Str) (hm : 58 ∉ m) :
    ∀ (a acc : Str), plainName a = true →
      attributeloop (a ++ 58 :: (m ++ 58 :: rest)) acc = .ok (acc ++ encodeBytes a, m, rest)
  | [], acc, _ => by
    unfold attributeloop
    simp [encodeBytes, indexByte_append_of_not_mem 58 rest m hm]
  | c :: a, acc, h => by
    simp only [plainName, List.all_cons, Bool.and_eq_true, Bool.not_eq_true',
      decide_eq_false_iff_not, not_or] at h
    obtain ⟨⟨h92, h58, h41, h126, h61, h60, h62⟩, hrest⟩ := h
    have ih := attributeloop_modifier m rest hm a (acc ++ byteToString c) (by simpa [plainName] using hrest)
    rw [List.cons_append]
    unfold attributeloop
    simp [h92, h58, h41, h126, h61, h60, h62, ih, encodeBytes]

theorem valueloop_plain (rest : Str) :
    ∀ (v acc : Str), plainValue v = true →
      valueloop (v ++ 41 :: rest) acc = .ok (acc ++ encodeBytes v, 41 :: rest)
  | [], acc, _ => by
    unfold valueloop
    simp [encodeBytes]
  | c :: v, acc, h => by
    simp only [plainValue, List.all_cons, Bool.and_eq_true, Bool.not_eq_true',
      decide_eq_false_iff_not, not_or] at h
    obtain ⟨⟨h92, h41⟩, hrest⟩ := h
    have ih := valueloop_plain rest v (acc ++ byteToString c) (by simpa [plainValue] using hrest)
    rw [List.cons_append]
    unfold valueloop
    simp [h92, h41, ih, encodeBytes]

theorem parseComparator_text (c : comparatortype) (v rest : Str)
    (hv : (c = .CompareLessThan ∨ c = .CompareGreaterThan) → v.head? ≠ some 61) :
    ∃ cs, parseComparator (comparatorText c ++ (v ++ 41 :: rest)) = .ok (cs, v ++ 41 :: rest) ∧
      comparatorOf cs = c := by
  cases c with
  | CompareEquals => exact ⟨[61], by simp [parseComparator, comparatorText, byteToString], by rfl⟩
  | CompareLessThanEqual =>
    exact ⟨[60, 61], by simp [parseComparator, comparatorText, byteToString], by rfl⟩
  | CompareGreaterThanEqual =>
    exact ⟨[62, 61], by simp [parseComparator, comparatorText, byteToString], by rfl⟩
  | CompareLessThan =>
    refine ⟨[60], ?_, by rfl⟩
    have := hv (Or.inl rfl)
    cases v with
    | nil => simp [parseComparator, comparatorText, byteToString]
    | cons d v2 =>
      have hd : d ≠ 61 := by simpa using this
      simp [parseComparator, comparatorText, byteToString, hd]
  | CompareGreaterThan =>
    refine ⟨[62], ?_, by rfl⟩
    have := hv (Or.inr rfl)
    cases v with
    | nil => simp [parseComparator, comparatorText, byteToString]
    | cons d v2 =>
      have hd : d ≠ 61 := by simpa using this
      simp [parseComparator, comparatorText, byteToString, hd]

theorem comparatorText_head (c : comparatortype) :
    ∃ cmp tl, comparatorText c = cmp :: tl ∧ (cmp = 126 ∨ cmp = 61 ∨ cmp = 60 ∨ cmp = 62) := by
  cases c <;> simp [comparatorText]

/-- Lexing of `a cmp v )` written without escapes and without modifier. -/
theorem lexAttributeExpression_plain (a v rest : Str) (c : comparatortype)
    (ha : plainName a = true) (hv : plainValue v = true)
    (hc : (c = .CompareLessThan ∨ c = .CompareGreaterThan) → v.head? ≠ some 61) :
    lexAttributeExpression (a ++ (comparatorText c ++ (v ++ 41 :: rest))) =
      .ok ⟨encodeBytes a, [], c, encodeBytes v, rest⟩ := by
  obtain ⟨cmp, tl, htext, hcmp⟩ := comparatorText_head c
  obtain ⟨cs, hpc, hcs⟩ := parseComparator_text c v rest hc
  unfold lexAttributeExpression
  have h1 : attributeloop (a ++ (comparatorText c ++ (v ++ 41 :: rest))) [] =
      .ok (encodeBytes a, [], comparatorText c ++ (v ++ 41 :: rest)) := by
    rw [htext, List.cons_append]
    simpa using attributeloop_plain cmp (tl ++ (v ++ 41 :: rest)) hcmp a [] ha
  rw [h1, Res.bind_ok]
  simp only []
  rw [hpc, Res.bind_ok]
  simp only []
  have h3 := valueloop_plain rest v [] hv
  simp only [List.nil_append] at h3
  rw [h3, Res.bind_ok]
  simp [sliceFrom, hcs]

/-- Lexing of `a : m : cmp v )` written without escapes. -/
theorem lexAttributeExpression_modifier (a m v rest : Str) (c : comparatortype)
    (ha : plainName a = true) (hm : 58 ∉ m) (hv : plainValue v = true)
    (hc : (c = .CompareLessThan ∨ c = .CompareGreaterThan) → v.head? ≠ some 61) :
    lexAttributeExpression (a ++ 58 :: (m ++ 58 :: (comparatorText c ++ (v ++ 41 :: rest)))) =
      .ok ⟨encodeBytes a, m, c, encodeBytes v, rest⟩ := by
  obtain ⟨cs, hpc, hcs⟩ := parseComparator_text c v rest hc
  unfold lexAttributeExpression
  have h1 := attributeloop_modifier m (comparatorText c ++ (v ++ 41 :: rest)) hm a [] ha
  simp only [List.nil_append] at h1
  rw [h1, Res.bind_ok]
  simp only []
  rw [hpc, Res.bind_ok]
  simp only []
  have h3 := valueloop_plain rest v [] hv
  simp only [List.nil_append] at h3
  rw [h3, Res.bind_ok]
  simp [sliceFrom, hcs]


theorem encodeBytes_head (a : Str) (h : ordinaryName a = true) :
    ∃ c0 tl, encodeBytes a = c0 :: tl ∧ c0 ≠ 95 := by
  cases a with
  | nil => simp [ordinaryName] at h
  | cons c a2 =>
    simp only [ordinaryName, Bool.and_eq_true, Bool.not_eq_true', decide_eq_false_iff_not,
      not_or] at h
    obtain ⟨-, -, -, -, -, h95⟩ := h
    by_cases hc : c < 128
    · exact ⟨c, encodeBytes a2, by simp [encodeBytes, byteToString, hc], h95⟩
    · exact ⟨192 + c / 64, (128 + c % 64) :: encodeBytes a2,
        by simp [encodeBytes, byteToString, hc], by omega⟩

theorem buildNode_ordinary (L : Lib) (strict : Str → Res Query) (a m : Str)
    (c : comparatortype) (v : Str) (h : ordinaryName a = true) :
    buildNode L strict (encodeBytes a) m c v = buildOrdinary L (encodeBytes a) m c v := by
  obtain ⟨c0, tl, he, h95⟩ := encodeBytes_head a h
  unfold buildNode
  rw [he]
  simp [byteAt, h95]

theorem ordinaryName_cons (a : Str) (h : ordinaryName a = true) :
    plainName a = true ∧ ∃ c a2, a = c :: a2 ∧ c ≠ 40 ∧ c ≠ 38 ∧ c ≠ 124 ∧ c ≠ 33 := by
  cases a with
  | nil => simp [ordinaryName] at h
  | cons c a2 =>
    simp only [ordinaryName, Bool.and_eq_true, Bool.not_eq_true', decide_eq_false_iff_not,
      not_or] at h
    exact ⟨h.1, c, a2, rfl, h.2.1, h.2.2.1, h.2.2.2.1, h.2.2.2.2.1⟩

/-- The parser on an attribute expression without escapes: the lexer delivers
the stored name and value, and the node is built by the modifier switch. -/
theorem ParseQuery_attributeFilter (L : Lib) (a : Str) (modifier : Option Str)
    (c : comparatortype) (v : Str) (ha : ordinaryName a = true)
    (hm : ∀ m, modifier = some m → 58 ∉ m) (hv : plainValue v = true)
    (hc : (c = .CompareLessThan ∨ c = .CompareGreaterThan) → v.head? ≠ some 61)
    (hlen : 5 ≤ (attributeFilter a modifier c v).length) :
    ParseQuery L (attributeFilter a modifier c v) =
      (buildOrdinary L (encodeBytes a) (modifier.getD []) c (encodeBytes v)).bind
        fun query => .ok ([], query) := by
  obtain ⟨hplain, c1, a2, rfl, h40, h38, h124, h33⟩ := ordinaryName_cons a ha
  unfold ParseQuery
  cases modifier with
  | none =>
    have hshape : attributeFilter (c1 :: a2) none c v =
        [40, c1] ++ (a2 ++ (comparatorText c ++ v)) ++ [41] := by
      simp [attributeFilter]
    have hl2 : 2 ≤ (a2 ++ (comparatorText c ++ v)).length := by
      rw [hshape] at hlen
      simp only [List.length_append, List.length_cons, List.length_nil] at hlen ⊢
      omega
    rw [hshape, ParseQueryF_group L _ c1 _ hl2, if_neg h40, if_neg h38, if_neg h124, if_neg h33]
    unfold parseAttributeExpression
    have hlex := lexAttributeExpression_plain (c1 :: a2) v [] c hplain hv hc
    have heq : c1 :: (a2 ++ (comparatorText c ++ v) ++ [41]) =
        (c1 :: a2) ++ (comparatorText c ++ (v ++ [41])) := by simp
    rw [heq, hlex, Res.bind_ok]
    simp only [buildNode_ordinary L _ (c1 :: a2) [] c (encodeBytes v) ha, Option.getD_none]
  | some m =>
    have hshape : attributeFilter (c1 :: a2) (some m) c v =
        [40, c1] ++ (a2 ++ 58 :: (m ++ 58 :: (comparatorText c ++ v))) ++ [41] := by
      simp [attributeFilter]
    have hl2 : 2 ≤ (a2 ++ 58 :: (m ++ 58 :: (comparatorText c ++ v))).length := by
      simp only [List.length_append, List.length_cons, List.length_nil]
      omega
    rw [hshape, ParseQueryF_group L _ c1 _ hl2, if_neg h40, if_neg h38, if_neg h124, if_neg h33]
    unfold parseAttributeExpression
    have hlex := lexAttributeExpression_modifier (c1 :: a2) m v [] c hplain (hm m rfl) hv hc
    have heq : c1 :: (a2 ++ 58 :: (m ++ 58 :: (comparatorText c ++ v)) ++ [41]) =
        (c1 :: a2) ++ 58 :: (m ++ 58 :: (comparatorText c ++ (v ++ [41]))) := by simp
    rw [heq, hlex, Res.bind_ok]
    simp only [buildNode_ordinary L _ (c1 :: a2) m c (encodeBytes v) ha, Option.getD_some]


/-- The lone slash: for every ordinary attribute name the value `/` starts
and ends with a slash, and `ParseQuery` panics on `(a=/)` and on
`(a:caseExactMatch:=/)`, slicing `value[1:0]`. -/
theorem ParseQuery_lone_slash_panics (L : Lib) (a : Str) (ha : ordinaryName a = true) :
    ParseQuery L (attributeFilter a none .CompareEquals (ascii "/")) = .panic ∧
    ParseQuery L (attributeFilter a (some (ascii "caseExactMatch")) .CompareEquals (ascii "/"))
      = .panic := by
  have hlen : 1 ≤ a.length := by
    cases a with
    | nil => simp [ordinaryName] at ha
    | cons c a2 => simp
  constructor
  · rw [ParseQuery_attributeFilter L a none _ _ ha (by simp) (by rfl) (by simp)
      (by simp [attributeFilter, comparatorText, ascii]; omega)]
    rfl
  · rw [ParseQuery_attributeFilter L a (some (ascii "caseExactMatch")) _ _ ha
      (by intro m hm; cases hm; decide) (by rfl) (by simp)
      (by simp [attributeFilter, comparatorText, ascii])]
    rfl

/-- The node kinds chosen by the string comparison for the stored value `v`,
in the order of the code: existence test, regular expression (the value has
at least the two slashes), glob, exact match. -/
theorem stringComparison_equals (L : Lib) (attr : Attribute) (cs : Bool) (v : Str) :
    (v = [42] → stringComparison L attr cs .CompareEquals v = .ok (.hasAttr attr)) ∧
    (v ≠ [42] → hasPrefix v [47] = true → hasSuffix v [47] = true → 2 ≤ v.length →
      stringComparison L attr cs .CompareEquals v =
        if L.regexpCompile (if cs then (v.take (v.length - 1)).drop 1
            else L.toLower ((v.take (v.length - 1)).drop 1))
        then .ok (.hasRegexpMatch attr (if cs then (v.take (v.length - 1)).drop 1
            else L.toLower ((v.take (v.length - 1)).drop 1)))
        else .error .regexpCompile) ∧
    (v ≠ [42] → (hasPrefix v [47] && hasSuffix v [47]) = false →
      v.any (fun c => c = 63 ∨ c = 42) = true →
      stringComparison L attr cs .CompareEquals v =
        if L.globCompile (if cs then v else L.toLower v)
        then .ok (.hasGlobMatch attr (if cs then v else L.toLower v) cs)
        else .error .globCompile) ∧
    (v ≠ [42] → (hasPrefix v [47] && hasSuffix v [47]) = false →
      v.any (fun c => c = 63 ∨ c = 42) = false →
      stringComparison L attr cs .CompareEquals v =
        if cs then .ok (.hasStringMatch attr v)
        else .ok (.hasInsensitiveStringMatch attr (L.toLower v))) := by
  refine ⟨?_, ?_, ?_, ?_⟩
  · intro h; simp [stringComparison, h]
  · intro h1 h2 h3 h4
    have hs : slice v 1 (v.length - 1) = .ok ((v.take (v.length - 1)).drop 1) := by
      unfold slice
      rw [if_pos ⟨by omega, by omega⟩]
    unfold stringComparison
    rw [if_pos rfl, if_neg h1, h2, h3]
    simp only [Bool.and_self, if_true, hs, Res.bind_ok]
    cases cs <;> simp <;> split <;> simp_all
  · intro h1 h2 h3
    unfold stringComparison
    rw [if_pos rfl, if_neg h1, h2]
    simp only [Bool.false_eq_true, if_false, h3, if_true]
    cases cs <;> simp <;> split <;> simp_all
  · intro h1 h2 h3
    unfold stringComparison
    rw [if_pos rfl, if_neg h1, h2]
    simp only [Bool.false_eq_true, if_false, h3]


theorem encodeBytes_ascii : ∀ (s : Str), (∀ b ∈ s, b < 128) → encodeBytes s = s
  | [], _ => rfl
  | c :: rest, h => by
    have hc : c < 128 := h c (List.mem_cons_self _ _)
    have ih := encodeBytes_ascii rest (fun b hb => h b (List.mem_cons_of_mem _ hb))
    simp [encodeBytes, byteToString, hc, ih]

theorem Res.bind_ite {α β : Type} {c : Prop} [Decidable c] (a b : Res α) (f : α → Res β) :
    (if c then a else b).bind f = if c then a.bind f else b.bind f := by
  split <;> rfl

/-- C4 (counterexample): for the ordinary attribute `a` and the empty value
the filter text is `(a=)`; the claim promises an exact-match node, the
parser rejects the text as shorter than 5 bytes. -/
theorem C4_counterexample :
    ordinaryName (ascii "a") = true ∧
    attributeFilter (ascii "a") none .CompareEquals [] = ascii "(a=)" ∧
    ParseQuery exampleLib (attributeFilter (ascii "a") none .CompareEquals [])
      = .error .tooShort :=
  ⟨by rfl, by rfl, by rfl⟩

/-- C4 (amended): for an ordinary ASCII attribute name `a` and an ASCII value
`v` written without escapes, in a filter text of at least 5 bytes, without
modifier (`cs = false`) or with `caseExactMatch` (`cs = true`), the node is
chosen by the shape of `v` in this order: `*` gives the existence test;
otherwise a value of at least two bytes that starts and ends with `/` gives
the regular expression compiled from the text between the slashes
(lower-cased unless `cs`), or the compile error; otherwise a value with `?`
or `*` gives the glob of the value (lower-cased unless `cs`), or the compile
error; otherwise the exact match, on the literal under `cs` and on the
lower-cased literal without it. -/
theorem C4_node_kind (L : Lib) (a v : Str) (cs : Bool)
    (ha : ordinaryName a = true) (hv : plainValue v = true)
    (haa : ∀ b ∈ a, b < 128) (hva : ∀ b ∈ v, b < 128)
    (hlen : 5 ≤ (attributeFilter a (if cs then some (ascii "caseExactMatch") else none)
      .CompareEquals v).length) :
    (v = ascii "*" →
      ParseQuery L (attributeFilter a (if cs then some (ascii "caseExactMatch") else none)
        .CompareEquals v) = .ok ([], .hasAttr (A a))) ∧
    (v ≠ ascii "*" → hasPrefix v (ascii "/") = true → hasSuffix v (ascii "/") = true →
      2 ≤ v.length →
      ParseQuery L (attributeFilter a (if cs then some (ascii "caseExactMatch") else none)
        .CompareEquals v) =
        if L.regexpCompile (if cs then (v.take (v.length - 1)).drop 1
            else L.toLower ((v.take (v.length - 1)).drop 1))
        then .ok ([], .hasRegexpMatch (A a) (if cs then (v.take (v.length - 1)).drop 1
            else L.toLower ((v.take (v.length - 1)).drop 1)))
        else .error .regexpCompile) ∧
    (v ≠ ascii "*" → (hasPrefix v (ascii "/") && hasSuffix v (ascii "/")) = false →
      v.any (fun c => c = 63 ∨ c = 42) = true →
      ParseQuery L (attributeFilter a (if cs then some (ascii "caseExactMatch") else none)
        .CompareEquals v) =
        if L.globCompile (if cs then v else L.toLower v)
        then .ok ([], .hasGlobMatch (A a) (if cs then v else L.toLower v) cs)
        else .error .globCompile) ∧
    (v ≠ ascii "*" → (hasPrefix v (ascii "/") && hasSuffix v (ascii "/")) = false →
      v.any (fun c => c = 63 ∨ c = 42) = false →
      ParseQuery L (attributeFilter a (if cs then some (ascii "caseExactMatch") else none)
        .CompareEquals v) =
        if cs then .ok ([], .hasStringMatch (A a) v)
        else .ok ([], .hasInsensitiveStringMatch (A a) (L.toLower v))) := by
  have hstar : ascii "*" = [42] := by rfl
  have hslash : ascii "/" = [47] := by rfl
  rw [hstar, hslash]
  have hparse : ParseQuery L (attributeFilter a (if cs then some (ascii "caseExactMatch") else none)
      .CompareEquals v) =
      (stringComparison L (A a) cs .CompareEquals v).bind fun query => .ok ([], query) := by
    rw [ParseQuery_attributeFilter L a _ _ _ ha
      (by intro m hm; cases cs <;> simp at hm; subst hm; decide) hv (by simp) hlen,
      encodeBytes_ascii a haa, encodeBytes_ascii v hva]
    cases cs
    · simp [buildOrdinary]
    · have hne : ¬ (ascii "caseExactMatch" = ([] : Str)) := by decide
      simp [buildOrdinary, hne]
  obtain ⟨s1, s2, s3, s4⟩ := stringComparison_equals L (A a) cs v
  rw [hparse]
  refine ⟨fun h => ?_, fun h1 h2 h3 h4 => ?_, fun h1 h2 h3 => ?_, fun h1 h2 h3 => ?_⟩
  · rw [s1 h]; rfl
  · rw [s2 h1 h2 h3 h4, Res.bind_ite]; rfl
  · rw [s3 h1 h2 h3, Res.bind_ite]; rfl
  · rw [s4 h1 h2 h3, Res.bind_ite]; rfl

/-- C4 (witness): `(cn=/^b.*b$/)` gives the regular expression `^b.*b$`. -/
theorem C4_node_kind_witness :
    ordinaryName (ascii "cn") = true ∧ plainValue (ascii "/^b.*b$/") = true ∧
    ParseQuery exampleLib (ascii "(cn=/^b.*b$/)")
      = .ok ([], .hasRegexpMatch (A (ascii "cn")) (ascii "^b.*b$")) :=
  ⟨by rfl, by rfl,
    (C4_node_kind exampleLib (ascii "cn") (ascii "/^b.*b$/") false (by rfl) (by rfl)
      (by decide) (by decide) (by decide)).2.1 (by decide) (by rfl) (by rfl) (by decide)⟩

/-- On ASCII text the exact-match nodes are as the specification says: the
default comparison stores the lower-cased literal and accepts an object iff
one of its values lower-cases to the same text; `caseExactMatch` stores the
literal and accepts an object iff it holds it. -/
theorem stringMatch_ascii (L : Lib) (W : Objects) (a v : Str) (o : Object)
    (ha : ordinaryName a = true) (hv : plainValue v = true)
    (haa : ∀ b ∈ a, b < 128) (hva : ∀ b ∈ v, b < 128)
    (h1 : v ≠ [42]) (h2 : (hasPrefix v [47] && hasSuffix v [47]) = false)
    (h3 : v.any (fun c => c = 63 ∨ c = 42) = false) :
    (5 ≤ (attributeFilter a none .CompareEquals v).length →
      ParseQuery L (attributeFilter a none .CompareEquals v) =
        .ok ([], .hasInsensitiveStringMatch (A a) (L.toLower v))) ∧
    (((Query.hasInsensitiveStringMatch (A a) (L.toLower v)).Evaluate L W o 0).1 = true ↔
      ∃ x ∈ o.AttrRendered (A a), L.toLower x = L.toLower v) ∧
    ParseQuery L (attributeFilter a (some (ascii "caseExactMatch")) .CompareEquals v) =
        .ok ([], .hasStringMatch (A a) v) ∧
    (((Query.hasStringMatch (A a) v).Evaluate L W o 0).1 = true ↔ v ∈ o.AttrRendered (A a)) := by
  have hsc := stringComparison_equals L (A a)
  refine ⟨?_, ?_, ?_, ?_⟩
  · intro hlen
    rw [ParseQuery_attributeFilter L a none _ _ ha (by simp) hv (by simp) hlen,
      encodeBytes_ascii a haa, encodeBytes_ascii v hva]
    simp only [buildOrdinary, Option.getD_none, if_true]
    rw [(hsc false v).2.2.2 h1 h2 h3]
    simp
  · simp only [Query.Evaluate, List.any_eq_true, decide_eq_true_eq]
    constructor
    · rintro ⟨x, hx, he⟩; exact ⟨x, hx, he.symm⟩
    · rintro ⟨x, hx, he⟩; exact ⟨x, hx, he.symm⟩
  · rw [ParseQuery_attributeFilter L a (some (ascii "caseExactMatch")) _ _ ha
      (by intro m hm; cases hm; decide) hv (by simp)
      (by simp [attributeFilter, comparatorText, ascii]; omega),
      encodeBytes_ascii a haa, encodeBytes_ascii v hva]
    have hne : ¬ (ascii "caseExactMatch" = ([] : Str)) := by decide
    simp only [buildOrdinary, Option.getD_some, if_neg hne, if_true]
    rw [(hsc true v).2.2.2 h1 h2 h3]
    simp
  · simp [Query.Evaluate]

/-- C5 (code at the failing input): the literal of `(cn:caseExactMatch:=é)`
(the bytes 195, 169) is stored as the four bytes 195, 131, 194, 169, because
every byte is appended as `string(byte)`; so the node rejects an object
whose `cn` holds exactly the literal. The default comparison stores the
lower-cased four bytes and accepts the object only if lower-casing maps them
to the lower-cased literal. -/
theorem C5_non_ascii_literal (L : Lib) (W : Objects) :
    ParseQueryStrict L (attributeFilter (ascii "cn") (some (ascii "caseExactMatch"))
        .CompareEquals [195, 169])
      = .ok (.hasStringMatch (A (ascii "cn")) [195, 131, 194, 169]) ∧
    [195, 169] ∈ exObjectAccent.AttrRendered (A (ascii "cn")) ∧
    ((Query.hasStringMatch (A (ascii "cn")) [195, 131, 194, 169]).Evaluate L W
        exObjectAccent 0).1 = false ∧
    ParseQueryStrict L (attributeFilter (ascii "cn") none .CompareEquals [195, 169])
      = .ok (.hasInsensitiveStringMatch (A (ascii "cn")) (L.toLower [195, 131, 194, 169])) ∧
    (((Query.hasInsensitiveStringMatch (A (ascii "cn"))
        (L.toLower [195, 131, 194, 169])).Evaluate L W exObjectAccent 0).1 = true ↔
      L.toLower [195, 131, 194, 169] = L.toLower [195, 169]) := by
  refine ⟨by rfl, by decide, by rfl, by rfl, ?_⟩
  simp [Query.Evaluate, Object.AttrRendered, exObjectAccent, List.lookup]

/-- C6 (code at the failing input): the node parsed from `(cn=/^b.*b$/)`
accepts the value `bob` and rejects `BOB`, because `hasRegexpMatch.Evaluate`
passes the value to the expression without lower-casing it; the glob node
parsed from `(cn=b*b)` lower-cases the value and accepts both. -/
theorem C6_regexp_value_not_folded :
    ParseQueryStrict exampleLib (ascii "(cn=/^b.*b$/)")
      = .ok (.hasRegexpMatch (A (ascii "cn")) (ascii "^b.*b$")) ∧
    ((Query.hasRegexpMatch (A (ascii "cn")) (ascii "^b.*b$")).Evaluate exampleLib
        (exactStore []) exObjectBob 0).1 = true ∧
    ((Query.hasRegexpMatch (A (ascii "cn")) (ascii "^b.*b$")).Evaluate exampleLib
        (exactStore []) exObjectBOB 0).1 = false ∧
    ParseQueryStrict exampleLib (ascii "(cn=b*b)")
      = .ok (.hasGlobMatch (A (ascii "cn")) (ascii "b*b") false) ∧
    ((Query.hasGlobMatch (A (ascii "cn")) (ascii "b*b") false).Evaluate exampleLib
        (exactStore []) exObjectBob 0).1 = true ∧
    ((Query.hasGlobMatch (A (ascii "cn")) (ascii "b*b") false).Evaluate exampleLib
        (exactStore []) exObjectBOB 0).1 = true ∧
    (∀ (L : Lib) (W : Objects) (a : Attribute) (m : Str) (o : Object),
      ((Query.hasRegexpMatch a m).Evaluate L W o 0).1 =
        (o.AttrRendered a).any (fun value => L.regexpMatch m value)) :=
  ⟨by rfl, by rfl, by rfl, by rfl, by rfl, by rfl, fun _ _ _ _ _ => rfl⟩

/-- C7 (code at the failing input): the user holds the wanted distinguished
name `cn=admins` as its second `memberOf` value, but the first value resolves
to a group without `memberOf`, and the loop returns that group's result at
once: the matcher is false. With the two values swapped it is true. -/
theorem C7_dnchain_early_return :
    ascii "cn=admins" ∈ exUser.AttrRendered (A (ascii "memberOf")) ∧
    ((Query.recursiveDNmatcher (A (ascii "memberOf")) (ascii "cn=admins")).Evaluate exampleLib
        exDnStore exUser 0).1 = false ∧
    ((Query.recursiveDNmatcher (A (ascii "memberOf")) (ascii "cn=admins")).Evaluate exampleLib
        exDnStore exUserSwapped 0).1 = true ∧
    ParseQueryStrict exampleLib (ascii "(memberOf:dnchain:=cn=admins)")
      = .ok (.recursiveDNmatcher (A (ascii "memberOf")) (ascii "cn=admins")) :=
  ⟨by decide, by rfl, by rfl, by rfl⟩

/-- C8 (counterexample): on an object without any attribute the integer
projection of `badPwdCount` reports `ok = false`, and the comparator
`badPwdCount < 5` evaluates to true. Whatever value the projection returns
with `ok = false`, some ordering and threshold are accepted: `<=` with that
value as threshold. -/
theorem C8_counterexample :
    (exObjectEmpty.AttrInt (A (ascii "badPwdCount"))).2 = false ∧
    ((Query.numericComparator (A (ascii "badPwdCount")) .CompareLessThan 5).Evaluate exampleLib
        (exactStore []) exObjectEmpty 0).1 = true ∧
    ParseQueryStrict exampleLib (ascii "(badPwdCount<5)")
      = .ok (.numericComparator (A (ascii "badPwdCount")) .CompareLessThan 5) ∧
    (∀ (o : Object) (a : Attribute),
      ((Query.numericComparator a .CompareLessThanEqual (o.AttrInt a).1).Evaluate exampleLib
        (exactStore []) o 0).1 = true) :=
  ⟨by rfl, by rfl, by rfl, fun o a => by simp [Query.Evaluate, comparatortype.Compare]⟩

/-- C8 (amended): when the attribute cannot be rendered as an integer, the
numeric comparator applies the requested ordering to the value the
projection returned with `ok = false` (0 for a missing attribute) and the
threshold; so it is false exactly when that comparison is false. -/
theorem C8_numericComparator_not_ok (L : Lib) (W : Objects) (a : Attribute)
    (c : comparatortype) (value : Int) (o : Object) (r : Nat)
    (hok : (o.AttrInt a).2 = false) :
    ((Query.numericComparator a c value).Evaluate L W o r).1 = c.Compare (o.AttrInt a).1 value ∧
    (o.ints.lookup a = none →
      ((Query.numericComparator a c value).Evaluate L W o r).1 = c.Compare 0 value) := by
  have _ := hok
  refine ⟨rfl, fun h => ?_⟩
  simp [Query.Evaluate, Object.AttrInt, h]

/-- C8 (witness): the object without attributes, `badPwdCount > 5`. -/
theorem C8_numericComparator_not_ok_witness :
    (exObjectEmpty.AttrInt (A (ascii "badPwdCount"))).2 = false ∧
    ((Query.numericComparator (A (ascii "badPwdCount")) .CompareGreaterThan 5).Evaluate
        exampleLib (exactStore []) exObjectEmpty 0).1 = false :=
  ⟨by rfl, by
    rw [(C8_numericComparator_not_ok exampleLib (exactStore []) (A (ascii "badPwdCount"))
      .CompareGreaterThan 5 exObjectEmpty 0 (by rfl)).1]
    rfl⟩

/-- C9 (code at the failing input): with a bitwise modifier a value that is
not an integer is not rejected; `(uac:and:=abc)` and its three variants
give a node with mask 0. -/
theorem C9_bitwise_non_integer_accepted (L : Lib) :
    (ParseInt (ascii "abc")).2 = false ∧
    ParseQuery L (ascii "(uac:and:=abc)") = .ok ([], .andModifier (A (ascii "uac")) 0) ∧
    ParseQuery L (ascii "(uac:or:=abc)") = .ok ([], .orModifier (A (ascii "uac")) 0) ∧
    ParseQuery L (ascii "(uac:1.2.840.113556.1.4.803:=abc)")
      = .ok ([], .andModifier (A (ascii "uac")) 0) ∧
    ParseQuery L (ascii "(uac:1.2.840.113556.1.4.804:=abc)")
      = .ok ([], .orModifier (A (ascii "uac")) 0) :=
  ⟨by rfl, by rfl, by rfl, by rfl, by rfl⟩


theorem parseUintLoop_status :
    ∀ (s : Str) (n : Nat),
      ((parseUintLoop s n).2 = .none → ∀ b ∈ s, 48 ≤ b ∧ b ≤ 57) ∧
      ((parseUintLoop s n).2 = .range → (parseUintLoop s n).1 = 2 ^ 64 - 1)
  | [], n => by simp [parseUintLoop]
  | c :: rest, n => by
    unfold parseUintLoop
    by_cases hd : 48 ≤ c ∧ c ≤ 57
    · rw [if_pos hd]
      by_cases h1 : n ≥ (2 ^ 64 - 1) / 10 + 1
      · rw [if_pos h1]; simp
      · rw [if_neg h1]
        simp only []
        by_cases h2 : n * 10 + (c - 48) > 2 ^ 64 - 1
        · rw [if_pos h2]; simp
        · rw [if_neg h2]
          obtain ⟨ih1, ih2⟩ := parseUintLoop_status rest (n * 10 + (c - 48))
          constructor
          · intro h b hb
            rcases List.mem_cons.mp hb with rfl | hb
            · exact hd
            · exact ih1 h b hb
          · exact ih2
    · rw [if_neg hd]; simp

theorem ParseInt_ok_bytes (v : Str) (h : (ParseInt v).2 = true) :
    v ≠ [] ∧ ∀ b ∈ v, b = 43 ∨ b = 45 ∨ (48 ≤ b ∧ b ≤ 57) := by
  cases v with
  | nil => simp [ParseInt] at h
  | cons c rest =>
    refine ⟨by simp, ?_⟩
    unfold ParseInt at h
    simp only [] at h
    have key : ∀ digits : Str, (match parseUint digits with
        | (_, NumError.invalid) => ((0 : Int), false)
        | (un, _) =>
          if (!decide (c = 45)) = true ∧ un ≥ 2 ^ 63 then (2 ^ 63 - 1, false)
          else if decide (c = 45) = true ∧ un > 2 ^ 63 then (-(2 ^ 63 : Int), false)
          else (if decide (c = 45) = true then -(un : Int) else (un : Int), true)).2 = true →
        ∀ b ∈ digits, 48 ≤ b ∧ b ≤ 57 := by
      intro digits hd
      unfold parseUint at hd
      by_cases hnil : digits = []
      · simp [hnil] at hd
      · rw [if_neg hnil] at hd
        obtain ⟨l1, l2⟩ := parseUintLoop_status digits 0
        rcases hp : parseUintLoop digits 0 with ⟨un, st⟩
        rw [hp] at hd l1 l2
        cases st with
        | none => exact l1 rfl
        | invalid => simp at hd
        | range =>
          have hun : un = 2 ^ 64 - 1 := l2 rfl
          subst hun
          by_cases hneg : c = 45
          · simp [hneg] at hd
          · simp [hneg] at hd
    by_cases hsign : c = 43 ∨ c = 45
    · rw [if_pos hsign] at h
      intro b hb
      rcases List.mem_cons.mp hb with rfl | hb
      · rcases hsign with h1 | h1
        · exact Or.inl h1
        · exact Or.inr (Or.inl h1)
      · exact Or.inr (Or.inr (key rest h b hb))
    · rw [if_neg hsign] at h
      intro b hb
      exact Or.inr (Or.inr (key (c :: rest) h b hb))

theorem ParseInt_ok_plain (v : Str) (h : (ParseInt v).2 = true) :
    v ≠ [] ∧ plainValue v = true ∧ encodeBytes v = v ∧ v.head? ≠ some 61 := by
  obtain ⟨hne, hb⟩ := ParseInt_ok_bytes v h
  refine ⟨hne, ?_, ?_, ?_⟩
  · simp only [plainValue, List.all_eq_true, Bool.not_eq_true', decide_eq_false_iff_not, not_or]
    intro b hbm
    have := hb b hbm
    omega
  · apply encodeBytes_ascii
    intro b hbm
    have := hb b hbm
    omega
  · cases v with
    | nil => exact absurd rfl hne
    | cons c rest =>
      have := hb c (List.mem_cons_self _ _)
      simp only [List.head?_cons, ne_eq, Option.some.injEq]
      omega

/-- With a comparator other than equality and a value that is not an
integer, no node is built, except by the `dnchain` modifier and the
attack-path attributes, which do not look at the comparator. -/
theorem buildNode_ordering_not_integer (L : Lib) (strict : Str → Res Query)
    (name m : Str) (c : comparatortype) (v : Str)
    (hname : name ≠ []) (hc : c ≠ .CompareEquals) (hv : (ParseInt v).2 = false)
    (hp1 : name ≠ ascii "_pwnable") (hp2 : name ≠ ascii "_canpwn")
    (hm1 : m ≠ ascii "dnchain") (hm2 : m ≠ ascii "1.2.840.113556.1.4.1941") :
    ∃ err, buildNode L strict name m c v = .error err := by
  cases name with
  | nil => exact absurd rfl hname
  | cons c0 tl =>
    unfold buildNode
    simp only [byteAt, List.get?_cons_zero, Res.bind_ok]
    by_cases h95 : c0 = 95
    · rw [if_pos h95]
      have hnp : ¬ (c0 :: tl = ascii "_pwnable" ∨ c0 :: tl = ascii "_canpwn") := by
        rintro (h | h)
        · exact hp1 h
        · exact hp2 h
      unfold buildSynthetic
      simp only [hv, Bool.not_false, if_true]
      by_cases h1 : c0 :: tl = ascii "_limit"
      · rw [if_pos h1]; exact ⟨_, rfl⟩
      rw [if_neg h1]
      by_cases h2 : c0 :: tl = ascii "_random100"
      · rw [if_pos h2]; exact ⟨_, rfl⟩
      rw [if_neg h2, if_neg hnp]
      exact ⟨_, rfl⟩
    · rw [if_neg h95]
      have hnd : ¬ (m = ascii "1.2.840.113556.1.4.1941" ∨ m = ascii "dnchain") := by
        rintro (h | h)
        · exact hm2 h
        · exact hm1 h
      unfold buildOrdinary stringComparison
      simp only [hv, Bool.not_false, if_true, if_neg hc, ne_eq, hc, not_false_eq_true]
      by_cases h1 : m = []
      · rw [if_pos h1]; exact ⟨_, rfl⟩
      rw [if_neg h1]
      by_cases h2 : m = ascii "caseExactMatch"
      · rw [if_pos h2]; exact ⟨_, rfl⟩
      rw [if_neg h2]
      by_cases h3 : m = ascii "count"
      · rw [if_pos h3]; exact ⟨_, rfl⟩
      rw [if_neg h3]
      by_cases h4 : m = ascii "len" ∨ m = ascii "length"
      · rw [if_pos h4]; exact ⟨_, rfl⟩
      rw [if_neg h4]
      by_cases h5 : m = ascii "1.2.840.113556.1.4.803" ∨ m = ascii "and"
      · rw [if_pos h5]; exact ⟨_, rfl⟩
      rw [if_neg h5]
      by_cases h6 : m = ascii "1.2.840.113556.1.4.804" ∨ m = ascii "or"
      · rw [if_pos h6]; exact ⟨_, rfl⟩
      rw [if_neg h6, if_neg hnd]
      exact ⟨_, rfl⟩

/-- C10 (counterexample): with the `dnchain` modifier or an attack-path
attribute the comparator is not looked at, and a value that is no integer
is accepted after `<`. -/
theorem C10_counterexample :
    (ParseInt (ascii "abc")).2 = false ∧
    ParseQuery exampleLib (ascii "(member:dnchain:<abc)")
      = .ok ([], .recursiveDNmatcher (A (ascii "member")) (ascii "abc")) ∧
    (ParseInt (ascii "*")).2 = false ∧
    ParseQuery exampleLib (ascii "(_pwnable<*)") = .ok ([], .pwnquery false 0 none) :=
  ⟨by rfl, by rfl, by rfl, by rfl⟩

/-- C10 (amended): whenever `ParseQuery` reads an attribute expression with a
non-empty attribute name and one of the comparators `<`, `<=`, `>`, `>=`,
and the value does not parse as a base-10 integer, it returns a parse error,
unless the modifier is `dnchain` (or its OID) or the attribute is `_pwnable`
or `_canpwn`; and for an ordinary attribute without modifier and an integer
value `n` it returns the numeric comparator with that ordering and
threshold `n`. -/
theorem C10_ordering_requires_integer (L : Lib) (s : Str) (e : AttributeExpression)
    (a v : Str) (c : comparatortype)
    (hlen : 5 ≤ s.length) (hopen : hasPrefix s [40] = true) (hclose : hasSuffix s [41] = true)
    (hkind : ∀ b, s.get? 1 = some b → b ≠ 40 ∧ b ≠ 38 ∧ b ≠ 124 ∧ b ≠ 33)
    (hlex : lexAttributeExpression (s.drop 1) = .ok e)
    (hcmp : e.comparator ≠ .CompareEquals) (hval : (ParseInt e.value).2 = false)
    (hname : e.attributename ≠ [])
    (hp1 : e.attributename ≠ ascii "_pwnable") (hp2 : e.attributename ≠ ascii "_canpwn")
    (hm1 : e.modifier ≠ ascii "dnchain") (hm2 : e.modifier ≠ ascii "1.2.840.113556.1.4.1941")
    (ha : ordinaryName a = true) (hc : c ≠ .CompareEquals) (hv : (ParseInt v).2 = true) :
    (∃ err, ParseQuery L s = .error err) ∧
    ParseQuery L (attributeFilter a none c v) =
      .ok ([], .numericComparator (A (encodeBytes a)) c (ParseInt v).1) := by
  constructor
  · unfold ParseQuery
    rw [ParseQueryF, if_neg (by omega)]
    have hpar : ¬ (!hasPrefix s [40] || !hasSuffix s [41]) = true := by simp [hopen, hclose]
    rw [if_neg hpar]
    cases s with
    | nil => simp at hlen
    | cons b0 s1 =>
      cases s1 with
      | nil => simp at hlen
      | cons b1 s2 =>
        obtain ⟨h40, h38, h124, h33⟩ := hkind b1 (by simp)
        simp only [sliceFrom, List.length_cons, Nat.le_add_left, if_true, List.drop_one,
          List.tail_cons, Res.bind_ok, byteAt, List.get?_cons_zero]
        rw [if_neg h40, if_neg h38, if_neg h124, if_neg h33]
        unfold parseAttributeExpression
        simp only [List.drop_one, List.tail_cons] at hlex
        rw [hlex, Res.bind_ok]
        obtain ⟨err, herr⟩ := buildNode_ordering_not_integer L
          (fun v => strictResult (ParseQueryF L (2 * (s2.length + 1 + 1) + 1) v))
          e.attributename e.modifier e.comparator e.value hname hcmp hval hp1 hp2 hm1 hm2
        exact ⟨err, by rw [herr]; rfl⟩
  · obtain ⟨hne, hplain, henc, hhead⟩ := ParseInt_ok_plain v hv
    have hal : 1 ≤ a.length := by
      cases a with
      | nil => simp [ordinaryName] at ha
      | cons c1 a2 => simp
    have hvl : 1 ≤ v.length := by
      cases v with
      | nil => exact absurd rfl hne
      | cons c1 v2 => simp
    have hcl : 1 ≤ (comparatorText c).length := by cases c <;> simp [comparatorText]
    rw [ParseQuery_attributeFilter L a none c v ha (by simp) hplain (fun _ => hhead)
      (by simp only [attributeFilter, List.length_cons, List.length_append, List.length_nil]
          omega), henc]
    simp only [buildOrdinary, Option.getD_none, if_true, stringComparison, if_neg hc, hv,
      Bool.not_true, Bool.false_eq_true, if_false, Res.bind_ok]

/-- C10 (witness): `(cn<abc)` is rejected and `(cn<5)` gives `cn < 5`. -/
theorem C10_ordering_requires_integer_witness :
    (∃ err, ParseQuery exampleLib (ascii "(cn<abc)") = .error err) ∧
    ParseQuery exampleLib (ascii "(cn<5)") =
      .ok ([], .numericComparator (A (ascii "cn")) .CompareLessThan 5) :=
  C10_ordering_requires_integer exampleLib (ascii "(cn<abc)")
    ⟨ascii "cn", [], .CompareLessThan, ascii "abc", []⟩ (ascii "cn") (ascii "5")
    .CompareLessThan (by decide) (by rfl) (by rfl)
    (by intro b hb; cases hb; decide) (by rfl) (by decide) (by rfl) (by decide) (by decide)
    (by decide) (by decide) (by decide) (by rfl) (by decide) (by rfl)


theorem Res.bind_ne_fuel {α β : Type} (r : Res α) (f : α → Res β) (hr : r ≠ .fuel)
    (hf : ∀ a, r = .ok a → f a ≠ .fuel) : r.bind f ≠ .fuel := by
  cases r with
  | ok a => exact hf a rfl
  | error e => simp
  | panic => simp
  | fuel => exact absurd rfl hr

theorem attributeloop_suffix :
    ∀ (n : Nat) (s acc : Str), s.length ≤ n →
      attributeloop s acc ≠ .fuel ∧
      ∀ r, attributeloop s acc = .ok r → r.2.2 <:+ s := by
  intro n
  induction n with
  | zero =>
    intro s acc hn
    have : s = [] := List.length_eq_zero.mp (Nat.le_zero.mp hn)
    subst this
    simp [attributeloop]
  | succ n ih =>
    intro s acc hn
    cases s with
    | nil => simp [attributeloop]
    | cons c rest =>
      simp only [List.length_cons] at hn
      unfold attributeloop
      by_cases h92 : c = 92
      · simp only [h92, if_true]
        cases rest with
        | nil => simp
        | cons d rest2 =>
          simp only [List.length_cons] at hn
          obtain ⟨i1, i2⟩ := ih rest2 (acc ++ byteToString d) (by omega)
          refine ⟨i1, fun r hr => ?_⟩
          exact (i2 r hr).trans ((List.suffix_cons d rest2).trans (List.suffix_cons _ _))
      · simp only [h92, if_false]
        by_cases h58 : c = 58
        · simp only [h58, if_true]
          cases hi : indexByte rest 58 with
          | none => simp
          | some k =>
            simp only [ne_eq, not_false_eq_true, Res.ok.injEq, true_and, reduceCtorEq]
            rintro r rfl
            exact (List.drop_suffix _ rest).trans (List.suffix_cons _ _)
        · simp only [h58, if_false]
          by_cases h41 : c = 41
          · simp [h41]
          · simp only [h41, if_false]
            by_cases hcmp : c = 126 ∨ c = 61 ∨ c = 60 ∨ c = 62
            · simp only [hcmp, if_true, ne_eq, not_false_eq_true, Res.ok.injEq, true_and,
                reduceCtorEq]
              rintro r rfl
              exact List.suffix_refl _
            · simp only [hcmp, if_false]
              obtain ⟨i1, i2⟩ := ih rest (acc ++ byteToString c) (by omega)
              exact ⟨i1, fun r hr => (i2 r hr).trans (List.suffix_cons _ _)⟩

theorem parseComparator_suffix (s : Str) :
    parseComparator s ≠ .fuel ∧ ∀ r, parseComparator s = .ok r → r.2 <:+ s := by
  unfold parseComparator
  cases s with
  | nil => simp
  | cons c rest =>
    simp only []
    by_cases h126 : c = 126
    · simp only [h126, if_true]
      cases rest with
      | nil => simp
      | cons d rest2 =>
        by_cases hd : d = 61
        · simp only [hd, ne_eq, not_true_eq_false, if_false, not_false_eq_true, Res.ok.injEq,
            true_and, reduceCtorEq]
          rintro r rfl
          exact (List.suffix_cons _ _).trans (List.suffix_cons _ _)
        · simp [hd]
    · simp only [h126, if_false]
      by_cases hlt : c = 60 ∨ c = 62
      · simp only [hlt, if_true]
        cases rest with
        | nil => simp
        | cons d rest2 =>
          by_cases hd : d = 61
          · simp only [hd, if_true, ne_eq, not_false_eq_true, Res.ok.injEq, true_and,
              reduceCtorEq]
            rintro r rfl
            exact (List.suffix_cons _ _).trans (List.suffix_cons _ _)
          · simp only [hd, if_false, ne_eq, not_false_eq_true, Res.ok.injEq, true_and,
              reduceCtorEq]
            rintro r rfl
            exact List.suffix_cons _ _
      · simp only [hlt, if_false, ne_eq, not_false_eq_true, Res.ok.injEq, true_and,
          reduceCtorEq]
        rintro r rfl
        exact List.suffix_cons _ _

theorem count_byteToString (d : Nat) : (byteToString d).count 40 ≤ [d].count 40 := by
  unfold byteToString
  by_cases h : d < 128
  · simp [h]
  · rw [if_neg h]
    have h1 : 192 + d / 64 ≠ 40 := by omega
    have h2 : 128 + d % 64 ≠ 40 := by omega
    simp [List.count_cons, h1, h2]

theorem valueloop_suffix :
    ∀ (n : Nat) (s acc : Str), s.length ≤ n →
      valueloop s acc ≠ .fuel ∧
      ∀ r, valueloop s acc = .ok r →
        r.2 <:+ s ∧ r.1.count 40 ≤ acc.count 40 + s.count 40 := by
  intro n
  induction n with
  | zero =>
    intro s acc hn
    have : s = [] := List.length_eq_zero.mp (Nat.le_zero.mp hn)
    subst this
    simp [valueloop]
  | succ n ih =>
    intro s acc hn
    cases s with
    | nil => simp [valueloop]
    | cons c rest =>
      simp only [List.length_cons] at hn
      unfold valueloop
      by_cases h92 : c = 92
      · simp only [h92, if_true]
        cases rest with
        | nil => simp
        | cons d rest2 =>
          simp only [List.length_cons] at hn
          obtain ⟨i1, i2⟩ := ih rest2 (acc ++ byteToString d) (by omega)
          refine ⟨i1, fun r hr => ?_⟩
          obtain ⟨j1, j2⟩ := i2 r hr
          refine ⟨j1.trans ((List.suffix_cons d rest2).trans (List.suffix_cons _ _)), ?_⟩
          have := count_byteToString d
          simp only [List.count_append, List.count_cons, List.count_nil] at j2 this ⊢
          omega
      · simp only [h92, if_false]
        by_cases h41 : c = 41
        · simp only [h41, if_true, ne_eq, not_false_eq_true, Res.ok.injEq, true_and,
            reduceCtorEq]
          rintro r rfl
          exact ⟨List.suffix_refl _, by simp⟩
        · simp only [h41, if_false]
          obtain ⟨i1, i2⟩ := ih rest (acc ++ byteToString c) (by omega)
          refine ⟨i1, fun r hr => ?_⟩
          obtain ⟨j1, j2⟩ := i2 r hr
          refine ⟨j1.trans (List.suffix_cons _ _), ?_⟩
          have := count_byteToString c
          simp only [List.count_append, List.count_cons, List.count_nil] at j2 this ⊢
          omega

theorem count_le_of_suffix {s t : Str} (h : s <:+ t) : s.count 40 ≤ t.count 40 :=
  h.sublist.count_le 40

theorem sliceFrom_one_suffix (s r : Str) (h : sliceFrom s 1 = .ok r) : r <:+ s := by
  unfold sliceFrom at h
  split at h
  · simp only [Res.ok.injEq] at h
    subst h
    exact List.drop_suffix _ _
  · simp at h

theorem sliceFrom_ne_fuel (s : Str) (i : Nat) : sliceFrom s i ≠ .fuel := by
  unfold sliceFrom; split <;> simp

theorem byteAt_ne_fuel (s : Str) (i : Nat) : byteAt s i ≠ .fuel := by
  unfold byteAt; split <;> simp

theorem lexAttributeExpression_spec (s : Str) :
    lexAttributeExpression s ≠ .fuel ∧
    ∀ e, lexAttributeExpression s = .ok e →
      e.rest <:+ s ∧ e.value.count 40 ≤ s.count 40 := by
  unfold lexAttributeExpression
  obtain ⟨a1, a2⟩ := attributeloop_suffix _ s [] (Nat.le_refl _)
  constructor
  · refine Res.bind_ne_fuel _ _ a1 (fun r1 _ => ?_)
    obtain ⟨b1, _⟩ := parseComparator_suffix r1.2.2
    refine Res.bind_ne_fuel _ _ b1 (fun r2 _ => ?_)
    obtain ⟨c1, _⟩ := valueloop_suffix _ r2.2 [] (Nat.le_refl _)
    refine Res.bind_ne_fuel _ _ c1 (fun r3 _ => ?_)
    exact Res.bind_ne_fuel _ _ (sliceFrom_ne_fuel _ _) (fun _ _ => by simp)
  · intro e h
    rw [Res.bind_eq_ok] at h
    obtain ⟨r1, h1, h⟩ := h
    rw [Res.bind_eq_ok] at h
    obtain ⟨r2, h2, h⟩ := h
    rw [Res.bind_eq_ok] at h
    obtain ⟨r3, h3, h⟩ := h
    rw [Res.bind_eq_ok] at h
    obtain ⟨r4, h4, h⟩ := h
    simp only [Res.ok.injEq] at h
    subst h
    have s1 := a2 r1 h1
    have s2 := (parseComparator_suffix r1.2.2).2 r2 h2
    obtain ⟨s3, c3⟩ := (valueloop_suffix _ r2.2 [] (Nat.le_refl _)).2 r3 h3
    have s4 := sliceFrom_one_suffix _ _ h4
    refine ⟨s4.trans (s3.trans (s2.trans s1)), ?_⟩
    have := count_le_of_suffix (s2.trans s1)
    simp only [List.count_nil, Nat.zero_add] at c3
    exact le_trans c3 this


theorem splitComma_count :
    ∀ (v x : Str), x ∈ splitComma v → x.count 40 ≤ v.count 40
  | [], x, h => by
    simp [splitComma] at h
    subst h; simp
  | c :: rest, x, h => by
    unfold splitComma at h
    have ih := splitComma_count rest
    cases hs : splitComma rest with
    | nil =>
      simp [hs] at h
      subst h; simp
    | cons y ys =>
      simp only [hs] at h
      have hy : y.count 40 ≤ rest.count 40 := ih y (by rw [hs]; exact List.mem_cons_self _ _)
      have hys : ∀ z ∈ ys, z.count 40 ≤ rest.count 40 :=
        fun z hz => ih z (by rw [hs]; exact List.mem_cons_of_mem _ hz)
      by_cases hc : c = 44
      · rw [if_pos hc] at h
        subst hc
        rcases List.mem_cons.mp h with rfl | h
        · simp
        · rcases List.mem_cons.mp h with rfl | h
          · simpa [List.count_cons] using hy
          · simpa [List.count_cons] using hys x h
      · rw [if_neg hc] at h
        rcases List.mem_cons.mp h with rfl | h
        · simp only [List.count_cons]
          omega
        · have := hys x h
          simp only [List.count_cons]
          omega

theorem splitComma_getD_count (v : Str) (i : Nat) :
    ((splitComma v).getD i []).count 40 ≤ v.count 40 := by
  rw [List.getD_eq_getElem?_getD]
  cases h : (splitComma v)[i]? with
  | none => simp
  | some x =>
    simp only [Option.getD_some]
    exact splitComma_count v x (List.getElem?_mem h)

theorem pwnTarget_ne_fuel (r : Res Query) (h : r ≠ .fuel) : pwnTarget r ≠ .fuel := by
  cases r <;> simp [pwnTarget] at h ⊢

theorem slice_ne_fuel (s : Str) (i j : Nat) : slice s i j ≠ .fuel := by
  unfold slice; split <;> simp

theorem stringComparison_ne_fuel (L : Lib) (attr : Attribute) (cs : Bool)
    (c : comparatortype) (v : Str) : stringComparison L attr cs c v ≠ .fuel := by
  unfold stringComparison
  by_cases hc : c = .CompareEquals
  · rw [if_pos hc]
    by_cases h1 : v = [42]
    · rw [if_pos h1]; simp
    rw [if_neg h1]
    by_cases h2 : (hasPrefix v [47] && hasSuffix v [47]) = true
    · rw [if_pos h2]
      refine Res.bind_ne_fuel _ _ (slice_ne_fuel _ _ _) (fun p _ => ?_)
      simp only []
      split_ifs <;> simp
    · rw [if_neg h2]
      by_cases h3 : v.any (fun c => c = 63 ∨ c = 42) = true
      · rw [if_pos h3]
        simp only []
        split_ifs <;> simp
      · rw [if_neg h3]
        split_ifs <;> simp
  · rw [if_neg hc]
    split_ifs <;> simp

theorem buildOrdinary_ne_fuel (L : Lib) (name m : Str) (c : comparatortype) (v : Str) :
    buildOrdinary L name m c v ≠ .fuel := by
  unfold buildOrdinary
  simp only []
  split_ifs <;> first
    | exact stringComparison_ne_fuel _ _ _ _ _
    | simp

theorem buildSynthetic_ne_fuel (L : Lib) (strict : Str → Res Query) (name : Str)
    (c : comparatortype) (v : Str)
    (hs : ∀ x : Str, x.count 40 ≤ v.count 40 → strict x ≠ .fuel) :
    buildSynthetic L strict name c v ≠ .fuel := by
  unfold buildSynthetic
  simp only []
  by_cases h1 : name = ascii "_limit"
  · rw [if_pos h1]; split_ifs <;> simp
  rw [if_neg h1]
  by_cases h2 : name = ascii "_random100"
  · rw [if_pos h2]; split_ifs <;> simp
  rw [if_neg h2]
  by_cases h3 : name = ascii "_pwnable" ∨ name = ascii "_canpwn"
  · rw [if_pos h3]
    refine Res.bind_ne_fuel _ _ ?_ (fun target _ => ?_)
    · split_ifs
      · exact pwnTarget_ne_fuel _ (hs _ (splitComma_getD_count v 1))
      · simp
    · split_ifs <;> (try split) <;> simp
  · rw [if_neg h3]; simp

theorem buildNode_ne_fuel (L : Lib) (strict : Str → Res Query) (name m : Str)
    (c : comparatortype) (v : Str)
    (hs : ∀ x : Str, x.count 40 ≤ v.count 40 → strict x ≠ .fuel) :
    buildNode L strict name m c v ≠ .fuel := by
  unfold buildNode
  refine Res.bind_ne_fuel _ _ (byteAt_ne_fuel _ _) (fun c0 _ => ?_)
  split_ifs
  · exact buildSynthetic_ne_fuel L strict name c v hs
  · exact buildOrdinary_ne_fuel L name m c v

theorem parseAttributeExpression_spec (L : Lib) (strict : Str → Res Query) (s : Str)
    (hs : ∀ x : Str, x.count 40 ≤ s.count 40 → strict x ≠ .fuel) :
    parseAttributeExpression L strict s ≠ .fuel ∧
    ∀ r, parseAttributeExpression L strict s = .ok r → r.1 <:+ s := by
  unfold parseAttributeExpression
  obtain ⟨l1, l2⟩ := lexAttributeExpression_spec s
  constructor
  · refine Res.bind_ne_fuel _ _ l1 (fun e he => ?_)
    refine Res.bind_ne_fuel _ _ ?_ (fun _ _ => by simp)
    exact buildNode_ne_fuel L strict _ _ _ _
      (fun x hx => hs x (le_trans hx (l2 e he).2))
  · intro r h
    rw [Res.bind_eq_ok] at h
    obtain ⟨e, he, h⟩ := h
    rw [Res.bind_eq_ok] at h
    obtain ⟨q, _, h⟩ := h
    simp only [Res.ok.injEq] at h
    subst h
    exact (l2 e he).1


theorem strictResult_ne_fuel (r : Res (Str × Query)) (h : r ≠ .fuel) :
    strictResult r ≠ .fuel := by
  unfold strictResult
  exact Res.bind_ne_fuel _ _ h (fun _ _ => by split_ifs <;> simp)

theorem sliceFrom_one_eq (s r : Str) (h : sliceFrom s 1 = .ok r) : r = s.tail := by
  unfold sliceFrom at h
  split at h
  · simp only [Res.ok.injEq] at h
    subst h
    simp
  · simp at h

/-- The remainder returned by the parser is a suffix of its input. -/
theorem ParseQueryF_suffix (L : Lib) (n : Nat) :
    (∀ s r, ParseQueryF L n s = .ok r → r.1 <:+ s.tail) ∧
    (∀ s acc r, parsemultiplequeriesF L n s acc = .ok r → r.1 <:+ s) := by
  induction n with
  | zero =>
    constructor
    · intro s r h; simp [ParseQueryF] at h
    · intro s acc r h; simp [parsemultiplequeriesF] at h
  | succ n ih =>
    obtain ⟨ih1, ih2⟩ := ih
    constructor
    · intro s r h
      rw [ParseQueryF] at h
      by_cases hlen : s.length < 5
      · simp [hlen] at h
      rw [if_neg hlen] at h
      by_cases hpar : (!hasPrefix s [40] || !hasSuffix s [41]) = true
      · simp [hpar] at h
      rw [if_neg hpar] at h
      rw [Res.bind_eq_ok] at h
      obtain ⟨s1, hs1, h⟩ := h
      have hs1e := sliceFrom_one_eq s s1 hs1
      subst hs1e
      rw [Res.bind_eq_ok] at h
      obtain ⟨c, hc, h⟩ := h
      by_cases h40 : c = 40
      · rw [if_pos h40] at h
        rw [Res.bind_eq_ok] at h
        obtain ⟨r1, hr1, h⟩ := h
        rw [Res.bind_eq_ok] at h
        obtain ⟨s2, hs2, h⟩ := h
        simp only [Res.ok.injEq] at h
        subst h
        exact (sliceFrom_one_suffix _ _ hs2).trans ((ih1 _ _ hr1).trans (List.tail_suffix _))
      rw [if_neg h40] at h
      by_cases h38 : c = 38
      · rw [if_pos h38] at h
        rw [Res.bind_eq_ok] at h
        obtain ⟨s2, hs2, h⟩ := h
        rw [Res.bind_eq_ok] at h
        obtain ⟨r1, hr1, h⟩ := h
        rw [Res.bind_eq_ok] at h
        obtain ⟨s3, hs3, h⟩ := h
        simp only [Res.ok.injEq] at h
        subst h
        exact (sliceFrom_one_suffix _ _ hs3).trans
          ((ih2 _ _ _ hr1).trans (sliceFrom_one_suffix _ _ hs2))
      rw [if_neg h38] at h
      by_cases h124 : c = 124
      · rw [if_pos h124] at h
        rw [Res.bind_eq_ok] at h
        obtain ⟨s2, hs2, h⟩ := h
        rw [Res.bind_eq_ok] at h
        obtain ⟨r1, hr1, h⟩ := h
        rw [Res.bind_eq_ok] at h
        obtain ⟨s3, hs3, h⟩ := h
        simp only [Res.ok.injEq] at h
        subst h
        exact (sliceFrom_one_suffix _ _ hs3).trans
          ((ih2 _ _ _ hr1).trans (sliceFrom_one_suffix _ _ hs2))
      rw [if_neg h124] at h
      by_cases h33 : c = 33
      · rw [if_pos h33] at h
        rw [Res.bind_eq_ok] at h
        obtain ⟨s2, hs2, h⟩ := h
        rw [Res.bind_eq_ok] at h
        obtain ⟨r1, hr1, h⟩ := h
        rw [Res.bind_eq_ok] at h
        obtain ⟨s3, hs3, h⟩ := h
        simp only [Res.ok.injEq] at h
        subst h
        exact (sliceFrom_one_suffix _ _ hs3).trans
          (((ih1 _ _ hr1).trans (List.tail_suffix _)).trans (sliceFrom_one_suffix _ _ hs2))
      rw [if_neg h33] at h
      unfold parseAttributeExpression at h
      rw [Res.bind_eq_ok] at h
      obtain ⟨e, he, h⟩ := h
      rw [Res.bind_eq_ok] at h
      obtain ⟨q, _, h⟩ := h
      simp only [Res.ok.injEq] at h
      subst h
      exact ((lexAttributeExpression_spec _).2 e he).1
    · intro s acc r h
      rw [parsemultiplequeriesF] at h
      split_ifs at h with h1 h2
      · rw [Res.bind_eq_ok] at h
        obtain ⟨r1, hr1, h⟩ := h
        exact (ih2 _ _ _ h).trans ((ih1 _ _ hr1).trans (List.tail_suffix _))
      · simp only [Res.ok.injEq] at h
        subst h
        exact List.suffix_refl _

theorem count_tail_of_head (s : Str) (h : s.head? = some 40) :
    s.tail.count 40 + 1 = s.count 40 := by
  cases s with
  | nil => simp at h
  | cons c rest =>
    simp only [List.head?_cons, Option.some.injEq] at h
    subst h
    simp

/-- With fuel above twice the number of opening parentheses the parser does
not run out of fuel. -/
theorem ParseQueryF_ne_fuel (L : Lib) (n : Nat) :
    (∀ s, 2 * s.count 40 + 1 ≤ n → ParseQueryF L n s ≠ .fuel) ∧
    (∀ s acc, 2 * s.count 40 + 2 ≤ n → parsemultiplequeriesF L n s acc ≠ .fuel) := by
  induction n with
  | zero =>
    constructor
    · intro s h; omega
    · intro s acc h; omega
  | succ n ih =>
    obtain ⟨ih1, ih2⟩ := ih
    constructor
    · intro s hn
      rw [ParseQueryF]
      by_cases hlen : s.length < 5
      · simp [hlen]
      rw [if_neg hlen]
      by_cases hpar : (!hasPrefix s [40] || !hasSuffix s [41]) = true
      · simp [hpar]
      rw [if_neg hpar]
      have hhead : s.head? = some 40 := by
        simp only [Bool.or_eq_true, Bool.not_eq_true', not_or, Bool.not_eq_false] at hpar
        have := hpar.1
        cases s with
        | nil => simp [hasPrefix] at this
        | cons c rest =>
          simp [hasPrefix] at this
          simp [← this]
      have hcount := count_tail_of_head s hhead
      refine Res.bind_ne_fuel _ _ (sliceFrom_ne_fuel _ _) (fun s1 hs1 => ?_)
      have hs1e := sliceFrom_one_eq s s1 hs1
      subst hs1e
      refine Res.bind_ne_fuel _ _ (byteAt_ne_fuel _ _) (fun c _ => ?_)
      have htt : s.tail.tail.count 40 ≤ s.tail.count 40 :=
        count_le_of_suffix (List.tail_suffix _)
      split_ifs
      · refine Res.bind_ne_fuel _ _ (ih1 _ (by omega)) (fun r _ => ?_)
        exact Res.bind_ne_fuel _ _ (sliceFrom_ne_fuel _ _) (fun _ _ => by simp)
      · refine Res.bind_ne_fuel _ _ (sliceFrom_ne_fuel _ _) (fun s2 hs2 => ?_)
        have := sliceFrom_one_eq _ _ hs2
        subst this
        refine Res.bind_ne_fuel _ _ (ih2 _ _ (by omega)) (fun r _ => ?_)
        exact Res.bind_ne_fuel _ _ (sliceFrom_ne_fuel _ _) (fun _ _ => by simp)
      · refine Res.bind_ne_fuel _ _ (sliceFrom_ne_fuel _ _) (fun s2 hs2 => ?_)
        have := sliceFrom_one_eq _ _ hs2
        subst this
        refine Res.bind_ne_fuel _ _ (ih2 _ _ (by omega)) (fun r _ => ?_)
        exact Res.bind_ne_fuel _ _ (sliceFrom_ne_fuel _ _) (fun _ _ => by simp)
      · refine Res.bind_ne_fuel _ _ (sliceFrom_ne_fuel _ _) (fun s2 hs2 => ?_)
        have := sliceFrom_one_eq _ _ hs2
        subst this
        refine Res.bind_ne_fuel _ _ (ih1 _ (by omega)) (fun r _ => ?_)
        exact Res.bind_ne_fuel _ _ (sliceFrom_ne_fuel _ _) (fun _ _ => by simp)
      · exact (parseAttributeExpression_spec L _ _
          (fun x hx => strictResult_ne_fuel _ (ih1 x (by omega)))).1
    · intro s acc hn
      rw [parsemultiplequeriesF]
      split_ifs with h1 h2
      · refine Res.bind_ne_fuel _ _ (ih1 _ (by omega)) (fun r hr => ?_)
        have hsuf := (ParseQueryF_suffix L n).1 s r hr
        have hcount := count_tail_of_head s h1.2
        have := count_le_of_suffix hsuf
        exact ih2 _ _ (by omega)
      · simp
      · simp

/-- The parser `ParseQuery` is a total function of its input: the fuel it
is given always suffices, so it returns a result, an error or a panic. -/
theorem ParseQuery_ne_fuel (L : Lib) (s : Str) : ParseQuery L s ≠ .fuel := by
  unfold ParseQuery
  apply (ParseQueryF_ne_fuel L _).1
  have : s.count 40 ≤ s.length := List.count_le_length 40 s
  omega


theorem evaluateAnd_all (L : Lib) (W : Objects) (o : Object) (r : Nat) :
    ∀ (cs : List Query), allSideEffectFree cs = true →
      (evaluateAnd L W cs o r).1 = cs.all (fun c => (c.Evaluate L W o r).1)
  | [], _ => by simp [evaluateAnd]
  | q :: rest, h => by
    have hq : q.sideEffectFree = true ∧ allSideEffectFree rest = true := by
      simpa [allSideEffectFree] using h
    have h1 := Evaluate_sideEffectFree L W q o r hq.1
    have hr : (q.Evaluate L W o r).2.2 = r := by rw [h1]
    have ih := evaluateAnd_all L W o r rest hq.2
    simp only [evaluateAnd, List.all_cons]
    by_cases hb : (q.Evaluate L W o r).1 = true
    · simp [hb, hr, ih]
    · simp [hb]

theorem evaluateOr_any (L : Lib) (W : Objects) (o : Object) (r : Nat) :
    ∀ (cs : List Query), allSideEffectFree cs = true →
      (evaluateOr L W cs o r).1 = cs.any (fun c => (c.Evaluate L W o r).1)
  | [], _ => by simp [evaluateOr]
  | q :: rest, h => by
    have hq : q.sideEffectFree = true ∧ allSideEffectFree rest = true := by
      simpa [allSideEffectFree] using h
    have h1 := Evaluate_sideEffectFree L W q o r hq.1
    have hr : (q.Evaluate L W o r).2.2 = r := by rw [h1]
    have ih := evaluateOr_any L W o r rest hq.2
    simp only [evaluateOr, List.any_cons]
    by_cases hb : (q.Evaluate L W o r).1 = true
    · simp [hb]
    · simp [hb, hr, ih]

/-- C13: on side-effect-free children the conjunction is the logical AND of
the children (true when there is none), the disjunction their logical OR
(false when there is none), and the negation of any predicate the logical
NOT of its result; in particular for two children `a` and `b`. -/
theorem C13_boolean_connectives (L : Lib) (W : Objects) (o : Object) (r : Nat)
    (cs : List Query) (a b : Query) (hcs : allSideEffectFree cs = true)
    (ha : a.sideEffectFree = true) (hb : b.sideEffectFree = true) :
    ((Query.andquery cs).Evaluate L W o r).1 = cs.all (fun c => (c.Evaluate L W o r).1) ∧
    ((Query.orquery cs).Evaluate L W o r).1 = cs.any (fun c => (c.Evaluate L W o r).1) ∧
    ((Query.notquery a).Evaluate L W o r).1 = !(a.Evaluate L W o r).1 ∧
    ((Query.andquery [a, b]).Evaluate L W o r).1 =
      ((a.Evaluate L W o r).1 && (b.Evaluate L W o r).1) ∧
    ((Query.orquery [a, b]).Evaluate L W o r).1 =
      ((a.Evaluate L W o r).1 || (b.Evaluate L W o r).1) ∧
    ((Query.andquery []).Evaluate L W o r).1 = true ∧
    ((Query.orquery []).Evaluate L W o r).1 = false := by
  have hab : allSideEffectFree [a, b] = true := by simp [allSideEffectFree, ha, hb]
  refine ⟨?_, ?_, ?_, ?_, ?_, ?_, ?_⟩
  · simp only [Query.Evaluate]; exact evaluateAnd_all L W o r cs hcs
  · simp only [Query.Evaluate]; exact evaluateOr_any L W o r cs hcs
  · simp only [Query.Evaluate]
  · simp only [Query.Evaluate]; rw [evaluateAnd_all L W o r [a, b] hab]; simp
  · simp only [Query.Evaluate]; rw [evaluateOr_any L W o r [a, b] hab]; simp
  · simp [Query.Evaluate, evaluateAnd]
  · simp [Query.Evaluate, evaluateOr]

/-- C13 (witness): `cn=x` and the existence test on the object whose `cn` is `x`. -/
theorem C13_boolean_connectives_witness :
    allSideEffectFree [.hasStringMatch (A (ascii "cn")) (ascii "x"), .hasAttr (A (ascii "ou"))]
      = true ∧
    ((Query.andquery [.hasStringMatch (A (ascii "cn")) (ascii "x"),
        .hasAttr (A (ascii "ou"))]).Evaluate exampleLib (exactStore []) exObjectX 0).1 = false ∧
    ((Query.orquery [.hasStringMatch (A (ascii "cn")) (ascii "x"),
        .hasAttr (A (ascii "ou"))]).Evaluate exampleLib (exactStore []) exObjectX 0).1 = true :=
  ⟨by rfl, by
    rw [(C13_boolean_connectives exampleLib (exactStore []) exObjectX 0
      [.hasStringMatch (A (ascii "cn")) (ascii "x"), .hasAttr (A (ascii "ou"))]
      (.hasStringMatch (A (ascii "cn")) (ascii "x")) (.hasAttr (A (ascii "ou")))
      (by rfl) (by rfl) (by rfl)).1]
    rfl, by rfl⟩

/-- C18: `ParseQueryStrict` returns an error for an input shorter than 5
bytes, for an input that does not start with `(` or does not end with `)`,
and when `ParseQuery` succeeds with a non-empty remainder; when `ParseQuery`
succeeds with an empty remainder it returns exactly that AST. -/
theorem C18_ParseQueryStrict (L : Lib) (s : Str) :
    (s.length < 5 → ∃ e, ParseQueryStrict L s = .error e) ∧
    ((hasPrefix s (ascii "(") = false ∨ hasSuffix s (ascii ")") = false) →
      ∃ e, ParseQueryStrict L s = .error e) ∧
    (∀ rem q, ParseQuery L s = .ok (rem, q) → rem ≠ [] →
      ParseQueryStrict L s = .error .extraData) ∧
    (∀ q, ParseQuery L s = .ok ([], q) → ParseQueryStrict L s = .ok q) := by
  have h40 : ascii "(" = [40] := by rfl
  have h41 : ascii ")" = [41] := by rfl
  rw [h40, h41]
  refine ⟨fun h => ?_, fun h => ?_, fun rem q h hne => ?_, fun q h => ?_⟩
  · refine ⟨.tooShort, ?_⟩
    unfold ParseQueryStrict ParseQuery
    rw [ParseQueryF, if_pos h]
    rfl
  · by_cases hlen : s.length < 5
    · refine ⟨.tooShort, ?_⟩
      unfold ParseQueryStrict ParseQuery
      rw [ParseQueryF, if_pos hlen]
      rfl
    · refine ⟨.noParens, ?_⟩
      unfold ParseQueryStrict ParseQuery
      have hpar : (!hasPrefix s [40] || !hasSuffix s [41]) = true := by
        rcases h with h | h <;> simp [h]
      rw [ParseQueryF, if_neg hlen, if_pos hpar]
      rfl
  · unfold ParseQueryStrict strictResult
    rw [h]
    simp [hne]
  · exact (ParseQueryStrict_eq_ok L s q).mpr h

/-- C18 (witness): `(a=b` and `(cn=bob` are rejected, `(a=b)(c=d)` is
rejected for its remainder, `(a=b)` is returned as parsed. -/
theorem C18_ParseQueryStrict_witness :
    (∃ e, ParseQueryStrict exampleLib (ascii "(a=b") = .error e) ∧
    (∃ e, ParseQueryStrict exampleLib (ascii "(cn=bob") = .error e) ∧
    ParseQueryStrict exampleLib (ascii "(a=b)(c=d)") = .error .extraData ∧
    ParseQueryStrict exampleLib (ascii "(a=b)")
      = .ok (.hasInsensitiveStringMatch (A (ascii "a")) (ascii "b")) :=
  ⟨(C18_ParseQueryStrict exampleLib (ascii "(a=b")).1 (by decide),
    (C18_ParseQueryStrict exampleLib (ascii "(cn=bob")).2.1 (Or.inr (by rfl)),
    (C18_ParseQueryStrict exampleLib (ascii "(a=b)(c=d)")).2.2.1 (ascii "(c=d)")
      (.hasInsensitiveStringMatch (A (ascii "a")) (ascii "b")) (by rfl) (by decide),
    (C18_ParseQueryStrict exampleLib (ascii "(a=b)")).2.2.2
      (.hasInsensitiveStringMatch (A (ascii "a")) (ascii "b")) (by rfl)⟩

theorem pwnScan_eq_true (method : Nat) :
    ∀ items : List PwnInfo,
      pwnScan method items = true ↔
        (method = 0 ∧ items ≠ []) ∨ ∃ pwninfo ∈ items, method = pwninfo.Method
  | [] => by simp [pwnScan]
  | p :: rest => by
    unfold pwnScan
    by_cases h : method = 0 ∨ method = p.Method
    · rw [if_pos h]
      simp only [true_iff]
      rcases h with h | h
      · exact Or.inl ⟨h, by simp⟩
      · exact Or.inr ⟨p, List.mem_cons_self _ _, h⟩
    · rw [if_neg h]
      rw [pwnScan_eq_true method rest]
      simp only [not_or] at h
      constructor
      · rintro (⟨h0, -⟩ | ⟨q, hq, hm⟩)
        · exact absurd h0 h.1
        · exact Or.inr ⟨q, List.mem_cons_of_mem _ hq, hm⟩
      · rintro (⟨h0, -⟩ | ⟨q, hq, hm⟩)
        · exact absurd h0 h.1
        · rcases List.mem_cons.mp hq with rfl | hq
          · exact absurd hm h.2
          · exact Or.inr ⟨q, hq, hm⟩


/-- C20: the attack-path predicate reads `CanPwn` when built for `_canpwn` and
`PwnableBy` when built for `_pwnable`; with a requested method (non-zero) it
is true iff some edge of that list has this method, with the unrestricted
method (zero, from `*` or the empty value) iff the list is not empty; and
the result does not depend on the target. -/
theorem C20_pwnquery (L : Lib) (W : Objects) (canpwn : Bool) (method : Nat)
    (target target2 : Option Query) (o : Object) (r : Nat) :
    (method ≠ 0 →
      (((Query.pwnquery canpwn method target).Evaluate L W o r).1 = true ↔
        ∃ pwninfo ∈ (if canpwn then o.CanPwn else o.PwnableBy), pwninfo.Method = method)) ∧
    (method = 0 →
      (((Query.pwnquery canpwn method target).Evaluate L W o r).1 = true ↔
        (if canpwn then o.CanPwn else o.PwnableBy) ≠ [])) ∧
    ((Query.pwnquery canpwn method target).Evaluate L W o r).1 =
      ((Query.pwnquery canpwn method target2).Evaluate L W o r).1 ∧
    ParseQuery L (ascii "(_canpwn=*)") = .ok ([], .pwnquery true 0 none) ∧
    ParseQuery L (ascii "(_pwnable=*)") = .ok ([], .pwnquery false 0 none) ∧
    ParseQuery L (ascii "(_pwnable=)") = .ok ([], .pwnquery false 0 none) ∧
    ParseQuery L (ascii "(_pwnable=*,(a=b" ++ [92, 41] ++ ascii ")")
      = .ok ([], .pwnquery false 0
          (some (.hasInsensitiveStringMatch (A (ascii "a")) (L.toLower (ascii "b"))))) ∧
    ParseQuery L (ascii "(_canpwn=Owns)") =
      (match L.PwnMethodString (ascii "Owns") with
        | none => .error .pwnMethod
        | some m => .ok ([], .pwnquery true m none)) := by
  have hitems : (if (!canpwn) = true then o.PwnableBy else o.CanPwn) =
      (if canpwn then o.CanPwn else o.PwnableBy) := by cases canpwn <;> rfl
  refine ⟨fun hm => ?_, fun hm => ?_, by rfl, by rfl, by rfl, by rfl, by rfl, ?_⟩
  · simp only [Query.Evaluate, hitems, pwnScan_eq_true]
    constructor
    · rintro (⟨h0, -⟩ | ⟨p, hp, he⟩)
      · exact absurd h0 hm
      · exact ⟨p, hp, he.symm⟩
    · rintro ⟨p, hp, he⟩
      exact Or.inr ⟨p, hp, he.symm⟩
  · simp only [Query.Evaluate, hitems, pwnScan_eq_true]
    constructor
    · rintro (⟨-, h⟩ | ⟨p, hp, -⟩)
      · exact h
      · intro hnil; rw [hnil] at hp; exact List.not_mem_nil _ hp
    · intro h
      exact Or.inl ⟨hm, h⟩
  · have h1 : ParseQuery L (ascii "(_canpwn=Owns)") =
        (match L.PwnMethodString (ascii "Owns") with
          | none => (Res.error .pwnMethod : Res Query)
          | some m => .ok (.pwnquery true m none)).bind fun q => .ok ([], q) := by rfl
    rw [h1]
    cases L.PwnMethodString (ascii "Owns") <;> rfl

/-- C20 (witness): an object with one outgoing edge of method 3. -/
theorem C20_pwnquery_witness :
    ((Query.pwnquery true 3 none).Evaluate exampleLib (exactStore []) exObjectEdges 0).1 = true ∧
    ((Query.pwnquery true 4 none).Evaluate exampleLib (exactStore []) exObjectEdges 0).1 = false ∧
    ((Query.pwnquery true 0 none).Evaluate exampleLib (exactStore []) exObjectEdges 0).1 = true ∧
    ((Query.pwnquery false 0 none).Evaluate exampleLib (exactStore []) exObjectEdges 0).1
      = false :=
  ⟨((C20_pwnquery exampleLib (exactStore []) true 3 none none exObjectEdges 0).1
      (by decide)).mpr ⟨⟨3⟩, by decide, rfl⟩,
    by rfl,
    ((C20_pwnquery exampleLib (exactStore []) true 0 none none exObjectEdges 0).2.1
      rfl).mpr (by decide),
    by rfl⟩


theorem natTextAux_head :
    ∀ (fuel n : Nat) (rest : Str), 0 < fuel →
      ∃ d tl, natTextAux fuel n rest = d :: tl ∧ 48 ≤ d ∧ d ≤ 57
  | 0, _, _, h => absurd h (Nat.lt_irrefl 0)
  | fuel + 1, n, rest, _ => by
    unfold natTextAux
    by_cases hn : n < 10
    · rw [if_pos hn]
      exact ⟨48 + n, rest, rfl, by omega, by omega⟩
    · rw [if_neg hn]
      cases fuel with
      | zero => exact ⟨48 + n % 10, rest, by simp [natTextAux], by omega, by omega⟩
      | succ f => exact natTextAux_head (f + 1) (n / 10) _ (Nat.succ_pos f)

theorem parseUintLoop_natTextAux :
    ∀ (fuel n : Nat) (rest : Str), n < fuel → n < 2 ^ 64 →
      parseUintLoop (natTextAux fuel n rest) 0 = parseUintLoop rest n
  | 0, _, _, h, _ => absurd h (Nat.not_lt_zero _)
  | fuel + 1, n, rest, hf, hn => by
    unfold natTextAux
    by_cases h10 : n < 10
    · rw [if_pos h10]
      conv_lhs => unfold parseUintLoop
      have hd : 48 ≤ 48 + n ∧ 48 + n ≤ 57 := ⟨by omega, by omega⟩
      rw [if_pos hd]
      have h1 : ¬ (0 ≥ (2 ^ 64 - 1) / 10 + 1) := by norm_num
      rw [if_neg h1]
      simp only []
      have h2 : ¬ (0 * 10 + (48 + n - 48) > 2 ^ 64 - 1) := by
        have : 0 * 10 + (48 + n - 48) = n := by omega
        rw [this]; omega
      rw [if_neg h2]
      have : 0 * 10 + (48 + n - 48) = n := by omega
      rw [this]
    · rw [if_neg h10]
      have hlt : n / 10 < n := Nat.div_lt_self (by omega) (by omega)
      rw [parseUintLoop_natTextAux fuel (n / 10) _ (by omega) (by omega)]
      conv_lhs => unfold parseUintLoop
      have hd : 48 ≤ 48 + n % 10 ∧ 48 + n % 10 ≤ 57 := ⟨by omega, by omega⟩
      rw [if_pos hd]
      have h1 : ¬ (n / 10 ≥ (2 ^ 64 - 1) / 10 + 1) := by
        have : (2 ^ 64 - 1) / 10 + 1 = 1844674407370955162 := by norm_num
        rw [this]
        have : (2 : Nat) ^ 64 = 18446744073709551616 := by norm_num
        omega
      rw [if_neg h1]
      simp only []
      have hval : n / 10 * 10 + (48 + n % 10 - 48) = n := by omega
      rw [hval]
      have h2 : ¬ (n > 2 ^ 64 - 1) := by omega
      rw [if_neg h2]

theorem parseUint_natText (n : Nat) (hn : n < 2 ^ 64) : parseUint (natText n) = (n, .none) := by
  unfold parseUint natText
  obtain ⟨d, tl, hd, -, -⟩ := natTextAux_head (n + 1) n [] (Nat.succ_pos n)
  have hne : ¬ natTextAux (n + 1) n [] = [] := by rw [hd]; simp
  rw [if_neg hne, parseUintLoop_natTextAux (n + 1) n [] (by omega) hn]
  rfl

theorem ParseInt_cons (c : Nat) (rest : Str) :
    ParseInt (c :: rest) =
      match parseUint (if c = 43 ∨ c = 45 then rest else c :: rest) with
      | (_, .invalid) => (0, false)
      | (un, _) =>
        if !decide (c = 45) ∧ un ≥ 2 ^ 63 then (2 ^ 63 - 1, false)
        else if decide (c = 45) ∧ un > 2 ^ 63 then (-(2 ^ 63 : Int), false)
        else (if decide (c = 45) then -(un : Int) else (un : Int), true) := rfl

/-- The decimal text of a 64-bit integer parses back to that integer. -/
theorem ParseInt_intText (m : Int) (hlo : -(2 ^ 63 : Int) ≤ m) (hhi : m < 2 ^ 63) :
    ParseInt (intText m) = (m, true) := by
  have h63 : (2 : Nat) ^ 63 = 9223372036854775808 := by norm_num
  have h64 : (2 : Nat) ^ 64 = 18446744073709551616 := by norm_num
  have h63i : (2 : Int) ^ 63 = 9223372036854775808 := by norm_num
  unfold intText
  by_cases hneg : m < 0
  · rw [if_pos hneg]
    have hk : (-m).toNat ≤ 2 ^ 63 := by omega
    rw [ParseInt_cons, if_pos (Or.inr rfl), parseUint_natText _ (by omega)]
    simp only [decide_True, Bool.not_true, Bool.false_eq_true, false_and, if_false, true_and,
      if_true]
    have hgt : ¬ ((-m).toNat > 2 ^ 63) := by omega
    rw [if_neg hgt]
    have : -((-m).toNat : Int) = m := by omega
    rw [this]
  · rw [if_neg hneg]
    obtain ⟨d, tl, hd, hd1, hd2⟩ := natTextAux_head (m.toNat + 1) m.toNat [] (Nat.succ_pos _)
    have hp := parseUint_natText m.toNat (by omega)
    unfold natText at hp ⊢
    rw [hd] at hp ⊢
    have hs : ¬ (d = 43 ∨ d = 45) := by omega
    have h45 : ¬ d = 45 := by omega
    rw [ParseInt_cons, if_neg hs, hp]
    simp only [h45, decide_False, Bool.not_false, true_and, Bool.false_eq_true, false_and,
      if_false]
    have hge : ¬ (m.toNat ≥ 2 ^ 63) := by omega
    rw [if_neg hge]
    have : (m.toNat : Int) = m := by omega
    rw [this]

theorem buildOrdinary_bitwise (L : Lib) (name v : Str) :
    buildOrdinary L name (ascii "and") .CompareEquals v
      = .ok (.andModifier (A name) (ParseInt v).1) ∧
    buildOrdinary L name (ascii "1.2.840.113556.1.4.803") .CompareEquals v
      = .ok (.andModifier (A name) (ParseInt v).1) ∧
    buildOrdinary L name (ascii "or") .CompareEquals v
      = .ok (.orModifier (A name) (ParseInt v).1) ∧
    buildOrdinary L name (ascii "1.2.840.113556.1.4.804") .CompareEquals v
      = .ok (.orModifier (A name) (ParseInt v).1) :=
  ⟨by rfl, by rfl, by rfl, by rfl⟩

/-- The bitwise modifiers on ASCII names: for an ordinary attribute `a`
written in ASCII and a 64-bit integer `m` written in decimal, `(a:and:=m)` and its OID form parse to the bitwise-AND
node of `a` and `m`, `(a:or:=m)` and its OID form to the bitwise-OR node;
the AND node is true on an object iff `a` renders as an integer `v` there
and `v & m = m`, the OR node iff `a` renders as an integer `v` and
`v & m ≠ 0`; both are false when `a` does not render as an integer. -/
theorem bitwise_modifiers_ascii (L : Lib) (W : Objects) (a : Str) (m : Int) (o : Object)
    (r : Nat) (ha : ordinaryName a = true) (haa : ∀ b ∈ a, b < 128)
    (hlo : -(2 ^ 63 : Int) ≤ m) (hhi : m < 2 ^ 63) :
    ParseQuery L (attributeFilter a (some (ascii "and")) .CompareEquals (intText m))
      = .ok ([], .andModifier (A a) m) ∧
    ParseQuery L (attributeFilter a (some (ascii "1.2.840.113556.1.4.803")) .CompareEquals
        (intText m)) = .ok ([], .andModifier (A a) m) ∧
    ParseQuery L (attributeFilter a (some (ascii "or")) .CompareEquals (intText m))
      = .ok ([], .orModifier (A a) m) ∧
    ParseQuery L (attributeFilter a (some (ascii "1.2.840.113556.1.4.804")) .CompareEquals
        (intText m)) = .ok ([], .orModifier (A a) m) ∧
    (((Query.andModifier (A a) m).Evaluate L W o r).1 = true ↔
      (o.AttrInt (A a)).2 = true ∧ Int.land (o.AttrInt (A a)).1 m = m) ∧
    (((Query.orModifier (A a) m).Evaluate L W o r).1 = true ↔
      (o.AttrInt (A a)).2 = true ∧ Int.land (o.AttrInt (A a)).1 m ≠ 0) ∧
    ((o.AttrInt (A a)).2 = false →
      ((Query.andModifier (A a) m).Evaluate L W o r).1 = false ∧
      ((Query.orModifier (A a) m).Evaluate L W o r).1 = false) := by
  have hp := ParseInt_intText m hlo hhi
  have hok : (ParseInt (intText m)).2 = true := by rw [hp]
  obtain ⟨-, hplain, henc, hhead⟩ := ParseInt_ok_plain (intText m) hok
  obtain ⟨b1, b2, b3, b4⟩ := buildOrdinary_bitwise L a (intText m)
  have hal : 1 ≤ a.length := by
    cases a with
    | nil => simp [ordinaryName] at ha
    | cons c1 a2 => simp
  have hparse : ∀ md : Str, 58 ∉ md →
      ParseQuery L (attributeFilter a (some md) .CompareEquals (intText m)) =
        (buildOrdinary L a md .CompareEquals (intText m)).bind fun q => .ok ([], q) := by
    intro md hmd
    rw [ParseQuery_attributeFilter L a (some md) _ _ ha (by intro x hx; cases hx; exact hmd)
      hplain (by simp) (by
        simp only [attributeFilter, List.length_cons, List.length_append, List.length_nil]
        omega), encodeBytes_ascii a haa, henc]
    rfl
  refine ⟨?_, ?_, ?_, ?_, ?_, ?_, ?_⟩
  · rw [hparse _ (by decide), b1, hp]; rfl
  · rw [hparse _ (by decide), b2, hp]; rfl
  · rw [hparse _ (by decide), b3, hp]; rfl
  · rw [hparse _ (by decide), b4, hp]; rfl
  · cases hk : (o.AttrInt (A a)).2 <;> simp [Query.Evaluate, hk]
  · cases hk : (o.AttrInt (A a)).2 <;> simp [Query.Evaluate, hk]
  · intro hk
    simp [Query.Evaluate, hk]

/-- The text `(uac:and:=2)` accepts the object with `uac = 514` and rejects the
object with `uac = 512`. -/
theorem bitwise_modifiers_ascii_example :
    ordinaryName (ascii "uac") = true ∧
    ParseQuery exampleLib (ascii "(uac:and:=2)")
      = .ok ([], .andModifier (A (ascii "uac")) 2) ∧
    ((Query.andModifier (A (ascii "uac")) 2).Evaluate exampleLib (exactStore [])
      exObjectUac514 0).1 = true ∧
    ((Query.andModifier (A (ascii "uac")) 2).Evaluate exampleLib (exactStore [])
      exObjectUac512 0).1 = false ∧
    ((Query.andModifier (A (ascii "uac")) 2).Evaluate exampleLib (exactStore [])
      exObjectEmpty 0).1 = false :=
  ⟨by rfl,
    (bitwise_modifiers_ascii exampleLib (exactStore []) (ascii "uac") 2 exObjectEmpty 0 (by rfl)
      (by decide) (by decide) (by decide)).1,
    by decide, by decide,
    ((bitwise_modifiers_ascii exampleLib (exactStore []) (ascii "uac") 2 exObjectEmpty 0 (by rfl)
      (by decide) (by decide) (by decide)).2.2.2.2.2.2 (by rfl)).1⟩

theorem wrapInt64_of_range (x : Int) (hlo : -(2 ^ 63 : Int) ≤ x) (hhi : x < 2 ^ 63) :
    wrapInt64 x = x := by
  unfold wrapInt64
  have h63 : (2 : Int) ^ 63 = 9223372036854775808 := by norm_num
  have h64 : (2 : Int) ^ 64 = 18446744073709551616 := by norm_num
  rw [Int.emod_eq_of_lt (by omega) (by omega)]
  omega

theorem evaluateEach_limit (L : Lib) (W : Objects) :
    ∀ (os : List Object) (c : Int) (r : Nat),
      -(2 ^ 63 : Int) ≤ c - os.length → c < 2 ^ 63 →
      ∀ k, k < os.length →
        (evaluateEach L W os (.limit c) r)[k]? = some (decide ((k : Int) + 1 ≤ c))
  | [], _, _, _, _, k, hk => by simp at hk
  | o :: rest, c, r, hlo, hhi, k, hk => by
    simp only [List.length_cons, Nat.cast_add, Nat.cast_one] at hlo hk
    have hw : wrapInt64 (c - 1) = c - 1 := wrapInt64_of_range _ (by omega) (by omega)
    simp only [evaluateEach, Query.Evaluate, hw]
    cases k with
    | zero =>
      simp only [List.getElem?_cons_zero, Option.some.injEq, Nat.cast_zero, zero_add]
      congr 1
      apply propext
      constructor <;> intro h <;> omega
    | succ k =>
      rw [List.getElem?_cons_succ,
        evaluateEach_limit L W rest (c - 1) r (by omega) (by omega) k (by omega)]
      simp only [Option.some.injEq, Nat.cast_add, Nat.cast_one]
      congr 1
      apply propext
      constructor <;> intro h <;> omega


/-- One call of `ParseQuery` on an attribute expression: when the lexical
part succeeds, the result is the node built from its components, with the
remainder the lexer left. -/
theorem ParseQuery_of_lex (L : Lib) (c1 : Nat) (body : Str) (e : AttributeExpression)
    (hkind : c1 ≠ 40 ∧ c1 ≠ 38 ∧ c1 ≠ 124 ∧ c1 ≠ 33) (hlen : 2 ≤ body.length)
    (hlex : lexAttributeExpression (c1 :: (body ++ [41])) = .ok e) :
    ParseQuery L ([40, c1] ++ body ++ [41]) =
      (buildNode L
        (fun v => strictResult (ParseQueryF L (2 * ([40, c1] ++ body ++ [41]).length + 1) v))
        e.attributename e.modifier e.comparator e.value).bind fun q => .ok (e.rest, q) := by
  unfold ParseQuery
  rw [ParseQueryF_group L _ c1 body hlen, if_neg hkind.1, if_neg hkind.2.1,
    if_neg hkind.2.2.1, if_neg hkind.2.2.2]
  unfold parseAttributeExpression
  rw [hlex, Res.bind_ok]

theorem buildNode_not_synthetic (L : Lib) (strict : Str → Res Query) (n0 : Nat) (tl m : Str)
    (c : comparatortype) (v : Str) (h : n0 ≠ 95) :
    buildNode L strict (n0 :: tl) m c v = buildOrdinary L (n0 :: tl) m c v := by
  unfold buildNode
  simp [byteAt, h]

theorem buildNode_limit (L : Lib) (strict : Str → Res Query) (m : Str) (c : comparatortype)
    (v : Str) :
    buildNode L strict (ascii "_limit") m c v =
      if !(ParseInt v).2 then .error .limitNotInteger else .ok (.limit (ParseInt v).1) := by
  rfl

theorem ParseInt_natText (N : Nat) (hN : N < 2 ^ 63) :
    ParseInt (natText N) = ((N : Int), true) := by
  have h := ParseInt_intText (N : Int) (by
    have : (0 : Int) ≤ N := Int.ofNat_nonneg N
    have h63i : (2 : Int) ^ 63 = 9223372036854775808 := by norm_num
    omega) (by exact_mod_cast hN)
  unfold intText at h
  have hneg : ¬ ((N : Int) < 0) := by omega
  rw [if_neg hneg, Int.toNat_ofNat] at h
  exact h

/-- C12: for `0 ≤ N < 2^63` the text `(_limit=N)` parses to the limit node
with counter `N`, and in any sequence of fewer than `2^63` successive
evaluations of this node (on any objects) the evaluation number `k + 1`
returns true iff `k + 1 ≤ N`. -/
theorem C12_limit (L : Lib) (W : Objects) (N : Nat) (os : List Object) (r : Nat)
    (hN : N < 2 ^ 63) (hos : os.length < 2 ^ 63) :
    ParseQueryStrict L (attributeFilter (ascii "_limit") none .CompareEquals (natText N))
      = .ok (.limit N) ∧
    ∀ k, k < os.length →
      (evaluateEach L W os (.limit N) r)[k]? = some (decide (k + 1 ≤ N)) := by
  have h63 : (2 : Nat) ^ 63 = 9223372036854775808 := by norm_num
  have h63i : (2 : Int) ^ 63 = 9223372036854775808 := by norm_num
  constructor
  · have hp := ParseInt_natText N hN
    have hok : (ParseInt (natText N)).2 = true := by rw [hp]
    obtain ⟨-, hplain, henc, -⟩ := ParseInt_ok_plain (natText N) hok
    have hlex := lexAttributeExpression_plain (ascii "_limit") (natText N) []
      .CompareEquals (by rfl) hplain (by simp)
    have hshape : attributeFilter (ascii "_limit") none .CompareEquals (natText N) =
        [40, 95] ++ (ascii "limit" ++ [61] ++ natText N) ++ [41] := by
      simp [attributeFilter, ascii, comparatorText]
    have hshape2 : (95 : Nat) :: ((ascii "limit" ++ [61] ++ natText N) ++ [41]) =
        ascii "_limit" ++ (comparatorText .CompareEquals ++ (natText N ++ [41])) := by
      simp [ascii, comparatorText]
    rw [ParseQueryStrict_eq_ok, hshape,
      ParseQuery_of_lex L 95 _ _ (by decide) (by simp [ascii]) (by rw [hshape2]; exact hlex)]
    have hname : encodeBytes (ascii "_limit") = ascii "_limit" := by rfl
    simp only [hname, henc, buildNode_limit, hp]
    rfl
  · intro k hk
    rw [evaluateEach_limit L W os (N : Int) r (by omega) (by omega) k hk]
    simp only [Option.some.injEq, decide_eq_decide]
    omega

/-- C12 (witness): `(_limit=2)` evaluated on five objects in turn, and used
as the filter of a scan over five objects. -/
theorem C12_limit_witness :
    ParseQueryStrict exampleLib (ascii "(_limit=2)") = .ok (.limit 2) ∧
    evaluateEach exampleLib (exactStore [])
      [exObjectY, exObjectX, exObjectBob, exObjectBOB, exObjectEmpty] (.limit 2) 0
      = [true, true, false, false, false] ∧
    (exactStore [exObjectY, exObjectX, exObjectBob, exObjectBOB, exObjectEmpty]).Filter
      exampleLib (exactStore []) (.limit 2) = [exObjectY, exObjectX] ∧
    (evaluateEach exampleLib (exactStore [])
      [exObjectY, exObjectX, exObjectBob, exObjectBOB, exObjectEmpty] (.limit 2) 0)[2]?
      = some false :=
  ⟨(C12_limit exampleLib (exactStore []) 2
      [exObjectY, exObjectX, exObjectBob, exObjectBOB, exObjectEmpty] 0
      (by decide) (by decide)).1,
    by rfl, by rfl,
    (C12_limit exampleLib (exactStore []) 2
      [exObjectY, exObjectX, exObjectBob, exObjectBOB, exObjectEmpty] 0
      (by decide) (by decide)).2 2 (by decide)⟩


theorem attributeloop_plain_append (s : Str) :
    ∀ (p acc : Str), plainName p = true →
      attributeloop (p ++ s) acc = attributeloop s (acc ++ encodeBytes p)
  | [], acc, _ => by simp [encodeBytes]
  | c :: p, acc, h => by
    simp only [plainName, List.all_cons, Bool.and_eq_true, Bool.not_eq_true',
      decide_eq_false_iff_not, not_or] at h
    obtain ⟨⟨h92, h58, h41, h126, h61, h60, h62⟩, hrest⟩ := h
    have ih := attributeloop_plain_append s p (acc ++ byteToString c)
      (by simpa [plainName] using hrest)
    rw [List.cons_append]
    conv_lhs => unfold attributeloop
    simp [h92, h58, h41, h126, h61, h60, h62, ih, encodeBytes]

theorem attributeloop_escapeAll (s : Str) :
    ∀ (n acc : Str), attributeloop (escapeAll n ++ s) acc = attributeloop s (acc ++ encodeBytes n)
  | [], acc => by simp [escapeAll, encodeBytes]
  | c :: n, acc => by
    have ih := attributeloop_escapeAll s n (acc ++ byteToString c)
    simp only [escapeAll, List.cons_append]
    conv_lhs => unfold attributeloop
    simp [ih, encodeBytes]

theorem attributeloop_colon (m rest acc : Str) (hm : 58 ∉ m) :
    attributeloop (58 :: (m ++ 58 :: rest)) acc = .ok (acc, m, rest) := by
  unfold attributeloop
  simp [indexByte_append_of_not_mem 58 rest m hm]

theorem attributeloop_stop (cmp : Nat) (rest acc : Str)
    (hcmp : cmp = 126 ∨ cmp = 61 ∨ cmp = 60 ∨ cmp = 62) :
    attributeloop (cmp :: rest) acc = .ok (acc, [], cmp :: rest) := by
  have h1 : cmp ≠ 92 := by omega
  have h2 : cmp ≠ 58 := by omega
  have h3 : cmp ≠ 41 := by omega
  unfold attributeloop
  simp [h1, h2, h3, hcmp]

theorem valueloop_plain_append (s : Str) :
    ∀ (p acc : Str), plainValue p = true →
      valueloop (p ++ s) acc = valueloop s (acc ++ encodeBytes p)
  | [], acc, _ => by simp [encodeBytes]
  | c :: p, acc, h => by
    simp only [plainValue, List.all_cons, Bool.and_eq_true, Bool.not_eq_true',
      decide_eq_false_iff_not, not_or] at h
    obtain ⟨⟨h92, h41⟩, hrest⟩ := h
    have ih := valueloop_plain_append s p (acc ++ byteToString c)
      (by simpa [plainValue] using hrest)
    rw [List.cons_append]
    conv_lhs => unfold valueloop
    simp [h92, h41, ih, encodeBytes]

theorem valueloop_escapeAll (s : Str) :
    ∀ (v acc : Str), valueloop (escapeAll v ++ s) acc = valueloop s (acc ++ encodeBytes v)
  | [], acc => by simp [escapeAll, encodeBytes]
  | c :: v, acc => by
    have ih := valueloop_escapeAll s v (acc ++ byteToString c)
    simp only [escapeAll, List.cons_append]
    conv_lhs => unfold valueloop
    simp [ih, encodeBytes]

theorem valueloop_close (rest acc : Str) : valueloop (41 :: rest) acc = .ok (acc, 41 :: rest) := by
  unfold valueloop
  simp

theorem lexAttributeExpression_of_steps (s name m t1 cs t2 value rest : Str)
    (h1 : attributeloop s [] = .ok (name, m, t1))
    (h2 : parseComparator t1 = .ok (cs, t2))
    (h3 : valueloop t2 [] = .ok (value, 41 :: rest)) :
    lexAttributeExpression s = .ok ⟨name, m, comparatorOf cs, value, rest⟩ := by
  unfold lexAttributeExpression
  rw [h1, Res.bind_ok]
  simp only []
  rw [h2, Res.bind_ok]
  simp only []
  rw [h3, Res.bind_ok]
  simp [sliceFrom]

/-- Lexing of `a : m : cmp raw )` for a name without escapes, a modifier
without colon, and any comparator text and raw value on which the
comparator step and the value loop are known. -/
theorem lexAttributeExpression_modifier_raw (a m cmpRaw raw value rest cs : Str)
    (ha : plainName a = true) (hm : 58 ∉ m)
    (hcmp : parseComparator (cmpRaw ++ (raw ++ 41 :: rest)) = .ok (cs, raw ++ 41 :: rest))
    (hval : valueloop (raw ++ 41 :: rest) [] = .ok (value, 41 :: rest)) :
    lexAttributeExpression (a ++ 58 :: (m ++ 58 :: (cmpRaw ++ (raw ++ 41 :: rest)))) =
      .ok ⟨encodeBytes a, m, comparatorOf cs, value, rest⟩ := by
  apply lexAttributeExpression_of_steps _ _ _ _ _ _ _ _ _ hcmp hval
  rw [attributeloop_plain_append _ a [] ha, attributeloop_colon _ _ _ hm]
  simp

/-- Lexing of `a cmp raw )` without modifier, the comparator text starting
with a comparator byte. -/
theorem lexAttributeExpression_plain_raw (a : Str) (cmp : Nat) (tl raw value rest cs : Str)
    (ha : plainName a = true) (hc : cmp = 126 ∨ cmp = 61 ∨ cmp = 60 ∨ cmp = 62)
    (hcmp : parseComparator (cmp :: (tl ++ (raw ++ 41 :: rest))) = .ok (cs, raw ++ 41 :: rest))
    (hval : valueloop (raw ++ 41 :: rest) [] = .ok (value, 41 :: rest)) :
    lexAttributeExpression (a ++ cmp :: (tl ++ (raw ++ 41 :: rest))) =
      .ok ⟨encodeBytes a, [], comparatorOf cs, value, rest⟩ := by
  apply lexAttributeExpression_of_steps _ _ _ _ _ _ _ _ _ hcmp hval
  rw [attributeloop_plain_append _ a [] ha, attributeloop_stop _ _ _ hc]
  simp

theorem encodeBytes_head_ne (n : Str) (hne : n ≠ []) (h95 : n.head? ≠ some 95) :
    ∃ n0 tl, encodeBytes n = n0 :: tl ∧ n0 ≠ 95 := by
  cases n with
  | nil => exact absurd rfl hne
  | cons c n2 =>
    have hc : c ≠ 95 := by simpa using h95
    by_cases h : c < 128
    · exact ⟨c, encodeBytes n2, by simp [encodeBytes, byteToString, h], hc⟩
    · exact ⟨192 + c / 64, (128 + c % 64) :: encodeBytes n2,
        by simp [encodeBytes, byteToString, h], by omega⟩

/-- The parser on `(esc(n):caseExactMatch:=esc(v))`: the node is built by the
string comparison from the stored name and the stored value. -/
theorem ParseQuery_escapedExactFilter (L : Lib) (n v : Str) (hne : n ≠ [])
    (h95 : n.head? ≠ some 95) :
    ParseQuery L (escapedExactFilter n v) =
      (stringComparison L (A (encodeBytes n)) true .CompareEquals (encodeBytes v)).bind
        fun q => .ok ([], q) := by
  obtain ⟨n0, tl, henc, hn0⟩ := encodeBytes_head_ne n hne h95
  cases n with
  | nil => exact absurd rfl hne
  | cons c n2 =>
    have hcem : ascii ":caseExactMatch:=" = 58 :: (ascii "caseExactMatch" ++ 58 :: [61]) := by rfl
    have hshape : escapedExactFilter (c :: n2) v =
        [40, 92] ++ (c :: (escapeAll n2 ++ (ascii ":caseExactMatch:=" ++ escapeAll v))) ++ [41] := by
      simp [escapedExactFilter, escapeAll]
    have hlex : lexAttributeExpression
        (92 :: ((c :: (escapeAll n2 ++ (ascii ":caseExactMatch:=" ++ escapeAll v))) ++ [41])) =
        .ok ⟨encodeBytes (c :: n2), ascii "caseExactMatch", .CompareEquals, encodeBytes v, []⟩ := by
      have e1 : 92 :: ((c :: (escapeAll n2 ++ (ascii ":caseExactMatch:=" ++ escapeAll v))) ++ [41])
          = escapeAll (c :: n2) ++
            (58 :: (ascii "caseExactMatch" ++ 58 :: (61 :: (escapeAll v ++ [41])))) := by
        rw [hcem]; simp [escapeAll]
      rw [e1]
      apply lexAttributeExpression_of_steps _ _ _ (61 :: (escapeAll v ++ [41])) [61]
        (escapeAll v ++ [41]) _ []
      · rw [attributeloop_escapeAll, attributeloop_colon _ _ _ (by decide)]
        simp
      · simp [parseComparator, byteToString]
      · rw [valueloop_escapeAll, valueloop_close]
        simp
    rw [hshape, ParseQuery_of_lex L 92 _ _ (by decide) (by simp [ascii]; omega) hlex]
    simp only []
    rw [henc, buildNode_not_synthetic L _ n0 tl _ _ _ hn0, ← henc]
    rfl


/-- On ASCII text the escape round trip holds: `(esc(n):caseExactMatch:=esc(v))`
parses to the exact-match node with attribute name `n` and literal `v`. -/
theorem escape_roundtrip_ascii (L : Lib) (n v : Str) (hne : n ≠ [])
    (h95 : n.head? ≠ some 95) (hna : ∀ b ∈ n, b < 128) (hva : ∀ b ∈ v, b < 128)
    (h3 : v.any (fun c => c = 63 ∨ c = 42) = false)
    (h2 : (hasPrefix v [47] && hasSuffix v [47]) = false) :
    ParseQueryStrict L (escapedExactFilter n v) = .ok (.hasStringMatch (A n) v) := by
  have h1 : v ≠ [42] := by
    intro h; rw [h] at h3; simp at h3
  rw [ParseQueryStrict_eq_ok, ParseQuery_escapedExactFilter L n v hne h95,
    encodeBytes_ascii n hna, encodeBytes_ascii v hva,
    (stringComparison_equals L (A n) true v).2.2.2 h1 h2 h3]
  rfl

/-- C14 (code at the failing input): the escape round trip fails on bytes
from 128 on. For the name `cn` and the value `é` (bytes 195, 169),
escaped byte by byte or as one character, the literal of the parsed node is
the four bytes 195, 131, 194, 169; an attribute name `é` is stored the
same way. -/
theorem C14_escape_roundtrip_non_ascii (L : Lib) :
    ParseQueryStrict L (escapedExactFilter (ascii "cn") [195, 169])
      = .ok (.hasStringMatch (A (ascii "cn")) [195, 131, 194, 169]) ∧
    ParseQueryStrict L
        (ascii "(" ++ escapeAll (ascii "cn") ++ ascii ":caseExactMatch:=" ++ [92, 195, 169]
          ++ ascii ")")
      = .ok (.hasStringMatch (A (ascii "cn")) [195, 131, 194, 169]) ∧
    ParseQueryStrict L (escapedExactFilter [195, 169] (ascii "x"))
      = .ok (.hasStringMatch (A [195, 131, 194, 169]) (ascii "x")) ∧
    ParseQueryStrict L (escapedExactFilter (ascii "a(b)=<c>~:d") (ascii "(v)=/"))
      = .ok (.hasStringMatch (A (ascii "a(b)=<c>~:d")) (ascii "(v)=/")) :=
  ⟨by rfl, by rfl, by rfl, by rfl⟩

/-- The parser on an attribute expression with an ordinary plain name:
when the lexical part delivers the stored name, the node is built by the
modifier switch. -/
theorem ParseQuery_ordinary_of_lex (L : Lib) (a t m value rest : Str) (c : comparatortype)
    (ha : ordinaryName a = true) (hlen : 5 ≤ (40 :: (a ++ (t ++ [41]))).length)
    (hlex : lexAttributeExpression (a ++ (t ++ [41])) = .ok ⟨encodeBytes a, m, c, value, rest⟩) :
    ParseQuery L (40 :: (a ++ (t ++ [41]))) =
      (buildOrdinary L (encodeBytes a) m c value).bind fun q => .ok (rest, q) := by
  obtain ⟨hplain, c1, a2, rfl, h40, h38, h124, h33⟩ := ordinaryName_cons a ha
  have hshape : 40 :: ((c1 :: a2) ++ (t ++ [41])) = [40, c1] ++ (a2 ++ t) ++ [41] := by simp
  have hl2 : 2 ≤ (a2 ++ t).length := by
    simp only [List.length_cons, List.length_append, List.length_nil] at hlen ⊢
    omega
  have hlex2 : lexAttributeExpression (c1 :: ((a2 ++ t) ++ [41])) =
      .ok ⟨encodeBytes (c1 :: a2), m, c, value, rest⟩ := by
    have : c1 :: ((a2 ++ t) ++ [41]) = (c1 :: a2) ++ (t ++ [41]) := by simp
    rw [this]; exact hlex
  rw [hshape, ParseQuery_of_lex L c1 _ _ ⟨h40, h38, h124, h33⟩ hl2 hlex2]
  simp only []
  rw [buildNode_ordinary L _ (c1 :: a2) m c value ha]

theorem comparatorOf_byteToString (c0 : Nat) (h : c0 ≠ 60 ∧ c0 ≠ 62) :
    comparatorOf (byteToString c0) = .CompareEquals := by
  unfold byteToString
  by_cases hc : c0 < 128
  · rw [if_pos hc]
    simp [comparatorOf, h.1, h.2]
  · rw [if_neg hc]
    have h1 : 192 + c0 / 64 ≠ 60 := by omega
    have h2 : 192 + c0 / 64 ≠ 62 := by omega
    simp [comparatorOf, h1, h2]

/-- What the parser makes of a byte `c0` that stands where the comparator is
expected after a modifier: unless it is `~`, `<` or `>`, it is consumed as
if it were `=`. -/
theorem ParseQuery_modifier_any_comparator (L : Lib) (a m v : Str) (c0 : Nat)
    (ha : ordinaryName a = true) (hm : 58 ∉ m) (hv : plainValue v = true)
    (hc0 : c0 ≠ 126 ∧ c0 ≠ 60 ∧ c0 ≠ 62) :
    ParseQuery L (40 :: (a ++ 58 :: (m ++ 58 :: (c0 :: (v ++ [41]))))) =
      ParseQuery L (attributeFilter a (some m) .CompareEquals v) := by
  have hal : 1 ≤ a.length := by
    cases a with
    | nil => simp [ordinaryName] at ha
    | cons c1 a2 => simp
  have hplain := (ordinaryName_cons a ha).1
  have hval : valueloop (v ++ 41 :: []) [] = .ok (encodeBytes v, 41 :: []) := by
    rw [valueloop_plain_append _ v [] hv, valueloop_close]; simp
  have hcmp : parseComparator ([c0] ++ (v ++ 41 :: [])) = .ok (byteToString c0, v ++ 41 :: []) := by
    simp [parseComparator, hc0.1, hc0.2.1, hc0.2.2]
  have hlex := lexAttributeExpression_modifier_raw a m [c0] v (encodeBytes v) []
    (byteToString c0) hplain hm hcmp hval
  rw [comparatorOf_byteToString c0 ⟨hc0.2.1, hc0.2.2⟩] at hlex
  have e1 : 40 :: (a ++ 58 :: (m ++ 58 :: (c0 :: (v ++ [41])))) =
      40 :: (a ++ ((58 :: (m ++ 58 :: (c0 :: v))) ++ [41])) := by simp
  have hlex' : lexAttributeExpression (a ++ ((58 :: (m ++ 58 :: (c0 :: v))) ++ [41])) =
      .ok ⟨encodeBytes a, m, .CompareEquals, encodeBytes v, []⟩ := by
    have : a ++ ((58 :: (m ++ 58 :: (c0 :: v))) ++ [41]) =
        a ++ 58 :: (m ++ 58 :: ([c0] ++ (v ++ 41 :: []))) := by simp
    rw [this]; exact hlex
  rw [e1, ParseQuery_ordinary_of_lex L a _ m (encodeBytes v) [] .CompareEquals ha
    (by simp only [List.length_cons, List.length_append, List.length_nil]; omega) hlex',
    ParseQuery_attributeFilter L a (some m) .CompareEquals v ha
      (by intro x hx; cases hx; exact hm) hv (by simp)
      (by simp only [attributeFilter, comparatorText, List.length_cons, List.length_append,
            List.length_nil]; omega)]
  rfl

/-- C17 (code at the failing input): `(member:count:x5)` is not rejected; the
byte `x` is consumed where the comparator is expected and the text is parsed
as `count = 5`, exactly like `(member:count:=5)`; and so for every ordinary
attribute, modifier and byte other than `~`, `<`, `>` before a plain value. -/
theorem C17_missing_comparator_accepted (L : Lib) :
    ParseQuery L (ascii "(member:count:x5)")
      = .ok ([], .countModifier (A (ascii "member")) .CompareEquals 5) ∧
    ParseQuery L (ascii "(member:count:=5)")
      = .ok ([], .countModifier (A (ascii "member")) .CompareEquals 5) ∧
    ParseQuery L (ascii "(uac:and:x2)") = .ok ([], .andModifier (A (ascii "uac")) 2) ∧
    (∀ (a m v : Str) (c0 : Nat), ordinaryName a = true → 58 ∉ m → plainValue v = true →
      c0 ≠ 126 ∧ c0 ≠ 60 ∧ c0 ≠ 62 →
      ParseQuery L (40 :: (a ++ 58 :: (m ++ 58 :: (c0 :: (v ++ [41]))))) =
        ParseQuery L (attributeFilter a (some m) .CompareEquals v)) :=
  ⟨by rfl, by rfl, by rfl,
    fun a m v c0 ha hm hv hc0 => ParseQuery_modifier_any_comparator L a m v c0 ha hm hv hc0⟩


/-- The parser on an attribute expression with an ordinary plain name and a
value that may hold escapes: the value loop resolves the escapes, and the
node is built from the resolved value by the modifier switch. -/
theorem ParseQuery_attributeFilter_raw (L : Lib) (a : Str) (modifier : Option Str)
    (c : comparatortype) (raw value : Str) (ha : ordinaryName a = true)
    (hm : ∀ m, modifier = some m → 58 ∉ m)
    (hval : valueloop (raw ++ 41 :: []) [] = .ok (value, 41 :: []))
    (hc : (c = .CompareLessThan ∨ c = .CompareGreaterThan) → raw.head? ≠ some 61)
    (hlen : 5 ≤ (attributeFilter a modifier c raw).length) :
    ParseQuery L (attributeFilter a modifier c raw) =
      (buildOrdinary L (encodeBytes a) (modifier.getD []) c value).bind
        fun query => .ok ([], query) := by
  have hplain := (ordinaryName_cons a ha).1
  obtain ⟨cs, hpc, hcs⟩ := parseComparator_text c raw [] hc
  cases modifier with
  | none =>
    obtain ⟨cmp, tl, htext, hcmp⟩ := comparatorText_head c
    rw [htext] at hpc
    have hlex := lexAttributeExpression_plain_raw a cmp tl raw value [] cs hplain hcmp hpc hval
    rw [hcs] at hlex
    have e1 : attributeFilter a none c raw = 40 :: (a ++ ((cmp :: (tl ++ raw)) ++ [41])) := by
      simp [attributeFilter, htext]
    have hlex2 : lexAttributeExpression (a ++ ((cmp :: (tl ++ raw)) ++ [41])) =
        .ok ⟨encodeBytes a, [], c, value, []⟩ := by
      have : a ++ ((cmp :: (tl ++ raw)) ++ [41]) = a ++ cmp :: (tl ++ (raw ++ 41 :: [])) := by
        simp
      rw [this]; exact hlex
    rw [e1] at hlen ⊢
    rw [ParseQuery_ordinary_of_lex L a _ [] value [] c ha hlen hlex2]
    rfl
  | some m =>
    have hm2 := hm m rfl
    have hlex := lexAttributeExpression_modifier_raw a m (comparatorText c) raw value [] cs
      hplain hm2 hpc hval
    rw [hcs] at hlex
    have e1 : attributeFilter a (some m) c raw =
        40 :: (a ++ ((58 :: (m ++ 58 :: (comparatorText c ++ raw))) ++ [41])) := by
      simp [attributeFilter]
    have hlex2 : lexAttributeExpression
        (a ++ ((58 :: (m ++ 58 :: (comparatorText c ++ raw))) ++ [41])) =
        .ok ⟨encodeBytes a, m, c, value, []⟩ := by
      have : a ++ ((58 :: (m ++ 58 :: (comparatorText c ++ raw))) ++ [41]) =
          a ++ 58 :: (m ++ 58 :: (comparatorText c ++ (raw ++ 41 :: []))) := by
        simp
      rw [this]; exact hlex
    rw [e1] at hlen ⊢
    rw [ParseQuery_ordinary_of_lex L a _ m value [] c ha hlen hlex2]
    rfl

/-- C15 (counterexample): with the example library, `(cn:caseExactMatch:=x\*y)`
parses to the glob node with pattern `x*y`, which is true on an object whose
only `cn` is `xzy`; and `(cn=\*)` parses to the existence test, true on that
same object, which does not hold the value `*`. -/
theorem C15_counterexample :
    ParseQueryStrict exampleLib (ascii "(cn:caseExactMatch:=x" ++ [92] ++ ascii "*y)")
      = .ok (.hasGlobMatch (A (ascii "cn")) (ascii "x*y") true) ∧
    exObjectXzy.AttrRendered (A (ascii "cn")) = [ascii "xzy"] ∧
    ((Query.hasGlobMatch (A (ascii "cn")) (ascii "x*y") true).Evaluate exampleLib
        (exactStore []) exObjectXzy 0).1 = true ∧
    ParseQueryStrict exampleLib (ascii "(cn=" ++ [92] ++ ascii "*)")
      = .ok (.hasAttr (A (ascii "cn"))) ∧
    ((Query.hasAttr (A (ascii "cn"))).Evaluate exampleLib (exactStore []) exObjectXzy 0).1
      = true :=
  ⟨by rfl, by rfl, by rfl, by rfl, by rfl⟩

/-- C15 (amended): an escaped `*` or `?` in a value is not told apart from
an unescaped one, because escapes are resolved before the shape of the value
is inspected. For every ordinary ASCII attribute `a`, `(a:caseExactMatch:=x\*y)`
gives the case-sensitive glob node with pattern `x*y` (or the glob compile
error), `(a:caseExactMatch:=\?)` the glob node with pattern `?`, and `(a=\*)`
the existence test; each is the result for the same text without the
backslash. -/
theorem C15_escaped_wildcard (L : Lib) (a : Str) (ha : ordinaryName a = true)
    (hna : ∀ b ∈ a, b < 128) :
    ParseQuery L (attributeFilter a (some (ascii "caseExactMatch")) .CompareEquals
        [120, 92, 42, 121])
      = (if L.globCompile [120, 42, 121]
          then .ok ([], .hasGlobMatch (A a) [120, 42, 121] true)
          else .error .globCompile) ∧
    ParseQuery L (attributeFilter a (some (ascii "caseExactMatch")) .CompareEquals
        [120, 92, 42, 121])
      = ParseQuery L (attributeFilter a (some (ascii "caseExactMatch")) .CompareEquals
        [120, 42, 121]) ∧
    ParseQuery L (attributeFilter a (some (ascii "caseExactMatch")) .CompareEquals [92, 63])
      = (if L.globCompile [63]
          then .ok ([], .hasGlobMatch (A a) [63] true)
          else .error .globCompile) ∧
    ParseQuery L (attributeFilter a (some (ascii "caseExactMatch")) .CompareEquals [92, 63])
      = ParseQuery L (attributeFilter a (some (ascii "caseExactMatch")) .CompareEquals [63]) ∧
    ParseQuery L (attributeFilter a none .CompareEquals [92, 42]) = .ok ([], .hasAttr (A a)) ∧
    ParseQuery L (attributeFilter a none .CompareEquals [92, 42])
      = ParseQuery L (attributeFilter a none .CompareEquals [42]) := by
  have hal : 1 ≤ a.length := by
    cases a with
    | nil => simp [ordinaryName] at ha
    | cons c1 a2 => simp
  have hcem : ∀ m, some (ascii "caseExactMatch") = some m → 58 ∉ m := by
    intro m hm; cases hm; decide
  have hnone : ∀ m, (none : Option Str) = some m → 58 ∉ m := by
    intro m hm; cases hm
  have hceq : (comparatortype.CompareEquals = .CompareLessThan ∨
      comparatortype.CompareEquals = .CompareGreaterThan) → ∀ r : Str, r.head? ≠ some 61 := by
    intro h; cases h with
    | inl h => cases h
    | inr h => cases h
  have lenM : ∀ r : Str, 5 ≤ (attributeFilter a (some (ascii "caseExactMatch"))
      .CompareEquals r).length := by
    intro r
    simp only [attributeFilter, comparatorText, List.length_cons, List.length_append,
      List.length_nil]
    omega
  have lenN : ∀ r : Str, 1 ≤ r.length →
      5 ≤ (attributeFilter a none .CompareEquals r).length := by
    intro r hr
    simp only [attributeFilter, comparatorText, List.length_cons, List.length_append,
      List.length_nil]
    omega
  have g1 := ParseQuery_attributeFilter_raw L a (some (ascii "caseExactMatch")) .CompareEquals
    [120, 92, 42, 121] [120, 42, 121] ha hcem (by rfl) (fun h => hceq h _) (lenM _)
  have g2 := ParseQuery_attributeFilter_raw L a (some (ascii "caseExactMatch")) .CompareEquals
    [120, 42, 121] [120, 42, 121] ha hcem (by rfl) (fun h => hceq h _) (lenM _)
  have g3 := ParseQuery_attributeFilter_raw L a (some (ascii "caseExactMatch")) .CompareEquals
    [92, 63] [63] ha hcem (by rfl) (fun h => hceq h _) (lenM _)
  have g4 := ParseQuery_attributeFilter_raw L a (some (ascii "caseExactMatch")) .CompareEquals
    [63] [63] ha hcem (by rfl) (fun h => hceq h _) (lenM _)
  have g5 := ParseQuery_attributeFilter_raw L a none .CompareEquals
    [92, 42] [42] ha hnone (by rfl) (fun h => hceq h _) (lenN _ (by simp))
  have g6 := ParseQuery_attributeFilter_raw L a none .CompareEquals
    [42] [42] ha hnone (by rfl) (fun h => hceq h _) (lenN _ (by simp))
  rw [encodeBytes_ascii a hna] at g1 g2 g3 g4 g5 g6
  have b1 : buildOrdinary L a (ascii "caseExactMatch") .CompareEquals [120, 42, 121] =
      if L.globCompile [120, 42, 121] then .ok (.hasGlobMatch (A a) [120, 42, 121] true)
      else .error .globCompile := by
    have h := (stringComparison_equals L (A a) true [120, 42, 121]).2.2.1 (by decide)
      (by rfl) (by rfl)
    simpa [buildOrdinary, ascii] using h
  have b2 : buildOrdinary L a (ascii "caseExactMatch") .CompareEquals [63] =
      if L.globCompile [63] then .ok (.hasGlobMatch (A a) [63] true)
      else .error .globCompile := by
    have h := (stringComparison_equals L (A a) true [63]).2.2.1 (by decide)
      (by rfl) (by rfl)
    simpa [buildOrdinary, ascii] using h
  have b3 : buildOrdinary L a [] .CompareEquals [42] = .ok (.hasAttr (A a)) := by
    have h := (stringComparison_equals L (A a) false [42]).1 rfl
    simpa [buildOrdinary] using h
  refine ⟨?_, by rw [g1, g2], ?_, by rw [g3, g4], ?_, by rw [g5, g6]⟩
  · rw [g1]
    simp only [Option.getD_some]
    rw [b1]
    cases L.globCompile [120, 42, 121] <;> rfl
  · rw [g3]
    simp only [Option.getD_some]
    rw [b2]
    cases L.globCompile [63] <;> rfl
  · rw [g5]
    simp only [Option.getD_none]
    rw [b3]
    rfl

theorem C15_escaped_wildcard_witness :
    ordinaryName (ascii "cn") = true ∧ (∀ b ∈ ascii "cn", b < 128) ∧
    ParseQuery exampleLib (attributeFilter (ascii "cn") none .CompareEquals [92, 42])
      = .ok ([], .hasAttr (A (ascii "cn"))) :=
  ⟨by decide, by decide,
    (C15_escaped_wildcard exampleLib (ascii "cn") (by decide) (by decide)).2.2.2.2.1⟩


/-- An empty group `(&)` or `(|)` followed by more text that ends the
enclosing group: the parser returns the node without children. -/
theorem ParseQueryF_empty_group (L : Lib) (n c : Nat) (rest : Str) (hc : c = 38 ∨ c = 124)
    (hrest : 1 ≤ rest.length) :
    ParseQueryF L (n + 2) ([40, c, 41] ++ rest ++ [41]) =
      .ok (rest ++ [41], if c = 38 then .andquery [] else .orquery []) := by
  have e : [40, c, 41] ++ rest ++ [41] = [40, c] ++ (41 :: rest) ++ [41] := by simp
  rw [e, ParseQueryF_group L (n + 1) c (41 :: rest) (by simp only [List.length_cons]; omega)]
  rcases hc with rfl | rfl <;> simp [parsemultiplequeriesF, sliceFrom]

/-- A group whose first member is the empty group of the same kind, followed
by stand-alone queries. -/
theorem ParseQuery_group_with_empty (L : Lib) (c : Nat) (hc : c = 38 ∨ c = 124)
    (ss : List Str) (qs : List Query) (hne : ss ≠ [])
    (hf : List.Forall₂ (fun s q => ParseQueryStrict L s = .ok q) ss qs) :
    ParseQuery L ([40, c] ++ ([40, c, 41] ++ ss.flatten) ++ [41]) =
      .ok ([], if c = 38 then .andquery (.andquery [] :: qs)
        else .orquery (.orquery [] :: qs)) := by
  have hlen : 5 ≤ ss.flatten.length := by
    cases hf with
    | nil => exact absurd rfl hne
    | cons hq hrest =>
      have hshape := ParseQueryF_ok_shape L _ _ _ ((ParseQueryStrict_eq_ok L _ _).mp hq)
      simp only [List.flatten_cons, List.length_append]
      omega
  have hjoin := fun acc n => parsemultiplequeriesF_join L ss qs acc n hf
  generalize ss.flatten = body at hlen hjoin
  unfold ParseQuery
  rw [ParseQueryF_group L _ c ([40, c, 41] ++ body)
    (by simp only [List.length_append, List.length_cons, List.length_nil]; omega)]
  obtain ⟨m, hm⟩ : ∃ m, 2 * ([40, c] ++ ([40, c, 41] ++ body) ++ [41]).length + 1 = m + 3 ∧
      2 * body.length + 3 ≤ m + 2 := by
    refine ⟨2 * ([40, c] ++ ([40, c, 41] ++ body) ++ [41]).length - 2, ?_, ?_⟩ <;>
    · simp only [List.length_append, List.length_cons, List.length_nil]
      omega
  rw [hm.1]
  have hstep : parsemultiplequeriesF L (m + 3) ([40, c, 41] ++ body ++ [41]) [] =
      parsemultiplequeriesF L (m + 2) (body ++ [41])
        ([] ++ [if c = 38 then .andquery [] else .orquery []]) := by
    rw [parsemultiplequeriesF]
    rw [if_pos (by simp), ParseQueryF_empty_group L m c body hc (by omega), Res.bind_ok]
  rw [hstep, hjoin _ (m + 2) hm.2]
  rcases hc with rfl | rfl <;> simp [sliceFrom]

/-- C16 (counterexample): the inputs `(&(&)(a=b))` and `(|(|)(a=b))` are
accepted, and the AST holds a conjunction (a disjunction) without children;
`(((&)))` parses to the conjunction without children itself. -/
theorem C16_counterexample :
    ParseQueryStrict exampleLib (ascii "(&(&)(a=b))")
      = .ok (.andquery [.andquery [],
          .hasInsensitiveStringMatch (A (ascii "a")) (ascii "b")]) ∧
    ParseQueryStrict exampleLib (ascii "(|(|)(a=b))")
      = .ok (.orquery [.orquery [],
          .hasInsensitiveStringMatch (A (ascii "a")) (ascii "b")]) ∧
    ParseQueryStrict exampleLib (ascii "(((&)))") = .ok (.andquery []) :=
  ⟨by rfl, by rfl, by rfl⟩

theorem attributeloop_nameText :
    ∀ (n : Nat) (a : Str), a.length ≤ n → nameText a = true →
      ∃ name, ∀ s acc, attributeloop (a ++ s) acc = attributeloop s (acc ++ name)
  | _, [], _, _ => ⟨[], by simp⟩
  | 0, c :: rest, hn, _ => by simp at hn
  | n + 1, c :: rest, hn, h => by
    unfold nameText at h
    by_cases h92 : c = 92
    · rw [if_pos h92] at h
      cases rest with
      | nil => simp at h
      | cons d rest2 =>
        simp only [] at h
        obtain ⟨name, hname⟩ := attributeloop_nameText n rest2
          (by simp only [List.length_cons] at hn; omega) h
        refine ⟨byteToString d ++ name, fun s acc => ?_⟩
        rw [List.cons_append, List.cons_append]
        conv_lhs => unfold attributeloop
        simp [h92, hname]
    · rw [if_neg h92] at h
      simp only [Bool.and_eq_true, Bool.not_eq_true', decide_eq_false_iff_not, not_or] at h
      obtain ⟨⟨h58, h41, h126, h61, h60, h62⟩, hrest⟩ := h
      obtain ⟨name, hname⟩ := attributeloop_nameText n rest
        (by simp only [List.length_cons] at hn; omega) hrest
      refine ⟨byteToString c ++ name, fun s acc => ?_⟩
      rw [List.cons_append]
      conv_lhs => unfold attributeloop
      simp [h92, h58, h41, h126, h61, h60, h62, hname]

/-- After a name and an optional modifier, the lexer treats `~=` as `=`. -/
theorem lexAttributeExpression_tilde (a : Str) (modifier : Option Str) (rest : Str)
    (ha : nameText a = true) (hm : ∀ m, modifier = some m → 58 ∉ m) :
    lexAttributeExpression (a ++ (modifierText modifier ++ 126 :: 61 :: rest)) =
      lexAttributeExpression (a ++ (modifierText modifier ++ 61 :: rest)) := by
  obtain ⟨name, hname⟩ := attributeloop_nameText a.length a (Nat.le_refl _) ha
  unfold lexAttributeExpression
  rw [hname, hname]
  cases modifier with
  | none =>
    simp only [modifierText, List.nil_append]
    rw [attributeloop_stop 126 _ _ (Or.inl rfl), attributeloop_stop 61 _ _ (Or.inr (Or.inl rfl))]
    simp [parseComparator, byteToString]
  | some m =>
    have hm2 := hm m rfl
    simp only [modifierText, List.cons_append, List.append_assoc, List.nil_append]
    rw [attributeloop_colon m _ _ hm2, attributeloop_colon m _ _ hm2]
    simp [parseComparator, byteToString]

/-- After a name and an optional modifier, a `~` that is not followed by `=`
is the error of the comparator step. -/
theorem lexAttributeExpression_tilde_error (a : Str) (modifier : Option Str) (rest : Str)
    (d : Nat) (ha : nameText a = true) (hm : ∀ m, modifier = some m → 58 ∉ m) (hd : d ≠ 61) :
    lexAttributeExpression (a ++ (modifierText modifier ++ 126 :: d :: rest)) =
      .error .tildeNotEquals := by
  obtain ⟨name, hname⟩ := attributeloop_nameText a.length a (Nat.le_refl _) ha
  unfold lexAttributeExpression
  rw [hname]
  cases modifier with
  | none =>
    simp only [modifierText, List.nil_append]
    rw [attributeloop_stop 126 _ _ (Or.inl rfl)]
    simp [parseComparator, hd]
  | some m =>
    have hm2 := hm m rfl
    simp only [modifierText, List.cons_append, List.append_assoc, List.nil_append]
    rw [attributeloop_colon m _ _ hm2]
    simp [parseComparator, hd]

/-- Above the bound of `ParseQueryF_ne_fuel` the result does not depend on the fuel. -/
theorem ParseQueryF_fuel_irrelevant (L : Lib) (x : Str) (n m : Nat)
    (hn : 2 * x.count 40 + 1 ≤ n) (hm : 2 * x.count 40 + 1 ≤ m) :
    ParseQueryF L n x = ParseQueryF L m x := by
  have h0 := (ParseQueryF_ne_fuel L (2 * x.count 40 + 1)).1 x (Nat.le_refl _)
  obtain ⟨k1, rfl⟩ := Nat.exists_eq_add_of_le hn
  obtain ⟨k2, rfl⟩ := Nat.exists_eq_add_of_le hm
  rw [ParseQueryF_mono L _ k1 x _ rfl h0, ParseQueryF_mono L _ k2 x _ rfl h0]

theorem buildNode_congr (L : Lib) (s1 s2 : Str → Res Query) (a m : Str) (c : comparatortype)
    (v : Str) (h : s1 ((splitComma v).getD 1 []) = s2 ((splitComma v).getD 1 [])) :
    buildNode L s1 a m c v = buildNode L s2 a m c v := by
  unfold buildNode buildSynthetic
  simp only [h]

/-- The attribute-expression part does not depend on the fuel of the
recursive strict parser, once that fuel exceeds twice the length of the text. -/
theorem parseAttributeExpression_fuel (L : Lib) (s : Str) (n m : Nat)
    (hn : 2 * s.length + 1 ≤ n) (hm : 2 * s.length + 1 ≤ m) :
    parseAttributeExpression L (fun v => strictResult (ParseQueryF L n v)) s =
      parseAttributeExpression L (fun v => strictResult (ParseQueryF L m v)) s := by
  unfold parseAttributeExpression
  cases hlex : lexAttributeExpression s with
  | ok e =>
    have hc := ((lexAttributeExpression_spec s).2 e hlex).2
    have hx := splitComma_getD_count e.value 1
    have hl := List.count_le_length 40 s
    have h : (fun v => strictResult (ParseQueryF L n v)) ((splitComma e.value).getD 1 []) =
        (fun v => strictResult (ParseQueryF L m v)) ((splitComma e.value).getD 1 []) := by
      show strictResult (ParseQueryF L n _) = strictResult (ParseQueryF L m _)
      rw [ParseQueryF_fuel_irrelevant L ((splitComma e.value).getD 1 []) n m (by omega)
        (by omega)]
    rw [Res.bind_ok, Res.bind_ok,
      buildNode_congr L _ (fun v => strictResult (ParseQueryF L m v)) _ _ _ _ h]
  | error e => rfl
  | panic => rfl
  | fuel => rfl

/-- One step of `ParseQuery` on a text whose second byte opens no group. -/
theorem ParseQueryF_attribute_step (L : Lib) (n c : Nat) (tl : Str)
    (hc : c ≠ 40 ∧ c ≠ 38 ∧ c ≠ 124 ∧ c ≠ 33) :
    ParseQueryF L (n + 1) (40 :: c :: tl) =
      if (40 :: c :: tl).length < 5 then .error .tooShort
      else if hasSuffix (40 :: c :: tl) [41] = false then .error .noParens
      else parseAttributeExpression L (fun v => strictResult (ParseQueryF L n v)) (c :: tl) := by
  rw [ParseQueryF]
  simp [hasPrefix, sliceFrom, byteAt, hc.1, hc.2.1, hc.2.2.1, hc.2.2.2]

theorem hasSuffix_singleton (s : Str) (b : Nat) :
    hasSuffix s [b] = decide (s.getLast? = some b) := by
  unfold hasSuffix
  rw [Bool.eq_iff_iff]
  simp only [List.isSuffixOf_iff_suffix, decide_eq_true_eq]
  constructor
  · rintro ⟨t, rfl⟩
    simp
  · intro h
    obtain ⟨t, rfl⟩ | rfl : (∃ t, s = t ++ [b]) ∨ s = [] := by
      rcases List.eq_nil_or_concat s with h0 | ⟨t, x, rfl⟩
      · exact Or.inr h0
      · simp at h
        subst h
        exact Or.inl ⟨t, by simp⟩
    · exact List.suffix_append _ _
    · simp at h

theorem hasSuffix_append_cons (p : Str) (x : Nat) (q : Str) (b : Nat) :
    hasSuffix (p ++ x :: q) [b] = hasSuffix (x :: q) [b] := by
  rw [hasSuffix_singleton, hasSuffix_singleton, List.getLast?_append]
  cases h : (x :: q).getLast? with
  | none => simp at h
  | some y => simp

/-- The text of a name, an optional modifier and more text starts with a byte
that opens no group, when the name does not start with one. -/
theorem head_no_group (a : Str) (modifier : Option Str) (x : Nat) (tail : Str)
    (hhead : ∀ c, a.head? = some c → c ≠ 40 ∧ c ≠ 38 ∧ c ≠ 124 ∧ c ≠ 33)
    (hx : x = 126 ∨ x = 61) :
    ∃ c tl, a ++ (modifierText modifier ++ x :: tail) = c :: tl ∧
      c ≠ 40 ∧ c ≠ 38 ∧ c ≠ 124 ∧ c ≠ 33 := by
  cases a with
  | cons c1 a2 => exact ⟨c1, _, rfl, hhead c1 rfl⟩
  | nil =>
    cases modifier with
    | none => exact ⟨x, tail, rfl, by omega, by omega, by omega, by omega⟩
    | some m => exact ⟨58, _, rfl, by omega, by omega, by omega, by omega⟩

/-- The parser gives the same result on a filter written with `~=` and on
the filter written with `=`, when the latter has at least 5 bytes. -/
theorem ParseQuery_tilde (L : Lib) (a : Str) (modifier : Option Str) (rest : Str)
    (ha : nameText a = true)
    (hhead : ∀ c, a.head? = some c → c ≠ 40 ∧ c ≠ 38 ∧ c ≠ 124 ∧ c ≠ 33)
    (hm : ∀ m, modifier = some m → 58 ∉ m)
    (hlen : 5 ≤ (40 :: (a ++ (modifierText modifier ++ 61 :: rest))).length) :
    ParseQuery L (40 :: (a ++ (modifierText modifier ++ 126 :: 61 :: rest))) =
      ParseQuery L (40 :: (a ++ (modifierText modifier ++ 61 :: rest))) := by
  have hlex := lexAttributeExpression_tilde a modifier rest ha hm
  have hl1 : (a ++ (modifierText modifier ++ 126 :: 61 :: rest)).length =
      (a ++ (modifierText modifier ++ 61 :: rest)).length + 1 := by
    simp only [List.length_append, List.length_cons]
    omega
  have hsuf : hasSuffix (40 :: (a ++ (modifierText modifier ++ 126 :: 61 :: rest))) [41] =
      hasSuffix (40 :: (a ++ (modifierText modifier ++ 61 :: rest))) [41] := by
    have e1 : 40 :: (a ++ (modifierText modifier ++ 126 :: 61 :: rest)) =
        (40 :: (a ++ (modifierText modifier ++ [126]))) ++ 61 :: rest := by simp
    have e2 : 40 :: (a ++ (modifierText modifier ++ 61 :: rest)) =
        (40 :: (a ++ modifierText modifier)) ++ 61 :: rest := by simp
    rw [e1, e2, hasSuffix_append_cons, hasSuffix_append_cons]
  obtain ⟨c1, tl1, e1, hc1⟩ := head_no_group a modifier 126 (61 :: rest) hhead (Or.inl rfl)
  obtain ⟨c2, tl2, e2, hc2⟩ := head_no_group a modifier 61 rest hhead (Or.inr rfl)
  unfold ParseQuery
  rw [e1] at hl1 hsuf hlex ⊢
  rw [e2] at hl1 hsuf hlex hlen ⊢
  rw [ParseQueryF_attribute_step L _ c1 tl1 hc1, ParseQueryF_attribute_step L _ c2 tl2 hc2]
  have g1 : ¬ (40 :: c1 :: tl1).length < 5 := by
    simp only [List.length_cons] at hl1 hlen ⊢; omega
  have g2 : ¬ (40 :: c2 :: tl2).length < 5 := by
    simp only [List.length_cons] at hlen ⊢; omega
  rw [if_neg g1, if_neg g2, hsuf]
  have hp : parseAttributeExpression L
      (fun v => strictResult (ParseQueryF L (2 * (40 :: c1 :: tl1).length + 1) v)) (c1 :: tl1) =
      parseAttributeExpression L
      (fun v => strictResult (ParseQueryF L (2 * (40 :: c2 :: tl2).length + 1) v))
        (c2 :: tl2) := by
    have h1 : parseAttributeExpression L
        (fun v => strictResult (ParseQueryF L (2 * (40 :: c1 :: tl1).length + 1) v))
          (c1 :: tl1) =
        parseAttributeExpression L
        (fun v => strictResult (ParseQueryF L (2 * (40 :: c1 :: tl1).length + 1) v))
          (c2 :: tl2) := by
      unfold parseAttributeExpression
      rw [hlex]
    rw [h1]
    exact parseAttributeExpression_fuel L (c2 :: tl2) _ _
      (by simp only [List.length_cons] at hl1 ⊢; omega)
      (by simp only [List.length_cons]; omega)
  rw [hp]

/-- A `~` that is not followed by `=`, after a name and an optional modifier,
makes `ParseQuery` return an error. -/
theorem ParseQuery_tilde_error (L : Lib) (a : Str) (modifier : Option Str) (rest : Str)
    (d : Nat) (ha : nameText a = true)
    (hhead : ∀ c, a.head? = some c → c ≠ 40 ∧ c ≠ 38 ∧ c ≠ 124 ∧ c ≠ 33)
    (hm : ∀ m, modifier = some m → 58 ∉ m) (hd : d ≠ 61) :
    ParseQuery L (40 :: (a ++ (modifierText modifier ++ 126 :: d :: rest))) = .error .tooShort ∨
    ParseQuery L (40 :: (a ++ (modifierText modifier ++ 126 :: d :: rest))) = .error .noParens ∨
    ParseQuery L (40 :: (a ++ (modifierText modifier ++ 126 :: d :: rest)))
      = .error .tildeNotEquals := by
  have hlex := lexAttributeExpression_tilde_error a modifier rest d ha hm hd
  obtain ⟨c1, tl1, e1, hc1⟩ := head_no_group a modifier 126 (d :: rest) hhead (Or.inl rfl)
  unfold ParseQuery
  rw [e1] at hlex ⊢
  rw [ParseQueryF_attribute_step L _ c1 tl1 hc1]
  by_cases g1 : (40 :: c1 :: tl1).length < 5
  · rw [if_pos g1]; exact Or.inl rfl
  · rw [if_neg g1]
    by_cases g2 : hasSuffix (40 :: c1 :: tl1) [41] = false
    · rw [if_pos g2]; exact Or.inr (Or.inl rfl)
    · rw [if_neg g2]
      unfold parseAttributeExpression
      rw [hlex]
      exact Or.inr (Or.inr rfl)

/-- C19 (counterexample): `(a~=)` has 5 bytes and parses to a match on the
empty value, while `(a=)` has 4 bytes and is rejected as too short. -/
theorem C19_counterexample :
    ParseQuery exampleLib (ascii "(a~=)")
      = .ok ([], .hasInsensitiveStringMatch (A (ascii "a")) []) ∧
    ParseQuery exampleLib (ascii "(a=)") = .error .tooShort :=
  ⟨by rfl, by rfl⟩

/-- C19 (amended): for every attribute name text `a` (plain bytes and
escapes, not starting with a group opener), optional modifier text `m`
without colon and every text `rest` after the comparator, when the filter
written with `=` has at least 5 bytes, `ParseQuery` returns the same result
on the filter written with `~=`; and a `~` followed by a byte other than `=`
gives a parse error. -/
theorem C19_tilde_equals (L : Lib) (a : Str) (modifier : Option Str) (rest : Str) (d : Nat)
    (ha : nameText a = true)
    (hhead : ∀ c, a.head? = some c → c ≠ 40 ∧ c ≠ 38 ∧ c ≠ 124 ∧ c ≠ 33)
    (hm : ∀ m, modifier = some m → 58 ∉ m)
    (hlen : 5 ≤ (40 :: (a ++ (modifierText modifier ++ 61 :: rest))).length)
    (hd : d ≠ 61) :
    ParseQuery L (40 :: (a ++ (modifierText modifier ++ 126 :: 61 :: rest))) =
      ParseQuery L (40 :: (a ++ (modifierText modifier ++ 61 :: rest))) ∧
    ∃ e, ParseQuery L (40 :: (a ++ (modifierText modifier ++ 126 :: d :: rest))) = .error e := by
  refine ⟨ParseQuery_tilde L a modifier rest ha hhead hm hlen, ?_⟩
  rcases ParseQuery_tilde_error L a modifier rest d ha hhead hm hd with h | h | h
  · exact ⟨_, h⟩
  · exact ⟨_, h⟩
  · exact ⟨_, h⟩

theorem C19_tilde_equals_witness :
    nameText [99, 110] = true ∧
    5 ≤ (40 :: ([99, 110] ++ (modifierText none ++ 61 :: [98, 111, 98, 41]))).length ∧
    (ParseQuery exampleLib
        (40 :: ([99, 110] ++ (modifierText none ++ 126 :: 61 :: [98, 111, 98, 41])))
      = ParseQuery exampleLib
        (40 :: ([99, 110] ++ (modifierText none ++ 61 :: [98, 111, 98, 41]))) ∧
    ∃ e, ParseQuery exampleLib
      (40 :: ([99, 110] ++ (modifierText none ++ 126 :: 98 :: [98, 111, 98, 41]))) = .error e) :=
  ⟨by rfl, by decide,
    C19_tilde_equals exampleLib [99, 110] none [98, 111, 98, 41] 98 (by rfl)
      (by intro c hc; simp at hc; subst hc; decide) (by intro m hm; cases hm) (by decide)
      (by decide)⟩


/-- The loop with the trace agrees with the loop of the code, visits no more
objects than the recursive call, and is false when neither its values nor
the visited objects match the target. -/
theorem dnTraceLoop_spec (L : Lib) (W : Objects) (a : Attribute) (dn : Str)
    (rec1 : Object → Bool) (rec2 : Object → Bool × List Object) (n : Nat)
    (h1 : ∀ p, (rec2 p).1 = rec1 p) (h2 : ∀ p, (rec2 p).2.length ≤ n)
    (h3 : ∀ p, (∀ q ∈ (rec2 p).2, ∀ v ∈ q.AttrRendered a, L.toLower v ≠ L.toLower dn) →
      (rec2 p).1 = false) :
    ∀ vs : List Str,
      (dnTraceLoop L W dn rec2 vs).1 = dnValuesLoop L W dn rec1 vs ∧
      (dnTraceLoop L W dn rec2 vs).2.length ≤ n ∧
      ((∀ v ∈ vs, L.toLower v ≠ L.toLower dn) →
        (∀ q ∈ (dnTraceLoop L W dn rec2 vs).2, ∀ v ∈ q.AttrRendered a,
          L.toLower v ≠ L.toLower dn) →
        (dnTraceLoop L W dn rec2 vs).1 = false)
  | [] => by simp [dnTraceLoop, dnValuesLoop]
  | value :: rest => by
    obtain ⟨ih1, ih2, ih3⟩ := dnTraceLoop_spec L W a dn rec1 rec2 n h1 h2 h3 rest
    simp only [dnTraceLoop, dnValuesLoop]
    by_cases hv : L.toLower value = L.toLower dn
    · simp only [if_pos hv]
      refine ⟨trivial, by simp, fun hvs _ => ?_⟩
      exact absurd hv (hvs value (List.mem_cons_self _ _))
    · simp only [if_neg hv]
      cases hf : W.Find value with
      | some parent =>
        simp only []
        exact ⟨h1 parent, h2 parent, fun _ hq => h3 parent hq⟩
      | none =>
        simp only []
        exact ⟨ih1, ih2, fun hvs hq => ih3 (fun v hv2 => hvs v (List.mem_cons_of_mem _ hv2)) hq⟩

/-- The function with the trace agrees with `recursiveDNmatchFunc`, visits at
most `maxdepth` objects, and is false when no visited object has a value that
matches the target. -/
theorem recursiveDNmatchTrace_spec (L : Lib) (W : Objects) (a : Attribute) (dn : Str) :
    ∀ (maxdepth : Nat) (o : Object),
      (recursiveDNmatchTrace L W o a dn maxdepth).1 = recursiveDNmatchFunc L W o a dn maxdepth ∧
      (recursiveDNmatchTrace L W o a dn maxdepth).2.length ≤ maxdepth ∧
      ((∀ q ∈ (recursiveDNmatchTrace L W o a dn maxdepth).2, ∀ v ∈ q.AttrRendered a,
          L.toLower v ≠ L.toLower dn) →
        (recursiveDNmatchTrace L W o a dn maxdepth).1 = false)
  | 0, o => by simp [recursiveDNmatchTrace, recursiveDNmatchFunc]
  | n + 1, o => by
    have ih := recursiveDNmatchTrace_spec L W a dn n
    obtain ⟨l1, l2, l3⟩ := dnTraceLoop_spec L W a dn
      (fun parent => recursiveDNmatchFunc L W parent a dn n)
      (fun parent => recursiveDNmatchTrace L W parent a dn n) n
      (fun p => (ih p).1) (fun p => (ih p).2.1) (fun p => (ih p).2.2) (o.AttrRendered a)
    simp only [recursiveDNmatchTrace, recursiveDNmatchFunc]
    refine ⟨l1, by simp only [List.length_cons]; omega, fun hq => ?_⟩
    exact l3 (fun v hv => hq o (List.mem_cons_self _ _) v hv)
      (fun q hq2 => hq q (List.mem_cons_of_mem _ hq2))

/-- C21: evaluation of the recursive DN-chain matcher is a total function of
the object and the store; the recursion visits at most 10 objects (the
evaluated object included), and the result is false when no visited object
has a value equal to the target, compared as the matcher compares
(both sides lower-cased). On a store with a cycle of two objects and on an
object that names itself the result is false after exactly 10 visits. -/
theorem C21_dnchain_terminates (L : Lib) (W : Objects) (a : Attribute) (dn : Str)
    (o : Object) (r : Nat) :
    ((Query.recursiveDNmatcher a dn).Evaluate L W o r).1
      = (recursiveDNmatchTrace L W o a dn 10).1 ∧
    (recursiveDNmatchTrace L W o a dn 10).2.length ≤ 10 ∧
    ((∀ q ∈ (recursiveDNmatchTrace L W o a dn 10).2, ∀ v ∈ q.AttrRendered a,
        L.toLower v ≠ L.toLower dn) →
      ((Query.recursiveDNmatcher a dn).Evaluate L W o r).1 = false) ∧
    ((Query.recursiveDNmatcher (A (ascii "memberOf")) (ascii "cn=admins")).Evaluate
        exampleLib exCyclicStore exCycleA 0).1 = false ∧
    (recursiveDNmatchTrace exampleLib exCyclicStore exCycleA (A (ascii "memberOf"))
        (ascii "cn=admins") 10).2
      = [exCycleA, exCycleB, exCycleA, exCycleB, exCycleA, exCycleB, exCycleA, exCycleB,
          exCycleA, exCycleB] ∧
    ((Query.recursiveDNmatcher (A (ascii "memberOf")) (ascii "cn=admins")).Evaluate
        exampleLib exCyclicStore exSelfRef 0).1 = false ∧
    (recursiveDNmatchTrace exampleLib exCyclicStore exSelfRef (A (ascii "memberOf"))
        (ascii "cn=admins") 10).2 = List.replicate 10 exSelfRef := by
  obtain ⟨h1, h2, h3⟩ := recursiveDNmatchTrace_spec L W a dn 10 o
  refine ⟨?_, h2, fun hq => ?_, by rfl, by rfl, by rfl, by rfl⟩
  · simp only [Query.Evaluate]
    exact h1.symm
  · simp only [Query.Evaluate]
    rw [← h1]
    exact h3 hq



theorem mem_insertByLen (x y : IndexSelectorInfo) :
    ∀ l : List IndexSelectorInfo, y ∈ insertByLen x l ↔ y = x ∨ y ∈ l
  | [] => by simp [insertByLen]
  | z :: rest => by
    simp only [insertByLen]
    split
    · simp
    · simp [mem_insertByLen x y rest]; tauto

theorem insertByLen_perm (x : IndexSelectorInfo) :
    ∀ l : List IndexSelectorInfo, (insertByLen x l).Perm (x :: l)
  | [] => List.Perm.refl _
  | y :: rest => by
    simp only [insertByLen]
    split
    · exact List.Perm.refl _
    · exact ((insertByLen_perm x rest).cons y).trans (List.Perm.swap x y rest)

theorem foldl_insertByLen_perm :
    ∀ (l acc : List IndexSelectorInfo),
      (l.foldl (fun acc x => insertByLen x acc) acc).Perm (l ++ acc)
  | [], acc => List.Perm.refl _
  | x :: rest, acc => by
    simp only [List.foldl, List.cons_append]
    exact (foldl_insertByLen_perm rest (insertByLen x acc)).trans
      ((List.Perm.append_left rest (insertByLen_perm x acc)).trans List.perm_middle)

theorem insertByLen_sorted (x : IndexSelectorInfo) :
    ∀ l : List IndexSelectorInfo,
      l.Pairwise (fun p q => p.results.length ≤ q.results.length) →
      (insertByLen x l).Pairwise (fun p q => p.results.length ≤ q.results.length)
  | [], _ => by simp [insertByLen]
  | y :: rest, h => by
    rw [List.pairwise_cons] at h
    simp only [insertByLen]
    by_cases hlt : x.results.length < y.results.length
    · rw [if_pos hlt, List.pairwise_cons, List.pairwise_cons]
      refine ⟨fun p hp => ?_, h.1, h.2⟩
      rcases List.mem_cons.mp hp with rfl | hp
      · omega
      · have := h.1 p hp
        omega
    · rw [if_neg hlt, List.pairwise_cons]
      refine ⟨fun p hp => ?_, insertByLen_sorted x rest h.2⟩
      rcases (mem_insertByLen x p rest).mp hp with rfl | hp
      · omega
      · exact h.1 p hp

theorem foldl_insertByLen_sorted :
    ∀ (l acc : List IndexSelectorInfo),
      acc.Pairwise (fun p q => p.results.length ≤ q.results.length) →
      (l.foldl (fun acc x => insertByLen x acc) acc).Pairwise
        (fun p q => p.results.length ≤ q.results.length)
  | [], _, h => h
  | x :: rest, acc, h => by
    simp only [List.foldl]
    exact foldl_insertByLen_sorted rest _ (insertByLen_sorted x acc h)

theorem insertionSort_func_perm (l : List IndexSelectorInfo) : (insertionSort_func l).Perm l := by
  have h := foldl_insertByLen_perm l []
  simpa [insertionSort_func] using h

theorem insertionSort_func_sorted (l : List IndexSelectorInfo) :
    (insertionSort_func l).Pairwise (fun p q => p.results.length ≤ q.results.length) :=
  foldl_insertByLen_sorted l [] List.Pairwise.nil

/-- The insertion sort keeps the promise of the library sort. -/
theorem insertionSort_func_SortContract : SortContract insertionSort_func := fun l =>
  ⟨insertionSort_func_perm l,
    (insertionSort_func_sorted l).imp (fun h => Nat.not_lt.mpr h)⟩

theorem sortSlice_perm (pdqsort : List IndexSelectorInfo → List IndexSelectorInfo)
    (hsort : SortContract pdqsort) (l : List IndexSelectorInfo) :
    (sortSlice pdqsort l).Perm l := by
  unfold sortSlice
  split
  · exact insertionSort_func_perm l
  · exact (hsort l).1

theorem mem_sortSlice (pdqsort : List IndexSelectorInfo → List IndexSelectorInfo)
    (hsort : SortContract pdqsort) (y : IndexSelectorInfo) (l : List IndexSelectorInfo) :
    y ∈ sortSlice pdqsort l ↔ y ∈ l :=
  (sortSlice_perm pdqsort hsort l).mem_iff

/-- The sorted candidates are in ascending order of the sizes of their result sets. -/
theorem sortSlice_sorted (pdqsort : List IndexSelectorInfo → List IndexSelectorInfo)
    (hsort : SortContract pdqsort) (l : List IndexSelectorInfo) :
    (sortSlice pdqsort l).Pairwise (fun p q => p.results.length ≤ q.results.length) := by
  unfold sortSlice
  split
  · exact insertionSort_func_sorted l
  · exact (hsort l).2.imp (fun h => Nat.not_lt.mp h)

/-- The final loop on candidates in ascending order: either every result set
is empty, or the loop stops at a non-empty result set than which no other
non-empty result set is smaller. -/
theorem driveLoop_sorted (L : Lib) (W : Objects) (q : Query) :
    ∀ l : List IndexSelectorInfo,
      l.Pairwise (fun p q => p.results.length ≤ q.results.length) →
      (driveLoop L W q l = none ∧ ∀ p ∈ l, p.results = []) ∨
      ∃ d ∈ l, d.results ≠ [] ∧
        driveLoop L W q l = some
          (if d.queryIndex = -1 then d.results else (filterLoop L W d.results q 0).1) ∧
        ∀ p ∈ l, p.results ≠ [] → d.results.length ≤ p.results.length
  | [], _ => Or.inl ⟨rfl, by simp⟩
  | fi :: rest, h => by
    rw [List.pairwise_cons] at h
    simp only [driveLoop]
    by_cases hne : fi.results.length ≠ 0
    · right
      refine ⟨fi, List.mem_cons_self _ _, fun h0 => by simp [h0] at hne, ?_, fun p hp _ => ?_⟩
      · rw [if_pos hne]
        by_cases hq : fi.queryIndex = -1 <;> simp [hq]
      · rcases List.mem_cons.mp hp with rfl | hp
        · exact Nat.le_refl _
        · exact h.1 p hp
    · rw [if_neg hne]
      have h0 : fi.results = [] := by
        cases hr : fi.results with
        | nil => rfl
        | cons x xs => simp [hr] at hne
      rcases driveLoop_sorted L W q rest h.2 with ⟨hn, hall⟩ | ⟨d, hd, hdne, hdr, hmin⟩
      · left
        refine ⟨hn, fun p hp => ?_⟩
        rcases List.mem_cons.mp hp with rfl | hp
        · exact h0
        · exact hall p hp
      · right
        refine ⟨d, List.mem_cons_of_mem _ hd, hdne, hdr, fun p hp hpne => ?_⟩
        rcases List.mem_cons.mp hp with rfl | hp
        · exact absurd h0 hpne
        · exact hmin p hp hpne

/-- The candidates of a conjunction after the lookup loop: one for each
exact-match child, holding what the index returns for its attribute and
literal. -/
theorem mem_lookupIndexes_and (ao : Objects) (subitems : List Query) (p : IndexSelectorInfo) :
    p ∈ lookupIndexes ao (potentialindexes (.andquery subitems)) ↔
      ∃ st ∈ subitems, ∃ a m, exactMatchOperand st = some (a, m) ∧
        p = ⟨a, m, (ao.index a m).getD [], 0⟩ := by
  simp only [lookupIndexes, potentialindexes, List.mem_map, List.mem_filterMap]
  constructor
  · rintro ⟨p0, ⟨st, hst, hp0⟩, rfl⟩
    cases hop : exactMatchOperand st with
    | none => simp [hop] at hp0
    | some am =>
      obtain ⟨a, m⟩ := am
      simp only [hop, Option.some.injEq] at hp0
      subst hp0
      refine ⟨st, hst, a, m, hop, ?_⟩
      cases hi : ao.index a m <;> simp
  · rintro ⟨st, hst, a, m, hop, rfl⟩
    refine ⟨⟨a, m, [], 0⟩, ⟨st, hst, by simp [hop]⟩, ?_⟩
    cases hi : ao.index a m <;> simp [hi]

theorem Execute_potentialindexes_nil (L : Lib)
    (pdqsort : List IndexSelectorInfo → List IndexSelectorInfo) (W : Objects) (q : Query)
    (ao : Objects) (h : potentialindexes q = []) :
    Execute L pdqsort W q ao = ao.Filter L W q := by
  simp [Execute, h]

/-- The conjunction path of `Execute`: either the lookup of every exact-match
child is empty and the store is scanned, or the whole predicate is evaluated
over the non-empty index result of one exact-match child, than which no
other non-empty index result of an exact-match child is smaller. -/
theorem Execute_andquery (L : Lib) (pdqsort : List IndexSelectorInfo → List IndexSelectorInfo)
    (hsort : SortContract pdqsort) (W : Objects) (subitems : List Query) (ao : Objects) :
    ((∀ st ∈ subitems, ∀ a m, exactMatchOperand st = some (a, m) →
        (ao.index a m).getD [] = []) ∧
      Execute L pdqsort W (.andquery subitems) ao = ao.Filter L W (.andquery subitems)) ∨
    ∃ st ∈ subitems, ∃ a m, exactMatchOperand st = some (a, m) ∧
      (ao.index a m).getD [] ≠ [] ∧
      Execute L pdqsort W (.andquery subitems) ao
        = (filterLoop L W ((ao.index a m).getD []) (.andquery subitems) 0).1 ∧
      ∀ st2 ∈ subitems, ∀ a2 m2, exactMatchOperand st2 = some (a2, m2) →
        (ao.index a2 m2).getD [] ≠ [] →
        ((ao.index a m).getD []).length ≤ ((ao.index a2 m2).getD []).length := by
  have hmem := mem_lookupIndexes_and ao subitems
  unfold Execute
  by_cases h0 : (potentialindexes (.andquery subitems)).length = 0
  · left
    rw [if_pos h0]
    refine ⟨fun st hst a m hop => ?_, rfl⟩
    have hp := (hmem ⟨a, m, (ao.index a m).getD [], 0⟩).mpr ⟨st, hst, a, m, hop, rfl⟩
    rw [List.length_eq_zero.mp h0] at hp
    simp [lookupIndexes] at hp
  · rw [if_neg h0]
    rcases driveLoop_sorted L W (.andquery subitems) _
        (sortSlice_sorted pdqsort hsort
          (lookupIndexes ao (potentialindexes (.andquery subitems))))
      with ⟨hn, hall⟩ | ⟨d, hd, hdne, hdr, hmin⟩
    · left
      rw [hn]
      refine ⟨fun st hst a m hop => ?_, rfl⟩
      have hp := (hmem ⟨a, m, (ao.index a m).getD [], 0⟩).mpr ⟨st, hst, a, m, hop, rfl⟩
      exact hall _ ((mem_sortSlice pdqsort hsort _ _).mpr hp)
    · right
      rw [mem_sortSlice pdqsort hsort] at hd
      obtain ⟨st, hst, a, m, hop, rfl⟩ := (hmem d).mp hd
      refine ⟨st, hst, a, m, hop, hdne, ?_, fun st2 hst2 a2 m2 hop2 hne2 => ?_⟩
      · rw [hdr]
        simp
      · have hp := (hmem ⟨a2, m2, (ao.index a2 m2).getD [], 0⟩).mpr
          ⟨st2, hst2, a2, m2, hop2, rfl⟩
        exact hmin _ ((mem_sortSlice pdqsort hsort _ _).mpr hp) hne2

/-- The bare exact-match path of `Execute`: a non-empty index result is
returned as it is; otherwise the store is scanned. -/
theorem Execute_bare (L : Lib) (pdqsort : List IndexSelectorInfo → List IndexSelectorInfo)
    (W : Objects) (q : Query) (a : Attribute) (m : Str) (ao : Objects)
    (hq : q = .hasStringMatch a m ∨ q = .hasInsensitiveStringMatch a m) :
    Execute L pdqsort W q ao =
      if (ao.index a m).getD [] ≠ [] then (ao.index a m).getD [] else ao.Filter L W q := by
  rcases hq with rfl | rfl
  · cases hi : ao.index a m with
    | none =>
      simp [Execute, potentialindexes, exactMatchOperand, lookupIndexes, sortSlice,
        insertionSort_func, insertByLen, driveLoop, hi]
    | some found =>
      cases found <;>
      simp [Execute, potentialindexes, exactMatchOperand, lookupIndexes, sortSlice,
        insertionSort_func, insertByLen, driveLoop, hi]
  · cases hi : ao.index a m with
    | none =>
      simp [Execute, potentialindexes, exactMatchOperand, lookupIndexes, sortSlice,
        insertionSort_func, insertByLen, driveLoop, hi]
    | some found =>
      cases found <;>
      simp [Execute, potentialindexes, exactMatchOperand, lookupIndexes, sortSlice,
        insertionSort_func, insertByLen, driveLoop, hi]

/-- The result of the linear filter is part of the filtered objects. -/
theorem filterLoop_mem (L : Lib) (W : Objects) :
    ∀ (objs : List Object) (q : Query) (r : Nat) (o : Object),
      o ∈ (filterLoop L W objs q r).1 → o ∈ objs
  | [], q, r, o, h => by simp [filterLoop] at h
  | x :: rest, q, r, o, h => by
    simp only [filterLoop] at h
    by_cases hb : (q.Evaluate L W x r).1 = true
    · rw [if_pos hb] at h
      rcases List.mem_cons.mp h with rfl | h
      · exact List.mem_cons_self _ _
      · exact List.mem_cons_of_mem _ (filterLoop_mem L W rest _ _ o h)
    · rw [if_neg hb] at h
      exact List.mem_cons_of_mem _ (filterLoop_mem L W rest _ _ o h)

theorem hasStringMatch_eval (L : Lib) (W : Objects) (a : Attribute) (m : Str) (o : Object) :
    ((Query.hasStringMatch a m).Evaluate L W o 0).1 = true ↔ m ∈ o.AttrRendered a := by
  simp [Query.Evaluate]

/-- When the index agrees with the candidates of a query without `_limit` and
`_random100` nodes, `Execute` and the scan have the same members. -/
theorem Execute_of_IndexAgrees (L : Lib)
    (pdqsort : List IndexSelectorInfo → List IndexSelectorInfo) (hsort : SortContract pdqsort)
    (W : Objects) (q : Query) (ao : Objects) (hagree : IndexAgrees L W ao q)
    (h : q.sideEffectFree = true) (o : Object) :
    o ∈ Execute L pdqsort W q ao ↔ o ∈ ao.Filter L W q := by
  have hbare : ∀ a m, (q = .hasStringMatch a m ∨ q = .hasInsensitiveStringMatch a m) →
      q ∈ candidateNodes q → exactMatchOperand q = some (a, m) →
      (o ∈ Execute L pdqsort W q ao ↔ o ∈ ao.Filter L W q) := by
    intro a m hq hc hop
    rw [Execute_bare L pdqsort W q a m ao hq]
    by_cases hne : (ao.index a m).getD [] ≠ []
    · rw [if_pos hne, hagree q hc a m hop o]
      simp only [Objects.Filter, filterLoop_sideEffectFree L W q h, List.mem_filter]
    · rw [if_neg hne]
  cases q with
  | andquery subitems =>
    rcases Execute_andquery L pdqsort hsort W subitems ao with
      ⟨-, hex⟩ | ⟨st, hst, a, m, hop, -, hex, -⟩
    · rw [hex]
    · rw [hex]
      have hc : st ∈ candidateNodes (.andquery subitems) := by
        simp only [candidateNodes, List.mem_filter]
        exact ⟨hst, by simp [hop]⟩
      have hag := hagree st hc a m hop o
      simp only [Objects.Filter, filterLoop_sideEffectFree L W _ h, List.mem_filter]
      constructor
      · rintro ⟨hmem, hev⟩
        exact ⟨(hag.mp hmem).1, hev⟩
      · rintro ⟨hmem, hev⟩
        refine ⟨hag.mpr ⟨hmem, ?_⟩, hev⟩
        have hall : allSideEffectFree subitems = true := by
          simpa [Query.sideEffectFree] using h
        have hev2 : (evaluateAnd L W subitems o 0).1 = true := by
          simpa [Query.Evaluate] using hev
        exact evaluateAnd_true_mem L W o subitems hall hev2 st hst
  | hasStringMatch a m =>
    exact hbare a m (Or.inl rfl) (by simp [candidateNodes, exactMatchOperand]) rfl
  | hasInsensitiveStringMatch a m =>
    exact hbare a m (Or.inr rfl) (by simp [candidateNodes, exactMatchOperand]) rfl
  | _ => rw [Execute_potentialindexes_nil L pdqsort W _ ao (by rfl)]

/-- An index that maps a value exactly to the objects holding it agrees with
the candidates of a query whose candidates are all case-sensitive. -/
theorem IndexAgrees_of_IndexExact (L : Lib) (W : Objects) (q : Query) (ao : Objects)
    (hidx : IndexExact ao) (hq : q.noInsensitiveCandidate = true) : IndexAgrees L W ao q := by
  intro n hn a m hop o
  have hns : n.isInsensitiveMatch = false := by
    cases q with
    | andquery subitems =>
      simp only [candidateNodes, List.mem_filter] at hn
      simp only [Query.noInsensitiveCandidate, List.all_eq_true, Bool.not_eq_true'] at hq
      exact hq n hn.1
    | hasInsensitiveStringMatch a2 m2 => simp [Query.noInsensitiveCandidate,
        Query.isInsensitiveMatch] at hq
    | hasStringMatch a2 m2 =>
      simp [candidateNodes, exactMatchOperand] at hn
      subst hn
      rfl
    | _ => simp [candidateNodes, exactMatchOperand] at hn
  cases n with
  | hasStringMatch a2 m2 =>
    simp only [exactMatchOperand, Option.some.injEq, Prod.mk.injEq] at hop
    obtain ⟨rfl, rfl⟩ := hop
    rw [hasStringMatch_eval]
    exact hidx a2 m2 o
  | hasInsensitiveStringMatch a2 m2 => simp [Query.isInsensitiveMatch] at hns
  | _ => simp [exactMatchOperand] at hop

theorem exactStore_IndexExact (objs : List Object) : IndexExact (exactStore objs) := by
  intro a v o
  simp only [exactStore]
  split
  · rename_i hempty
    simp only [Option.getD_none, List.not_mem_nil, false_iff, not_and]
    intro ho hv
    have : o ∈ objs.filter fun o => (o.AttrRendered a).contains v := by
      simp [List.mem_filter, ho, hv]
    rw [List.isEmpty_iff] at hempty
    rw [hempty] at this
    simp at this
  · simp [List.mem_filter]

/-- The index of the folded store returns for a lower-cased literal the
objects on which the case-insensitive exact match is true. -/
theorem foldedStore_agrees (L : Lib) (W : Objects) (objs : List Object) (a : Attribute)
    (m : Str) (o : Object) :
    o ∈ ((foldedStore L objs).index a m).getD [] ↔
      (o ∈ (foldedStore L objs).objs ∧
        ((Query.hasInsensitiveStringMatch a m).Evaluate L W o 0).1 = true) := by
  simp only [foldedStore]
  split
  · rename_i hempty
    simp only [Option.getD_none, List.not_mem_nil, false_iff, not_and]
    intro ho hv
    have : o ∈ objs.filter fun o =>
        (o.AttrRendered a).any fun value => decide (m = L.toLower value) := by
      rw [List.mem_filter]
      exact ⟨ho, by simpa [Query.Evaluate] using hv⟩
    rw [List.isEmpty_iff] at hempty
    rw [hempty] at this
    simp at this
  · simp [List.mem_filter, Query.Evaluate]


/-- The folded index agrees with a bare case-insensitive exact match. -/
theorem foldedStore_IndexAgrees (L : Lib) (W : Objects) (objs : List Object) (a : Attribute)
    (m : Str) : IndexAgrees L W (foldedStore L objs) (.hasInsensitiveStringMatch a m) := by
  intro n hn a2 m2 hop o
  simp only [candidateNodes, exactMatchOperand, Option.isSome_some, if_true,
    List.mem_singleton] at hn
  subst hn
  simp only [exactMatchOperand, Option.some.injEq, Prod.mk.injEq] at hop
  obtain ⟨rfl, rfl⟩ := hop
  exact foldedStore_agrees L W objs a m o

/-- C1 (counterexample): on a store with an exact index, the query
`(&(_limit=1)(cn:caseExactMatch:=x))` executed through the index returns the
object whose `cn` is `x`, while the scan returns nothing (the limit is spent
on the first scanned object); and the query `(cn=bob)` on the objects with
`cn` `BOB` and `bob` returns through the index only the object holding `bob`,
while the scan returns both. -/
theorem C1_counterexample :
    IndexExact (exactStore [exObjectY, exObjectX]) ∧
    ParseQueryStrict exampleLib (ascii "(&(_limit=1)(cn:caseExactMatch:=x))") = .ok exLimitQuery ∧
    (∀ pdqsort, ¬ (∀ o, o ∈ Execute exampleLib pdqsort (exactStore [exObjectY, exObjectX])
              exLimitQuery (exactStore [exObjectY, exObjectX]) ↔
            o ∈ (exactStore [exObjectY, exObjectX]).Filter exampleLib
              (exactStore [exObjectY, exObjectX]) exLimitQuery)) ∧
    IndexExact (exactStore [exObjectBOB, exObjectBob]) ∧
    ParseQueryStrict exampleLib (ascii "(cn=bob)")
      = .ok (.hasInsensitiveStringMatch (A (ascii "cn")) (ascii "bob")) ∧
    (Query.hasInsensitiveStringMatch (A (ascii "cn")) (ascii "bob")).sideEffectFree = true ∧
    (∀ pdqsort, Execute exampleLib pdqsort (exactStore [])
        (.hasInsensitiveStringMatch (A (ascii "cn")) (ascii "bob"))
        (exactStore [exObjectBOB, exObjectBob]) = [exObjectBob]) ∧
    (exactStore [exObjectBOB, exObjectBob]).Filter exampleLib (exactStore [])
        (.hasInsensitiveStringMatch (A (ascii "cn")) (ascii "bob"))
      = [exObjectBOB, exObjectBob] := by
  refine ⟨exactStore_IndexExact _, by rfl, fun pdqsort h => ?_, exactStore_IndexExact _,
    by rfl, by rfl, fun _ => by rfl, by rfl⟩
  have h1 : Execute exampleLib pdqsort (exactStore [exObjectY, exObjectX]) exLimitQuery
      (exactStore [exObjectY, exObjectX]) = [exObjectX] := by rfl
  have h2 : (exactStore [exObjectY, exObjectX]).Filter exampleLib
      (exactStore [exObjectY, exObjectX]) exLimitQuery = [] := by rfl
  have h3 := (h exObjectX).mp (by rw [h1]; exact List.mem_singleton.mpr rfl)
  rw [h2] at h3
  exact List.not_mem_nil _ h3

/-- C1 (amended): for every query that has no `_limit` and no `_random100`
node and no case-insensitive exact match among its index candidates, or that
offers no index candidate, and every store whose index maps a value exactly
to the objects holding it, `Execute` and the full scan contain the same
objects; the library sort is any that keeps its promise. -/
theorem C1_execute_transparent (L : Lib)
    (pdqsort : List IndexSelectorInfo → List IndexSelectorInfo) (hsort : SortContract pdqsort)
    (W : Objects) (q : Query) (ao : Objects) (hidx : IndexExact ao)
    (h : (q.sideEffectFree = true ∧ q.noInsensitiveCandidate = true) ∨
      potentialindexes q = []) (o : Object) :
    o ∈ Execute L pdqsort W q ao ↔ o ∈ ao.Filter L W q := by
  rcases h with h | h
  · exact Execute_of_IndexAgrees L pdqsort hsort W q ao
      (IndexAgrees_of_IndexExact L W q ao hidx h.2) h.1 o
  · rw [Execute_potentialindexes_nil L pdqsort W q ao h]

/-- C1 (witness): the amended statement at the query
`(&(cn:caseExactMatch:=x)(cn=*))` on the two-object store. -/
theorem C1_execute_transparent_witness :
    SortContract insertionSort_func ∧
    IndexExact (exactStore [exObjectY, exObjectX]) ∧
    ((exPureQuery.sideEffectFree = true ∧ exPureQuery.noInsensitiveCandidate = true) ∨
      potentialindexes exPureQuery = []) ∧
    (exObjectX ∈ Execute exampleLib insertionSort_func (exactStore [exObjectY, exObjectX])
        exPureQuery (exactStore [exObjectY, exObjectX]) ↔
      exObjectX ∈ (exactStore [exObjectY, exObjectX]).Filter exampleLib
        (exactStore [exObjectY, exObjectX]) exPureQuery) :=
  ⟨insertionSort_func_SortContract, exactStore_IndexExact _, Or.inl ⟨rfl, rfl⟩,
    C1_execute_transparent exampleLib insertionSort_func insertionSort_func_SortContract
      (exactStore [exObjectY, exObjectX]) exPureQuery
      (exactStore [exObjectY, exObjectX]) (exactStore_IndexExact _) (Or.inl ⟨rfl, rfl⟩)
      exObjectX⟩

/-- C22 (counterexample): the store holds the objects with `cn` `BOB` and
`bob`, and its index returns for a value exactly the objects holding it (the
objects on which the case-sensitive exact match is true). The conjunction
`(&(cn=bob)(cn=*))` and the bare `(cn=bob)` have no `_limit` and no
`_random100` node; `Execute` returns only the object holding `bob`, while the
scan returns both objects. -/
theorem C22_counterexample :
    IndexExact (exactStore [exObjectBOB, exObjectBob]) ∧
    (∀ a v o, o ∈ ((exactStore [exObjectBOB, exObjectBob]).index a v).getD [] ↔
      (o ∈ (exactStore [exObjectBOB, exObjectBob]).objs ∧
        ((Query.hasStringMatch a v).Evaluate exampleLib (exactStore []) o 0).1 = true)) ∧
    ParseQueryStrict exampleLib (ascii "(&(cn=bob)(cn=*))")
      = .ok (.andquery [.hasInsensitiveStringMatch (A (ascii "cn")) (ascii "bob"),
          .hasAttr (A (ascii "cn"))]) ∧
    (Query.andquery [.hasInsensitiveStringMatch (A (ascii "cn")) (ascii "bob"),
      .hasAttr (A (ascii "cn"))]).sideEffectFree = true ∧
    (∀ pdqsort, Execute exampleLib pdqsort (exactStore [])
        (.andquery [.hasInsensitiveStringMatch (A (ascii "cn")) (ascii "bob"),
          .hasAttr (A (ascii "cn"))])
        (exactStore [exObjectBOB, exObjectBob]) = [exObjectBob]) ∧
    (exactStore [exObjectBOB, exObjectBob]).Filter exampleLib (exactStore [])
        (.andquery [.hasInsensitiveStringMatch (A (ascii "cn")) (ascii "bob"),
          .hasAttr (A (ascii "cn"))])
      = [exObjectBOB, exObjectBob] ∧
    (∀ pdqsort, Execute exampleLib pdqsort (exactStore [])
        (.hasInsensitiveStringMatch (A (ascii "cn")) (ascii "bob"))
        (exactStore [exObjectBOB, exObjectBob]) = [exObjectBob]) ∧
    (exactStore [exObjectBOB, exObjectBob]).Filter exampleLib (exactStore [])
        (.hasInsensitiveStringMatch (A (ascii "cn")) (ascii "bob"))
      = [exObjectBOB, exObjectBob] := by
  refine ⟨exactStore_IndexExact _, fun a v o => ?_, by rfl, by rfl, fun _ => by rfl, by rfl,
    fun _ => by rfl, by rfl⟩
  rw [hasStringMatch_eval]
  exact exactStore_IndexExact _ a v o

/-- C22 (amended): for a query without `_limit` and `_random100` nodes and a
store whose index returns, for the attribute and literal of each candidate,
exactly the objects of the store on which that candidate node is true,
`Execute` and the full scan contain the same objects; and so in each path:
without candidate `Execute` is the scan; for a bare exact match (of either
case rule) it is the index result when that is not empty and the scan
otherwise; for a conjunction it is the whole predicate evaluated over the
non-empty index result of one exact-match child, of least size among the
non-empty ones, or the scan when every lookup is empty. -/
theorem C22_execute_refines_scan (L : Lib)
    (pdqsort : List IndexSelectorInfo → List IndexSelectorInfo) (hsort : SortContract pdqsort)
    (W : Objects) (q : Query) (ao : Objects) (hagree : IndexAgrees L W ao q)
    (h : q.sideEffectFree = true) :
    (∀ o, o ∈ Execute L pdqsort W q ao ↔ o ∈ ao.Filter L W q) ∧
    (potentialindexes q = [] → Execute L pdqsort W q ao = ao.Filter L W q) ∧
    (∀ a m, (q = .hasStringMatch a m ∨ q = .hasInsensitiveStringMatch a m) →
      Execute L pdqsort W q ao =
        (if (ao.index a m).getD [] ≠ [] then (ao.index a m).getD [] else ao.Filter L W q) ∧
      ∀ o, o ∈ (ao.index a m).getD [] ↔ o ∈ ao.Filter L W q) ∧
    (∀ subitems, q = .andquery subitems →
      ((∀ st ∈ subitems, ∀ a m, exactMatchOperand st = some (a, m) →
          (ao.index a m).getD [] = []) ∧
        Execute L pdqsort W q ao = ao.Filter L W q) ∨
      ∃ st ∈ subitems, ∃ a m, exactMatchOperand st = some (a, m) ∧
        (ao.index a m).getD [] ≠ [] ∧
        Execute L pdqsort W q ao = (filterLoop L W ((ao.index a m).getD []) q 0).1 ∧
        (∀ st2 ∈ subitems, ∀ a2 m2, exactMatchOperand st2 = some (a2, m2) →
          (ao.index a2 m2).getD [] ≠ [] →
          ((ao.index a m).getD []).length ≤ ((ao.index a2 m2).getD []).length) ∧
        ∀ o, o ∈ (filterLoop L W ((ao.index a m).getD []) q 0).1 ↔ o ∈ ao.Filter L W q) := by
  have hall := Execute_of_IndexAgrees L pdqsort hsort W q ao hagree h
  refine ⟨hall, Execute_potentialindexes_nil L pdqsort W q ao, ?_, ?_⟩
  · intro a m hq
    refine ⟨Execute_bare L pdqsort W q a m ao hq, fun o => ?_⟩
    have hc : q ∈ candidateNodes q ∧ exactMatchOperand q = some (a, m) := by
      rcases hq with rfl | rfl <;> simp [candidateNodes, exactMatchOperand]
    rw [hagree q hc.1 a m hc.2 o]
    simp only [Objects.Filter, filterLoop_sideEffectFree L W q h, List.mem_filter]
  · rintro subitems rfl
    rcases Execute_andquery L pdqsort hsort W subitems ao with
      hl | ⟨st, hst, a, m, hop, hne, hex, hmin⟩
    · exact Or.inl hl
    · refine Or.inr ⟨st, hst, a, m, hop, hne, hex, hmin, fun o => ?_⟩
      rw [← hex]
      exact hall o

theorem C22_execute_refines_scan_witness :
    SortContract insertionSort_func ∧
    IndexAgrees exampleLib (exactStore []) (foldedStore exampleLib [exObjectBOB, exObjectBob])
      (.hasInsensitiveStringMatch (A (ascii "cn")) (ascii "bob")) ∧
    (Query.hasInsensitiveStringMatch (A (ascii "cn")) (ascii "bob")).sideEffectFree = true ∧
    (∀ o, o ∈ Execute exampleLib insertionSort_func (exactStore [])
          (.hasInsensitiveStringMatch (A (ascii "cn")) (ascii "bob"))
          (foldedStore exampleLib [exObjectBOB, exObjectBob]) ↔
      o ∈ (foldedStore exampleLib [exObjectBOB, exObjectBob]).Filter exampleLib (exactStore [])
          (.hasInsensitiveStringMatch (A (ascii "cn")) (ascii "bob"))) ∧
    Execute exampleLib insertionSort_func (exactStore [])
        (.hasInsensitiveStringMatch (A (ascii "cn")) (ascii "bob"))
        (foldedStore exampleLib [exObjectBOB, exObjectBob]) = [exObjectBOB, exObjectBob] :=
  ⟨insertionSort_func_SortContract, foldedStore_IndexAgrees _ _ _ _ _, by rfl,
    (C22_execute_refines_scan exampleLib insertionSort_func insertionSort_func_SortContract
      (exactStore []) (.hasInsensitiveStringMatch (A (ascii "cn")) (ascii "bob"))
      (foldedStore exampleLib [exObjectBOB, exObjectBob]) (foldedStore_IndexAgrees _ _ _ _ _)
      (by rfl)).1,
    by rfl⟩

/-- C23: when the query is a conjunction and the index lookup of some
exact-match child is not empty, `Execute` evaluates the whole predicate over
the index result of one exact-match child; that result is not empty, no
exact-match child has a non-empty index result with fewer objects, and every
returned object belongs to it. The library sort is any that keeps its
promise. -/
theorem C23_smallest_candidate_drives (L : Lib)
    (pdqsort : List IndexSelectorInfo → List IndexSelectorInfo) (hsort : SortContract pdqsort)
    (W : Objects) (subitems : List Query) (ao : Objects)
    (hcand : ∃ st ∈ subitems, ∃ a m, exactMatchOperand st = some (a, m) ∧
      (ao.index a m).getD [] ≠ []) :
    ∃ st ∈ subitems, ∃ a m, exactMatchOperand st = some (a, m) ∧
      (ao.index a m).getD [] ≠ [] ∧
      Execute L pdqsort W (.andquery subitems) ao
        = (filterLoop L W ((ao.index a m).getD []) (.andquery subitems) 0).1 ∧
      (∀ st2 ∈ subitems, ∀ a2 m2, exactMatchOperand st2 = some (a2, m2) →
        (ao.index a2 m2).getD [] ≠ [] →
        ((ao.index a m).getD []).length ≤ ((ao.index a2 m2).getD []).length) ∧
      ∀ o ∈ Execute L pdqsort W (.andquery subitems) ao, o ∈ (ao.index a m).getD [] := by
  rcases Execute_andquery L pdqsort hsort W subitems ao with
    ⟨hl, -⟩ | ⟨st, hst, a, m, hop, hne, hex, hmin⟩
  · obtain ⟨st, hst, a, m, hop, hne⟩ := hcand
    exact absurd (hl st hst a m hop) hne
  · refine ⟨st, hst, a, m, hop, hne, hex, hmin, fun o ho => ?_⟩
    rw [hex] at ho
    exact filterLoop_mem L W _ _ _ o ho

/-- C23 (witness): `(&(cn=x)(ou=s))` on three objects with `cn` `x`, one of
which has `ou` `s`: the lookups have 3 and 1 objects, and the result comes
from the 1-object set. -/
theorem C23_smallest_candidate_drives_witness :
    SortContract insertionSort_func ∧
    ParseQueryStrict exampleLib (ascii "(&(cn=x)(ou=s))")
      = .ok (.andquery [.hasInsensitiveStringMatch (A (ascii "cn")) (ascii "x"),
          .hasInsensitiveStringMatch (A (ascii "ou")) (ascii "s")]) ∧
    ((exactStore [exObjectXt, exObjectXs, exObjectX]).index (A (ascii "cn")) (ascii "x")).getD []
      = [exObjectXt, exObjectXs, exObjectX] ∧
    ((exactStore [exObjectXt, exObjectXs, exObjectX]).index (A (ascii "ou")) (ascii "s")).getD []
      = [exObjectXs] ∧
    Execute exampleLib insertionSort_func (exactStore [])
        (.andquery [.hasInsensitiveStringMatch (A (ascii "cn")) (ascii "x"),
          .hasInsensitiveStringMatch (A (ascii "ou")) (ascii "s")])
        (exactStore [exObjectXt, exObjectXs, exObjectX]) = [exObjectXs] ∧
    (∃ st ∈ [Query.hasInsensitiveStringMatch (A (ascii "cn")) (ascii "x"),
        .hasInsensitiveStringMatch (A (ascii "ou")) (ascii "s")],
      ∃ a m, exactMatchOperand st = some (a, m) ∧
        ((exactStore [exObjectXt, exObjectXs, exObjectX]).index a m).getD [] ≠ []) ∧
    ∃ st ∈ [Query.hasInsensitiveStringMatch (A (ascii "cn")) (ascii "x"),
        .hasInsensitiveStringMatch (A (ascii "ou")) (ascii "s")],
      ∃ a m, exactMatchOperand st = some (a, m) ∧
      ((exactStore [exObjectXt, exObjectXs, exObjectX]).index a m).getD [] ≠ [] ∧
      Execute exampleLib insertionSort_func (exactStore [])
          (.andquery [.hasInsensitiveStringMatch (A (ascii "cn")) (ascii "x"),
            .hasInsensitiveStringMatch (A (ascii "ou")) (ascii "s")])
          (exactStore [exObjectXt, exObjectXs, exObjectX])
        = (filterLoop exampleLib (exactStore [])
            (((exactStore [exObjectXt, exObjectXs, exObjectX]).index a m).getD [])
            (.andquery [.hasInsensitiveStringMatch (A (ascii "cn")) (ascii "x"),
              .hasInsensitiveStringMatch (A (ascii "ou")) (ascii "s")]) 0).1 ∧
      (∀ st2 ∈ [Query.hasInsensitiveStringMatch (A (ascii "cn")) (ascii "x"),
          .hasInsensitiveStringMatch (A (ascii "ou")) (ascii "s")],
        ∀ a2 m2, exactMatchOperand st2 = some (a2, m2) →
        ((exactStore [exObjectXt, exObjectXs, exObjectX]).index a2 m2).getD [] ≠ [] →
        (((exactStore [exObjectXt, exObjectXs, exObjectX]).index a m).getD []).length ≤
          (((exactStore [exObjectXt, exObjectXs, exObjectX]).index a2 m2).getD []).length) ∧
      ∀ o ∈ Execute exampleLib insertionSort_func (exactStore [])
          (.andquery [.hasInsensitiveStringMatch (A (ascii "cn")) (ascii "x"),
            .hasInsensitiveStringMatch (A (ascii "ou")) (ascii "s")])
          (exactStore [exObjectXt, exObjectXs, exObjectX]),
        o ∈ ((exactStore [exObjectXt, exObjectXs, exObjectX]).index a m).getD [] :=
  ⟨insertionSort_func_SortContract, by rfl, by rfl, by rfl, by rfl,
    ⟨.hasInsensitiveStringMatch (A (ascii "ou")) (ascii "s"), by simp,
      A (ascii "ou"), ascii "s", rfl, by decide⟩,
    C23_smallest_candidate_drives exampleLib insertionSort_func
      insertionSort_func_SortContract (exactStore [])
      [.hasInsensitiveStringMatch (A (ascii "cn")) (ascii "x"),
        .hasInsensitiveStringMatch (A (ascii "ou")) (ascii "s")]
      (exactStore [exObjectXt, exObjectXs, exObjectX])
      ⟨.hasInsensitiveStringMatch (A (ascii "ou")) (ascii "s"), by simp,
        A (ascii "ou"), ascii "s", rfl, by decide⟩⟩

/-- C24 (counterexample): on a store whose index returns an object that does
not hold the looked-up value, `Execute` of the bare exact match
`(cn:caseExactMatch:=x)`, and likewise of `(cn=x)`, returns that object, on
which the predicate is false. -/
theorem C24_counterexample :
    ParseQueryStrict exampleLib (ascii "(cn:caseExactMatch:=x)")
      = .ok (.hasStringMatch (A (ascii "cn")) (ascii "x")) ∧
    (Query.hasStringMatch (A (ascii "cn")) (ascii "x")).sideEffectFree = true ∧
    (∀ pdqsort, Execute exampleLib pdqsort exImperfectStore
      (.hasStringMatch (A (ascii "cn")) (ascii "x")) exImperfectStore = [exObjectY]) ∧
    ((Query.hasStringMatch (A (ascii "cn")) (ascii "x")).Evaluate exampleLib exImperfectStore
      exObjectY 0).1 = false ∧
    ParseQueryStrict exampleLib (ascii "(cn=x)")
      = .ok (.hasInsensitiveStringMatch (A (ascii "cn")) (ascii "x")) ∧
    (Query.hasInsensitiveStringMatch (A (ascii "cn")) (ascii "x")).sideEffectFree = true ∧
    (∀ pdqsort, Execute exampleLib pdqsort exImperfectStore
      (.hasInsensitiveStringMatch (A (ascii "cn")) (ascii "x")) exImperfectStore
        = [exObjectY]) ∧
    ((Query.hasInsensitiveStringMatch (A (ascii "cn")) (ascii "x")).Evaluate exampleLib
      exImperfectStore exObjectY 0).1 = false :=
  ⟨by rfl, by rfl, fun _ => by rfl, by rfl, by rfl, by rfl, fun _ => by rfl, by rfl⟩

/-- C24 (amended): for every query without `_limit` and `_random100` nodes
that is not a bare exact-match node (case-sensitive or case-insensitive), and
every store, whatever its index returns, every object in the result of
`Execute` satisfies the predicate. The library sort is any that keeps its
promise. -/
theorem C24_no_false_positives (L : Lib)
    (pdqsort : List IndexSelectorInfo → List IndexSelectorInfo) (hsort : SortContract pdqsort)
    (W : Objects) (q : Query) (ao : Objects)
    (h : q.sideEffectFree = true) (hbare : exactMatchOperand q = none) (o : Object)
    (ho : o ∈ Execute L pdqsort W q ao) (r : Nat) : (q.Evaluate L W o r).1 = true := by
  have hscan : ∀ objs : List Object, o ∈ (filterLoop L W objs q 0).1 →
      (q.Evaluate L W o 0).1 = true := by
    intro objs hmem
    rw [filterLoop_sideEffectFree L W q h] at hmem
    exact (List.mem_filter.mp hmem).2
  have h0 : (q.Evaluate L W o 0).1 = true := by
    cases q with
    | andquery subitems =>
      rcases Execute_andquery L pdqsort hsort W subitems ao with
        ⟨-, hex⟩ | ⟨st, -, a, m, -, -, hex, -⟩
      · rw [hex] at ho; exact hscan _ ho
      · rw [hex] at ho; exact hscan _ ho
    | hasStringMatch a m => simp [exactMatchOperand] at hbare
    | hasInsensitiveStringMatch a m => simp [exactMatchOperand] at hbare
    | _ =>
      rw [Execute_potentialindexes_nil L pdqsort W _ ao (by rfl)] at ho
      exact hscan _ ho
  rw [Evaluate_sideEffectFree L W q o r h]
  exact h0

theorem C24_no_false_positives_witness :
    SortContract insertionSort_func ∧
    (Query.andquery [.hasInsensitiveStringMatch (A (ascii "cn")) (ascii "y"),
      .hasAttr (A (ascii "cn"))]).sideEffectFree = true ∧
    exactMatchOperand (Query.andquery [.hasInsensitiveStringMatch (A (ascii "cn")) (ascii "y"),
      .hasAttr (A (ascii "cn"))]) = none ∧
    exObjectY ∈ Execute exampleLib insertionSort_func exImperfectStore
      (.andquery [.hasInsensitiveStringMatch (A (ascii "cn")) (ascii "y"),
        .hasAttr (A (ascii "cn"))])
      exImperfectStore ∧
    ((Query.andquery [.hasInsensitiveStringMatch (A (ascii "cn")) (ascii "y"),
      .hasAttr (A (ascii "cn"))]).Evaluate exampleLib exImperfectStore exObjectY 0).1 = true :=
  ⟨insertionSort_func_SortContract, by rfl, by rfl, (by decide),
    C24_no_false_positives exampleLib insertionSort_func insertionSort_func_SortContract
      exImperfectStore
      (.andquery [.hasInsensitiveStringMatch (A (ascii "cn")) (ascii "y"),
        .hasAttr (A (ascii "cn"))])
      exImperfectStore (by rfl) (by rfl) exObjectY (by decide) 0⟩


/-- C11 (code at the failing input): for the ordinary attribute name `é`
(bytes 195, 169) the texts `(é:and:=2)` and `(é:or:=2)` parse to bitwise nodes
whose attribute name is the four bytes 195, 131, 194, 169; on an object whose
attribute `é` renders as the integer 2 both nodes are false, although
`2 & 2 = 2`. -/
theorem C11_bitwise_non_ascii_name (L : Lib) (W : Objects) :
    ordinaryName [195, 169] = true ∧
    ParseQuery L (attributeFilter [195, 169] (some (ascii "and")) .CompareEquals (ascii "2"))
      = .ok ([], .andModifier (A [195, 131, 194, 169]) 2) ∧
    ParseQuery L (attributeFilter [195, 169] (some (ascii "or")) .CompareEquals (ascii "2"))
      = .ok ([], .orModifier (A [195, 131, 194, 169]) 2) ∧
    exObjectAccentInt.AttrInt (A [195, 169]) = (2, true) ∧
    Int.land 2 2 = 2 ∧
    ((Query.andModifier (A [195, 131, 194, 169]) 2).Evaluate L W exObjectAccentInt 0).1
      = false ∧
    ((Query.orModifier (A [195, 131, 194, 169]) 2).Evaluate L W exObjectAccentInt 0).1
      = false ∧
    ((Query.andModifier (A [195, 169]) 2).Evaluate L W exObjectAccentInt 0).1 = true :=
  ⟨by rfl, by rfl, by rfl, by rfl, by rfl, by rfl, by rfl, by rfl⟩

/-- The parser on an empty group followed by more text: rejected as too
short when fewer than 2 bytes follow, otherwise (the text ending in a closing
parenthesis) parsed to the node without children, the following text being
the remainder. -/
theorem ParseQuery_empty_group (L : Lib) (c : Nat) (rest : Str) (hc : c = 38 ∨ c = 124) :
    ParseQuery L ([40, c, 41] ++ rest) =
      if rest.length < 2 then .error .tooShort
      else if hasSuffix rest [41] = false then .error .noParens
      else .ok (rest, if c = 38 then .andquery [] else .orquery []) := by
  have hlenEq : ([40, c, 41] ++ rest).length = rest.length + 3 := by
    simp only [List.length_append, List.length_cons, List.length_nil]
    omega
  by_cases hlen : rest.length < 2
  · rw [if_pos hlen]
    unfold ParseQuery
    rw [ParseQueryF, if_pos (by rw [hlenEq]; omega)]
  · rw [if_neg hlen]
    have hlen5 : ¬ ([40, c, 41] ++ rest).length < 5 := by rw [hlenEq]; omega
    cases rest with
    | nil => simp at hlen
    | cons x q =>
      have hs : hasSuffix ([40, c, 41] ++ x :: q) [41] = hasSuffix (x :: q) [41] :=
        hasSuffix_append_cons [40, c, 41] x q 41
      by_cases hsuf : hasSuffix (x :: q) [41] = false
      · rw [if_pos hsuf]
        unfold ParseQuery
        rw [ParseQueryF, if_neg hlen5, if_pos (by rw [hs, hsuf]; simp)]
      · rw [if_neg hsuf]
        have hsuf2 : hasSuffix (x :: q) [41] = true := by
          cases h : hasSuffix (x :: q) [41] with
          | true => rfl
          | false => exact absurd h hsuf
        obtain ⟨r2, hr2⟩ : ∃ r2, x :: q = r2 ++ [41] := by
          unfold hasSuffix at hsuf2
          rw [List.isSuffixOf_iff_suffix] at hsuf2
          obtain ⟨t, ht⟩ := hsuf2
          exact ⟨t, ht.symm⟩
        rw [hr2] at hlen ⊢
        have hl : 1 ≤ r2.length := by
          simp only [List.length_append, List.length_cons, List.length_nil] at hlen
          omega
        unfold ParseQuery
        have e : [40, c, 41] ++ (r2 ++ [41]) = [40, c, 41] ++ r2 ++ [41] := by simp
        rw [e]
        exact ParseQueryF_empty_group L _ c r2 hc hl

/-- C16 (amended): the parser has no check that a group has a member. An
empty group `(&)` or `(|)` is rejected as too short when fewer than 2 bytes
follow it in the input, and is otherwise (the input ending in a closing
parenthesis) parsed to the node without children. For stand-alone queries
`s_1 .. s_n` (at least one) that parse strictly to `q_1 .. q_n`, the text
`(&(&)s_1..s_n)` parses strictly to the conjunction of the empty conjunction
and the `q_i`, and `(|(|)s_1..s_n)` to the disjunction of the empty
disjunction and the `q_i`; `(((&)))` and `(((|)))` parse to the node without
children, which evaluates to true (conjunction) and false (disjunction) on
every object; `(&)`, `(|)`, `(&(&))`, `(&(a=b)(&))`, `((&))` and `(!(&))` are
rejected as too short. -/
theorem C16_empty_groups_accepted (L : Lib) (ss : List Str) (qs : List Query) (hne : ss ≠ [])
    (hf : List.Forall₂ (fun s q => ParseQueryStrict L s = .ok q) ss qs) :
    ParseQueryStrict L (ascii "(&(&)" ++ ss.flatten ++ ascii ")")
      = .ok (.andquery (.andquery [] :: qs)) ∧
    ParseQueryStrict L (ascii "(|(|)" ++ ss.flatten ++ ascii ")")
      = .ok (.orquery (.orquery [] :: qs)) ∧
    ParseQueryStrict L (ascii "(((&)))") = .ok (.andquery []) ∧
    ParseQueryStrict L (ascii "(((|)))") = .ok (.orquery []) ∧
    (∀ (W : Objects) (o : Object) (r : Nat),
      ((Query.andquery []).Evaluate L W o r).1 = true ∧
      ((Query.orquery []).Evaluate L W o r).1 = false) ∧
    (∀ rest : Str, ParseQuery L (ascii "(&)" ++ rest) =
      if rest.length < 2 then .error .tooShort
      else if hasSuffix rest (ascii ")") = false then .error .noParens
      else .ok (rest, .andquery [])) ∧
    (∀ rest : Str, ParseQuery L (ascii "(|)" ++ rest) =
      if rest.length < 2 then .error .tooShort
      else if hasSuffix rest (ascii ")") = false then .error .noParens
      else .ok (rest, .orquery [])) ∧
    ParseQueryStrict L (ascii "(&)") = .error .tooShort ∧
    ParseQueryStrict L (ascii "(|)") = .error .tooShort ∧
    ParseQueryStrict L (ascii "(&(&))") = .error .tooShort ∧
    ParseQueryStrict L (ascii "(|(|))") = .error .tooShort ∧
    ParseQueryStrict L (ascii "(&(a=b)(&))") = .error .tooShort ∧
    ParseQueryStrict L (ascii "((&))") = .error .tooShort ∧
    ParseQueryStrict L (ascii "(!(&))") = .error .tooShort := by
  have h1 := ParseQuery_group_with_empty L 38 (Or.inl rfl) ss qs hne hf
  have h2 := ParseQuery_group_with_empty L 124 (Or.inr rfl) ss qs hne hf
  have g1 := ParseQuery_empty_group L 38
  have g2 := ParseQuery_empty_group L 124
  refine ⟨?_, ?_, by rfl, by rfl, fun W o r => ⟨by rfl, by rfl⟩,
    fun rest => g1 rest (Or.inl rfl), fun rest => g2 rest (Or.inr rfl),
    by rfl, by rfl, by rfl, by rfl, by rfl, by rfl, by rfl⟩
  · rw [ParseQueryStrict_eq_ok]
    have e : ascii "(&(&)" ++ ss.flatten ++ ascii ")" =
        [40, 38] ++ ([40, 38, 41] ++ ss.flatten) ++ [41] := by rfl
    rw [e, h1]; rfl
  · rw [ParseQueryStrict_eq_ok]
    have e : ascii "(|(|)" ++ ss.flatten ++ ascii ")" =
        [40, 124] ++ ([40, 124, 41] ++ ss.flatten) ++ [41] := by rfl
    rw [e, h2]; rfl

theorem C16_empty_groups_accepted_witness :
    [ascii "(a=b)"] ≠ [] ∧
    List.Forall₂ (fun s q => ParseQueryStrict exampleLib s = .ok q) [ascii "(a=b)"]
      [.hasInsensitiveStringMatch (A (ascii "a")) (ascii "b")] ∧
    ParseQueryStrict exampleLib (ascii "(&(&)" ++ [ascii "(a=b)"].flatten ++ ascii ")")
      = .ok (.andquery [.andquery [],
          .hasInsensitiveStringMatch (A (ascii "a")) (ascii "b")]) :=
  ⟨by simp, List.Forall₂.cons (by rfl) List.Forall₂.nil,
    (C16_empty_groups_accepted exampleLib [ascii "(a=b)"]
      [.hasInsensitiveStringMatch (A (ascii "a")) (ascii "b")] (by simp)
      (List.Forall₂.cons (by rfl) List.Forall₂.nil)).1⟩

end Adalanche
